import Mathlib

/-!
Verification of the go-neuron concurrent MLP library.

Numbers: Go `float64` values are embedded as exact rationals (`F := ℚ`), so
arithmetic identities hold exactly.  Go maps keyed by string unit ids are
embedded as association lists whose key sets are kept duplicate-free by the
construction; map mutation becomes in-place entry replacement, preserving
entry order.  Channel-based communication is embedded in two ways: the
value-level computation of a full pass is a layer-by-layer function (with the
per-unit arrival order of signals handled by explicit permutation
quantification), and the synchronisation skeleton (which unit may perform
which channel operation when) is a separate small-step transition system.
-/

namespace Neuron

/-- Embedding of Go float64 as exact rationals. -/
abbrev F := ℚ

/-- A Param is a neural network parameter (src/neuron.go `Param`):
`Data`, `RequiresGrad`, the cached input `value` and accumulated `grad`. -/
structure Param where
  data : F
  requiresGrad : Bool
  value : F
  grad : F
deriving DecidableEq

/-- Association-list lookup, embedding Go map read `w.Params[id]`. -/
def lookupP : List (String × Param) → String → Option Param
  | [], _ => none
  | (k, p) :: rest, id => if k = id then some p else lookupP rest id

/-- Replace the (first) entry with the given key, embedding in-place mutation
of the `*Param` stored in the Go map. -/
def replaceP : List (String × Param) → String → Param → List (String × Param)
  | [], _, _ => []
  | (k, p) :: rest, id, p' =>
      if k = id then (k, p') :: rest else (k, p) :: replaceP rest id p'

/-- Go map write `w.Params[id] = &Param{...}`: replace if present, else append. -/
def insertP (ps : List (String × Param)) (id : String) (p : Param) :
    List (String × Param) :=
  match lookupP ps id with
  | some _ => replaceP ps id p
  | none => ps ++ [(id, p)]

/-- A Weight represents a neuron's weight map (src/neuron.go `Weight`). -/
structure Weight where
  params : List (String × Param)
deriving DecidableEq

/-- `Weight.init` (src/neuron.go): create a parameter with the given data. -/
def Weight.init (w : Weight) (id : String) (data : F) (requiresGrad : Bool) :
    Weight :=
  ⟨insertP w.params id { data := data, requiresGrad := requiresGrad, value := 0, grad := 0 }⟩

/-- `Weight.forward` (src/neuron.go): look up the parameter, cache the input
value when it requires grad, and return the weighted value (0 if absent). -/
def Weight.forward (w : Weight) (id : String) (value : F) : Weight × F :=
  match lookupP w.params id with
  | none => (w, 0)
  | some p =>
      (if p.requiresGrad then ⟨replaceP w.params id { p with value := value }⟩ else w,
       p.data * value)

/-- `Weight.backward` (src/neuron.go): accumulate `grad * p.value` into the
parameter's gradient when it requires grad, and return `p.Data * grad`. -/
def Weight.backward (w : Weight) (id : String) (grad : F) : Weight × F :=
  match lookupP w.params id with
  | none => (w, 0)
  | some p =>
      (if p.requiresGrad then ⟨replaceP w.params id { p with grad := p.grad + grad * p.value }⟩ else w,
       p.data * grad)

/-- `NewWeight` (src/neuron.go): an empty weight map. -/
def NewWeight : Weight := ⟨[]⟩

/-- Activation function kind: `Relu` or `Identity` (src/activations.go). -/
inductive ActivKind
  | relu
  | identity
deriving DecidableEq

/-- An activation together with its state: `Relu` caches the pre-activation
`value` during forward for use by backward (src/activations.go). -/
structure Activation where
  kind : ActivKind
  value : F
deriving DecidableEq

/-- `Relu.Forward` / `Identity.Forward` (src/activations.go): ReLU caches the
pre-activation and returns `max(value, 0)`; identity passes through. -/
def Activation.forward (a : Activation) (v : F) : Activation × F :=
  match a.kind with
  | .relu => ({ a with value := v }, max v 0)
  | .identity => (a, v)

/-- `Relu.Backward` / `Identity.Backward` (src/activations.go): ReLU zeroes
the gradient when the cached pre-activation was `<= 0`. -/
def Activation.backward (a : Activation) (grad : F) : F :=
  match a.kind with
  | .relu => if a.value ≤ 0 then 0 else grad
  | .identity => grad

/-- Signals are used to communicate between neuron units (src/neuron.go). -/
structure Signal where
  id : String
  value : F
deriving DecidableEq

/-- Special id for external input connections (src/neuron.go `inputID`). -/
def inputID : String := "_INPUT"

/-- Special id for the external output channel (src/neuron.go `outputID`). -/
def outputID : String := "_OUTPUT"

/-- Special id for the bias parameter (src/neuron.go `biasID`). -/
def biasID : String := "_BIAS"

/-- SGD optimizer with momentum and weight decay (src/optim.go `SGD`); the
momentum buffer is a map keyed by parameter id. -/
structure SGD where
  lr : F
  momentum : F
  weightDecay : F
  buf : List (String × F)
deriving DecidableEq

/-- Lookup in the momentum buffer, embedding `opt.buf[id]`. -/
def lookupB : List (String × F) → String → Option F
  | [], _ => none
  | (k, v) :: rest, id => if k = id then some v else lookupB rest id

/-- Buffer write `opt.buf[id] = v`: replace if present, else append. -/
def insertB : List (String × F) → String → F → List (String × F)
  | [], id, v => [(id, v)]
  | (k, w) :: rest, id, v =>
      if k = id then (k, v) :: rest else (k, w) :: insertB rest id v

/-- `SGD.Step` (src/optim.go): no-op on parameters that do not require grad;
otherwise apply weight decay, momentum, the learning-rate update, and zero the
accumulated gradient. -/
def SGD.Step (opt : SGD) (id : String) (p : Param) : SGD × Param :=
  if ¬ p.requiresGrad then (opt, p)
  else
    let grad := if 0 < opt.weightDecay then p.grad + opt.weightDecay * p.data else p.grad
    let ov : SGD × F :=
      if 0 < opt.momentum then
        match lookupB opt.buf id with
        | none => ({ opt with buf := insertB opt.buf id grad }, grad)
        | some v0 =>
            ({ opt with buf := insertB opt.buf id (opt.momentum * v0 + grad) },
             opt.momentum * v0 + grad)
      else (opt, grad)
    (ov.1, { p with data := p.data - opt.lr * ov.2, grad := 0 })

/-- `NewSGD` (src/optim.go): a fresh SGD optimizer with an empty buffer. -/
def NewSGD (lr momentum weightDecay : F) : SGD :=
  { lr := lr, momentum := momentum, weightDecay := weightDecay, buf := [] }

/-- `MarginLoss` (maximum-margin SVM loss and derivative): fails unless the
target is exactly +1 or -1; loss is `max(1 - score*target, 0)`; the gradient
is 0 when `score*target >= 1`, else `-target`. -/
def MarginLoss (score : F) (target : Int) : Except String (F × F) :=
  if ¬ (target = 1 ∨ target = -1) then .error "Expected target +/- 1"
  else
    let targetf : F := (target : F)
    let loss := max (1 - score * targetf) 0
    let grad := if 1 ≤ score * targetf then (0 : F) else -targetf
    .ok (loss, grad)

/-- A Unit is a single neuron unit (src/neuron.go `Unit`): id, weight map,
number of input connections, activation, and its optimizer.  The forward and
backward channel maps are embedded by their key lists: `output` holds the
ids of the downstream forward channels and `outputB` the ids of the upstream
backward channels; the actual message transport is performed by the
network-level pass functions below. -/
structure Unit where
  id : String
  w : Weight
  nin : Nat
  activ : Activation
  opt : SGD
  output : List String
  outputB : List String
deriving DecidableEq

/-- `newUnit` (src/neuron.go): fresh unit with empty maps and channels. -/
def newUnit (id : String) (activ : Activation) (opt : SGD) : Unit :=
  { id := id, w := NewWeight, nin := 0, activ := activ, opt := opt,
    output := [], outputB := [] }

/-- `Unit.feedIn` (src/neuron.go): add the external input connection with a
fixed untrainable weight of 1 and count it as an input. -/
def Unit.feedIn (u : Unit) : Unit :=
  { u with w := u.w.init inputID 1 false, nin := u.nin + 1 }

/-- `Unit.feedOut` (src/neuron.go): add the external output channel. -/
def Unit.feedOut (u : Unit) : Unit :=
  { u with output := u.output ++ [outputID] }

/-- `newInputUnit` (src/neuron.go): identity activation, external input. -/
def newInputUnit (id : String) (opt : SGD) : Unit :=
  (newUnit id ⟨.identity, 0⟩ opt).feedIn

/-- `newHiddenUnit` (src/neuron.go): ReLU activation and bias 0.1. -/
def newHiddenUnit (id : String) (opt : SGD) : Unit :=
  let u := newUnit id ⟨.relu, 0⟩ opt
  { u with w := u.w.init biasID (1/10) true }

/-- `newOutputUnit` (src/neuron.go): identity activation, bias 0, external
output channel. -/
def newOutputUnit (id : String) (opt : SGD) : Unit :=
  let u := newUnit id ⟨.identity, 0⟩ opt
  { u with w := u.w.init biasID 0 true }.feedOut

/-- `randUnif` (src/neuron.go): scale a `rand.Float64()` sample `rv` from
[0,1) into [a,b).  The random source itself is embedded as an explicit
stream of samples threaded through construction. -/
def randUnif (a b rv : F) : F := a + (b - a) * rv

/-- `Unit.connect` (src/neuron.go): connect `u1 -> u2`, giving `u1` a forward
channel to `u2`, giving `u2` a freshly sampled weight keyed by `u1.id`, a
backward channel to `u1`, and one more input connection.  `rv` is the
`rand.Float64()` sample consumed by this connection. -/
def connect (u1 u2 : Unit) (rv : F) : Unit × Unit :=
  ({ u1 with output := u1.output ++ [u2.id] },
   { u2 with w := u2.w.init u1.id (randUnif (-(1/100)) (1/100) rv) true,
             outputB := u2.outputB ++ [u1.id],
             nin := u2.nin + 1 })

/-- One iteration of the forward receive loop of `Unit.forward`
(src/neuron.go): `act += u.W.forward(s.id, s.value)`, threading the mutated
weight map. -/
def fwdStep (acc : Weight × F) (s : Signal) : Weight × F :=
  ((acc.1.forward s.id s.value).1, acc.2 + (acc.1.forward s.id s.value).2)

/-- `Unit.forward` (src/neuron.go): start from the bias contribution
`W.forward(biasID, 1)`, fold in `W.forward(s.id, s.value)` for each received
signal (the Go loop receives exactly `nin` signals; here the received list is
passed explicitly), apply the activation, and fire.  Returns the updated unit
and the activation value broadcast to every downstream channel. -/
def Unit.forward (u : Unit) (sigs : List Signal) : Unit × F :=
  ({ u with w := (sigs.foldl fwdStep (u.w.forward biasID 1)).1,
            activ := (u.activ.forward (sigs.foldl fwdStep (u.w.forward biasID 1)).2).1 },
   (u.activ.forward (sigs.foldl fwdStep (u.w.forward biasID 1)).2).2)

/-- One iteration of the backprop loop of `Unit.backward` (src/neuron.go):
`gradi := u.W.backward(k, grad)`, sending `signal{u.ID, gradi}` on the
backward channel `u.outputB[k]` when that channel exists. -/
def bwdStep (outB : List String) (uid : String) (grad : F)
    (acc : Weight × List (String × Signal))
    (kp : String × Param) : Weight × List (String × Signal) :=
  ((acc.1.backward kp.1 grad).1,
   acc.2 ++ if kp.1 ∈ outB then [(kp.1, ⟨uid, (acc.1.backward kp.1 grad).2⟩)] else [])

/-- `Unit.backward` (src/neuron.go): sum the received gradient signals (the
Go loop receives exactly `len(u.output)` of them), chain through the
activation derivative, then for every parameter key run `W.backward` and send
the returned upstream gradient on the matching backward channel when one
exists.  Returns the updated unit and the sent signals as (target, signal)
pairs, in parameter order. -/
def Unit.backward (u : Unit) (gsigs : List Signal) : Unit × List (String × Signal) :=
  ({ u with w := (u.w.params.foldl
        (bwdStep u.outputB u.id
          (u.activ.backward (gsigs.foldl (fun acc s => acc + s.value) 0)))
        (u.w, [])).1 },
   (u.w.params.foldl
        (bwdStep u.outputB u.id
          (u.activ.backward (gsigs.foldl (fun acc s => acc + s.value) 0)))
        (u.w, [])).2)

/-- One iteration of the update loop of `Unit.step` (src/neuron.go):
`u.opt.Step(k, p)`, threading the optimizer state and collecting the updated
parameters. -/
def stepStep (acc : SGD × List (String × Param)) (kp : String × Param) :
    SGD × List (String × Param) :=
  ((acc.1.Step kp.1 kp.2).1, acc.2 ++ [(kp.1, (acc.1.Step kp.1 kp.2).2)])

/-- `Unit.step` (src/neuron.go): run the optimizer once per parameter,
threading the optimizer state. -/
def Unit.step (u : Unit) : Unit :=
  { u with opt := (u.w.params.foldl stepStep (u.opt, [])).1,
           w := ⟨(u.w.params.foldl stepStep (u.opt, [])).2⟩ }

/-- Decimal digit character, as produced by `fmt.Sprintf("%d", ...)`. -/
def digitChar (d : Nat) : Char := Char.ofNat (48 + d)

/-- Decimal digit characters of `n`, most significant first (empty for 0;
the zero-padding below restores the `"0"`). -/
def natChars (n : Nat) : List Char := (Nat.digits 10 n).reverse.map digitChar

/-- Zero padding to a fixed width, as in `fmt.Sprintf("%03d", ...)`. -/
def padZeros (w : Nat) (l : List Char) : List Char :=
  List.replicate (w - l.length) '0' ++ l

/-- Unit id `fmt.Sprintf("%03d_%06d", ii, jj)` (src/net.go `idFormStr`). -/
def uid (ii jj : Nat) : String :=
  ⟨padZeros 3 (natChars ii) ++ '_' :: padZeros 6 (natChars jj)⟩

/-- A Net (src/net.go): the architecture and the units of each layer.  The
shared `stepDone` completion channel is modelled by the synchronisation
transition system below, not by a field. -/
structure Net where
  arch : List Int
  layers : List (List Unit)
deriving DecidableEq

/-- Layer construction loop of `NewMLP` (src/net.go): input units in layer 0,
output units in the last layer, hidden units in between, each with a fresh
optimizer `opt.New()`. -/
def mkLayer (opt : SGD) (numLayers ii sz : Nat) : List Unit :=
  (List.range sz).map fun jj =>
    if ii = 0 then newInputUnit (uid ii jj) (NewSGD opt.lr opt.momentum opt.weightDecay)
    else if ii = numLayers - 1 then newOutputUnit (uid ii jj) (NewSGD opt.lr opt.momentum opt.weightDecay)
    else newHiddenUnit (uid ii jj) (NewSGD opt.lr opt.momentum opt.weightDecay)

/-- Inner connection loop: connect `u1` to every unit of `l2` in order,
consuming one random sample per connection starting at stream index `c`. -/
def connectOne (u1 : Unit) (l2 : List Unit) (r : Nat → F) (c : Nat) :
    Unit × List Unit × Nat :=
  match l2 with
  | [] => (u1, [], c)
  | u2 :: rest =>
      let p := connect u1 u2 (r c)
      let q := connectOne p.1 rest r (c + 1)
      (q.1, p.2 :: q.2.1, q.2.2)

/-- Double connection loop of `NewMLP`: connect every unit of `l1` to every
unit of `l2`, in source-major order. -/
def connectAll (l1 l2 : List Unit) (r : Nat → F) (c : Nat) :
    List Unit × List Unit × Nat :=
  match l1 with
  | [] => ([], l2, c)
  | u1 :: rest =>
      let p := connectOne u1 l2 r c
      let q := connectAll rest p.2.1 r p.2.2
      (p.1 :: q.1, q.2.1, q.2.2)

/-- Outer connection loop of `NewMLP`: connect each adjacent pair of layers. -/
def connectNet (layers : List (List Unit)) (r : Nat → F) (c : Nat) :
    List (List Unit) :=
  match layers with
  | [] => []
  | [l] => [l]
  | l1 :: l2 :: rest =>
      let p := connectAll l1 l2 r c
      p.1 :: connectNet (p.2.1 :: rest) r p.2.2
termination_by layers.length
decreasing_by simp

/-- `NewMLP` (src/net.go): validate the architecture (at least 3 layers, all
sizes at least 1; violations panic), build the layers, and fully connect
adjacent layers.  `r` is the stream of `rand.Float64()` samples consumed by
weight initialization. -/
def NewMLP (arch : List Int) (opt : SGD) (r : Nat → F) : Except String Net :=
  if arch.length < 3 then .error "MLP architectures need >= 2 layers"
  else if arch.any (fun sz => sz < 1) then .error "Each layer >= 1 unit"
  else .ok
    { arch := arch,
      layers := connectNet
        ((List.range arch.length).map fun ii =>
          mkLayer opt arch.length ii (arch.getD ii 0).toNat) r 0 }

/-- One layer of a forward pass: every unit receives the same signal list
(one signal from each upstream peer) and fires; the outputs are collected in
unit order, tagged with the sender's id, forming the signal list delivered to
the next layer. -/
def runLayer (units : List Unit) (sigs : List Signal) :
    List Unit × List Signal :=
  let res := units.map fun u => u.forward sigs
  (res.map Prod.fst, res.map fun p => ⟨p.1.id, p.2⟩)

/-- Input layer of a forward pass: `Net.Forward` sends `signal{inputID, v}`
to the matching input unit, pairing units and data positionally. -/
def runInputLayer (units : List Unit) (data : List F) :
    List Unit × List Signal :=
  let res := (units.zip data).map fun p => p.1.forward [⟨inputID, p.2⟩]
  (res.map Prod.fst, res.map fun p => ⟨p.1.id, p.2⟩)

/-- Forward propagation through the non-input layers. -/
def runLayers (layers : List (List Unit)) (sigs : List Signal) :
    List (List Unit) × List Signal :=
  match layers with
  | [] => ([], sigs)
  | l :: rest =>
      let p := runLayer l sigs
      let q := runLayers rest p.2
      (p.1 :: q.1, q.2)

/-- `Net.Forward` (src/net.go): panic if the input length differs from
`Arch[0]`; otherwise feed each value to the matching input unit and collect
one result per output unit, in unit order.  Layer-to-layer message transport
is evaluated in canonical unit order here; invariance under the actual
nondeterministic per-unit arrival orders is proved separately. -/
def Net.Forward (n : Net) (data : List F) : Except String (List F × Net) :=
  if (data.length : Int) ≠ n.arch.headI then
    .error "Input dim not equal to number of input units"
  else
    match n.layers with
    | [] => .ok ([], n)
    | l0 :: rest =>
        let p := runInputLayer l0 data
        let q := runLayers rest p.2
        .ok (q.2.map Signal.value, { n with layers := p.1 :: q.1 })

/-- The signals `Net.Forward` sends to the input units: none when the
dimension check fails (the panic precedes the send loop), else one per input
value in order. -/
def Net.forwardSends (n : Net) (data : List F) : List Signal :=
  if (data.length : Int) ≠ n.arch.headI then []
  else data.map fun v => ⟨inputID, v⟩

/-- One layer of a backward pass.  `sends` are the (target, signal) pairs
emitted by the downstream layer (or by `Net.Backward` for the output layer);
each unit receives the signals addressed to it, in emission order, and runs
its backward step.  Results are the updated units and the union of their
emitted upstream sends, in unit order. -/
def runLayerB (units : List Unit) (sends : List (String × Signal)) :
    List Unit × List (String × Signal) :=
  let res := units.map fun u =>
    u.backward (((sends.filter fun ts => ts.1 = u.id).map Prod.snd))
  (res.map Prod.fst, (res.map Prod.snd).flatten)

/-- Backward propagation: the layers are processed from the output layer
down to the input layer (the argument list is the reversed layer list), each
layer consuming the sends emitted one layer downstream. -/
def runLayersBRev (revLayers : List (List Unit)) (sends : List (String × Signal)) :
    List (List Unit) :=
  match revLayers with
  | [] => []
  | l :: rest =>
      let p := runLayerB l sends
      p.1 :: runLayersBRev rest p.2

/-- `Net.Backward` (src/net.go): panic if the gradient length differs from
the last layer's size; otherwise feed `signal{inputID, v}` to each output
unit's backward channel and propagate gradients upstream layer by layer.
(The subsequent `sync()` barrier is modelled by the transition system
below.) -/
def Net.Backward (n : Net) (grad : List F) : Except String Net :=
  if (grad.length : Int) ≠ n.arch.getLastD 0 then
    .error "Grad dim not equal to number of output units"
  else
    let lastIds := (n.layers.getLastD []).map Unit.id
    let feed := (lastIds.zip grad).map fun p => (p.1, Signal.mk inputID p.2)
    .ok { n with layers := (runLayersBRev n.layers.reverse feed).reverse }

/-- `Unit.start` update phase: when training with `updateFreq > 0` and the
step counter divides, every unit takes an optimizer step (src/neuron.go
`start`).  With `updateFreq = 1` this happens after every backward pass. -/
def Net.stepAll (n : Net) : Net :=
  { n with layers := n.layers.map fun l => l.map Unit.step }

/-- One full training iteration as driven by the example loop: Forward,
Backward, and (with updateFreq 1) a Step on every unit, with the sync
barrier between iterations. -/
def Net.trainStep (n : Net) (data grad : List F) :
    Except String (List F × Net) :=
  match n.Forward data with
  | .error e => .error e
  | .ok p =>
      match p.2.Backward grad with
      | .error e => .error e
      | .ok n2 => .ok (p.1, n2.stepAll)

/-- A full training run over a script of (input, gradient) pairs, recording
the output and the post-step network state of every iteration: the weight
trajectory. -/
def Net.run (n : Net) (script : List (List F × List F)) :
    Except String (List (List F × Net)) :=
  match script with
  | [] => .ok []
  | s :: rest =>
      match n.trainStep s.1 s.2 with
      | .error e => .error e
      | .ok p =>
          match p.2.run rest with
          | .error e => .error e
          | .ok tr => .ok ((p.1, p.2) :: tr)

/-- Key list of a weight map. -/
def keysP (ps : List (String × Param)) : List String := ps.map Prod.fst

/-- The stored weight value for a key (0 when absent), used to state closed
forms of the pass computations. -/
def dataOf (w : Weight) (k : String) : F :=
  match lookupP w.params k with
  | some p => p.data
  | none => 0

/-- Pre-activation contribution of a signal list: the weighted sum the
forward fold accumulates. -/
def preAct (w : Weight) (sigs : List Signal) : F :=
  (sigs.map fun s => dataOf w s.id * s.value).sum

/-- Effect of processing a signal list on one weight-map entry: a parameter
requiring grad caches the value of the last signal bearing its key. -/
def cacheUpd (sigs : List Signal) (kp : String × Param) : String × Param :=
  if kp.2.requiresGrad then
    match (sigs.filter fun s => s.id = kp.1).getLast? with
    | some s => (kp.1, { kp.2 with value := s.value })
    | none => kp
  else kp

/-- Effect of a backward pass with post-derivative gradient `grad` on one
weight-map entry: a parameter requiring grad accumulates
`grad * cachedInput`. -/
def gradUpd (grad : F) (kp : String × Param) : String × Param :=
  if kp.2.requiresGrad then
    (kp.1, { kp.2 with grad := kp.2.grad + grad * kp.2.value })
  else kp

/-- The upstream sends of a backward pass: for each parameter key owning a
backward channel, `grad * weight` tagged with the sender's id, in parameter
order. -/
def bwdSends (outB : List String) (uid : String) (grad : F)
    (ps : List (String × Param)) : List (String × Signal) :=
  ps.filterMap fun kp =>
    if kp.1 ∈ outB then some (kp.1, ⟨uid, kp.2.data * grad⟩) else none

/-- Recursion form of the update loop of `Unit.step`: apply the optimizer to
each parameter in order, threading the optimizer state. -/
def stepSpec (opt : SGD) : List (String × Param) → SGD × List (String × Param)
  | [] => (opt, [])
  | kp :: rest =>
      ((stepSpec (opt.Step kp.1 kp.2).1 rest).1,
       (kp.1, (opt.Step kp.1 kp.2).2) :: (stepSpec (opt.Step kp.1 kp.2).1 rest).2)

/-- Effect of `connect` on the source unit: forward channels appended. -/
def addOut (ids : List String) (u : Unit) : Unit :=
  { u with output := u.output ++ ids }

/-- Effect of `connect` on the target unit: a fresh weight keyed by the
source id, a backward channel to the source, one more input connection. -/
def recvConn (srcId : String) (rv : F) (u : Unit) : Unit :=
  { u with w := u.w.init srcId (randUnif (-(1/100)) (1/100) rv) true,
           outputB := u.outputB ++ [srcId], nin := u.nin + 1 }

/-- Index-threaded map, used to state the builder's closed form. -/
def mapIdxFrom (f : Nat → Unit → Unit) : Nat → List Unit → List Unit
  | _, [] => []
  | c, u :: rest => f c u :: mapIdxFrom f (c + 1) rest

/-- Receive connections from each source in order, source `i` consuming the
random sample at stream index `c + i * stride`. -/
def recvConnN : List String → (Nat → F) → Nat → Nat → Unit → Unit
  | [], _, _, _, u => u
  | nm :: rest, r, c, stride, u =>
      recvConnN rest r (c + stride) stride (recvConn nm (r c) u)

/-- Ids of a unit list. -/
def idsOf (l : List Unit) : List String := l.map Unit.id

/-- Layer size read from the architecture. -/
def szOf (arch : List Int) (i : Nat) : Nat := (arch.getD i 0).toNat

/-- Ids of the units of one layer, in unit order. -/
def layerIds (arch : List Int) (i : Nat) : List String :=
  (List.range (szOf arch i)).map (uid i)

/-- Number of random samples consumed before the connection loop reaches the
layer pair `(i, i+1)`. -/
def cOff (arch : List Int) : Nat → Nat
  | 0 => 0
  | i + 1 => cOff arch i + szOf arch i * szOf arch (i + 1)

/-- The unit constructed for slot `(i, j)` before any connection is made. -/
def baseUnit (arch : List Int) (opt : SGD) (i j : Nat) : Unit :=
  if i = 0 then newInputUnit (uid i j) (NewSGD opt.lr opt.momentum opt.weightDecay)
  else if i = arch.length - 1 then
    newOutputUnit (uid i j) (NewSGD opt.lr opt.momentum opt.weightDecay)
  else newHiddenUnit (uid i j) (NewSGD opt.lr opt.momentum opt.weightDecay)

/-- The unit of slot `(i, j)` after the incoming connections from layer
`i - 1` have been made. -/
def recvUnit (arch : List Int) (opt : SGD) (r : Nat → F) (i j : Nat) : Unit :=
  match i with
  | 0 => baseUnit arch opt 0 j
  | t + 1 =>
      recvConnN (layerIds arch t) r (cOff arch t + j) (szOf arch (t + 1))
        (baseUnit arch opt (t + 1) j)

/-- The fully connected unit of slot `(i, j)`: incoming connections from
layer `i - 1` and outgoing channels to layer `i + 1`. -/
def builtUnit (arch : List Int) (opt : SGD) (r : Nat → F) (i j : Nat) : Unit :=
  if i = arch.length - 1 then recvUnit arch opt r i j
  else addOut (layerIds arch (i + 1)) (recvUnit arch opt r i j)

/-- The layers of the net `NewMLP` builds, in closed form. -/
def builtLayers (arch : List Int) (opt : SGD) (r : Nat → F) : List (List Unit) :=
  (List.range arch.length).map fun i =>
    (List.range (szOf arch i)).map (builtUnit arch opt r i)

/-- Decode a most-significant-first digit character list, ignoring leading
zeros, as `fmt`'s zero-padded output is decoded. -/
def decodeMSB (l : List Char) : Nat :=
  l.foldl (fun a c => 10 * a + (c.toNat - 48)) 0

/-- The weight-map entries appended by receiving connections from the named
sources in order, with stride-spaced random samples. -/
def connParams (nms : List String) (r : Nat → F) (c s : Nat) :
    List (String × Param) :=
  match nms with
  | [] => []
  | nm :: rest =>
      (nm, { data := randUnif (-(1/100)) (1/100) (r c), requiresGrad := true,
             value := 0, grad := 0 }) :: connParams rest r (c + s) s

/-- Specification-side unit output, following the claim's words: the unit
outputs `activation(bias + sum over upstream peers of
weight[peer] * peerValue)`, with activation `max(x, 0)` for a ReLU unit and
the identity otherwise. -/
def specUnitOut (prevIds : List String) (prev : List F) (u : Unit) : F :=
  match u.activ.kind with
  | .relu => max (dataOf u.w biasID +
      (List.zipWith (fun pid v => dataOf u.w pid * v) prevIds prev).sum) 0
  | .identity => dataOf u.w biasID +
      (List.zipWith (fun pid v => dataOf u.w pid * v) prevIds prev).sum

/-- Specification-side layer computation: every unit of the layer applies
the claim's formula to the previous layer's outputs. -/
def specLayer (prevIds : List String) (prev : List F) (units : List Unit) :
    List F :=
  units.map (specUnitOut prevIds prev)

/-- Specification-side forward recursion over the non-input layers. -/
def specForwardAux : List (List Unit) → List String → List F → List F
  | [], _, prev => prev
  | l :: rest, prevIds, prev => specForwardAux rest (idsOf l) (specLayer prevIds prev l)

/-- Specification-side network forward computation, following the claim's
words: input units pass the external input through unchanged, and every
later layer applies the standard MLP layer formula. -/
def specForward (n : Net) (data : List F) : List F :=
  match n.layers with
  | [] => data
  | l0 :: rest => specForwardAux rest (idsOf l0) data

/-- Ids of the last processed layer during the forward recursion. -/
def lastIdsOf : List (List Unit) → List String → List String
  | [], ids => ids
  | l :: rest, _ => lastIdsOf rest (idsOf l)

/-- Delivery-order-nondeterministic forward execution of one layer: each
unit of the layer receives the broadcast upstream signals in an arbitrary
arrival order (any permutation of the canonical list), as the Go channels
may deliver them, and fires. -/
inductive LayerFwdR : List Unit → List Signal → List Unit → List Signal → Prop where
  | nil (sigs : List Signal) : LayerFwdR [] sigs [] []
  | cons (u : Unit) (us : List Unit) (sigs deliv : List Signal)
      (us' : List Unit) (outs : List Signal) :
      deliv.Perm sigs →
      LayerFwdR us sigs us' outs →
      LayerFwdR (u :: us) sigs ((u.forward deliv).1 :: us')
        (⟨(u.forward deliv).1.id, (u.forward deliv).2⟩ :: outs)

/-- Delivery-order-nondeterministic forward execution of a list of layers. -/
inductive LayersFwdR :
    List (List Unit) → List Signal → List (List Unit) → List Signal → Prop where
  | nil (sigs : List Signal) : LayersFwdR [] sigs [] sigs
  | cons (l : List Unit) (rest : List (List Unit)) (sigs : List Signal)
      (l' : List Unit) (outs : List Signal) (rest' : List (List Unit))
      (outs' : List Signal) :
      LayerFwdR l sigs l' outs →
      LayersFwdR rest outs rest' outs' →
      LayersFwdR (l :: rest) sigs (l' :: rest') outs'

/-- Delivery-order-nondeterministic `Net.Forward`: the input units receive
their dedicated input signals (one channel each, no reordering possible);
every later layer receives its fan-in in arbitrary per-unit arrival order. -/
inductive NetFwdR : Net → List F → List F → Net → Prop where
  | nilL (n : Net) (data : List F) :
      n.layers = [] → (data.length : Int) = n.arch.headI →
      NetFwdR n data [] n
  | mk (n : Net) (data : List F) (l0 : List Unit)
      (rest rest' : List (List Unit)) (outs : List Signal) :
      n.layers = l0 :: rest →
      (data.length : Int) = n.arch.headI →
      LayersFwdR rest (runInputLayer l0 data).2 rest' outs →
      NetFwdR n data (outs.map Signal.value)
        { n with layers := (runInputLayer l0 data).1 :: rest' }

/-- Delivery-order-nondeterministic backward execution of one layer: each
unit receives the gradient signals addressed to it in an arbitrary arrival
order. -/
inductive LayerBwdR :
    List Unit → List (String × Signal) → List Unit → List (String × Signal) →
    Prop where
  | nil (sends : List (String × Signal)) : LayerBwdR [] sends [] []
  | cons (u : Unit) (us : List Unit) (sends : List (String × Signal))
      (deliv : List Signal) (us' : List Unit) (outs : List (String × Signal)) :
      deliv.Perm ((sends.filter fun ts => ts.1 = u.id).map Prod.snd) →
      LayerBwdR us sends us' outs →
      LayerBwdR (u :: us) sends ((u.backward deliv).1 :: us')
        ((u.backward deliv).2 ++ outs)

/-- Delivery-order-nondeterministic backward execution of the reversed layer
list. -/
inductive LayersBwdR :
    List (List Unit) → List (String × Signal) → List (List Unit) → Prop where
  | nil (sends : List (String × Signal)) : LayersBwdR [] sends []
  | cons (l : List Unit) (rest : List (List Unit))
      (sends : List (String × Signal)) (l' : List Unit)
      (outs : List (String × Signal)) (rest' : List (List Unit)) :
      LayerBwdR l sends l' outs →
      LayersBwdR rest outs rest' →
      LayersBwdR (l :: rest) sends (l' :: rest')

/-- Delivery-order-nondeterministic `Net.Backward`. -/
inductive NetBwdR : Net → List F → Net → Prop where
  | mk (n : Net) (grad : List F) (rev' : List (List Unit)) :
      (grad.length : Int) = n.arch.getLastD 0 →
      LayersBwdR n.layers.reverse
        ((((n.layers.getLastD []).map Unit.id).zip grad).map
          fun p => (p.1, Signal.mk inputID p.2)) rev' →
      NetBwdR n grad { n with layers := rev'.reverse }

/-- One delivery-order-nondeterministic training iteration: Forward,
Backward, then a Step on every unit. -/
inductive TrainStepR : Net → List F → List F → List F → Net → Prop where
  | mk (n : Net) (data grad outs : List F) (n1 n2 : Net) :
      NetFwdR n data outs n1 →
      NetBwdR n1 grad n2 →
      TrainStepR n data grad outs n2.stepAll

/-- A delivery-order-nondeterministic full training run over a script of
(input, gradient) pairs, recording every iteration's output and post-step
network state: one possible observed trajectory. -/
inductive RunR : Net → List (List F × List F) → List (List F × Net) → Prop where
  | nil (n : Net) : RunR n [] []
  | cons (n : Net) (s : List F × List F) (rest : List (List F × List F))
      (outs : List F) (n' : Net) (tr : List (List F × Net)) :
      TrainStepR n s.1 s.2 outs n' →
      RunR n' rest tr →
      RunR n (s :: rest) ((outs, n') :: tr)

/-- Structural well-formedness of a network: layer sizes match the
architecture, every unit's weight map has distinct keys, and every layer's
unit ids are distinct and distinct from the bias key.  `NewMLP` establishes
this and every training phase preserves it. -/
def NetWF (n : Net) : Prop :=
  n.layers.length = n.arch.length
  ∧ (∀ i : Nat, (n.layers.getD i []).length = szOf n.arch i)
  ∧ ∀ l ∈ n.layers, (∀ u ∈ l, (keysP u.w.params).Nodup)
      ∧ (idsOf l).Nodup ∧ biasID ∉ idsOf l

/-- Similarity of a unit and its image under a training phase: the id and
the weight-map key list are unchanged. -/
def UnitSim (u u' : Unit) : Prop :=
  u'.id = u.id ∧ keysP u'.w.params = keysP u.w.params

/-- Similarity of a network and its image under a training phase: same
architecture, and layerwise/unitwise similar units. -/
def NetSim (n n' : Net) : Prop :=
  n'.arch = n.arch ∧ List.Forall₂ (List.Forall₂ UnitSim) n.layers n'.layers

/-- A concrete 1-2-1 configuration used to exhibit two schedules of the same
run: optimizer. -/
def c4opt : SGD := NewSGD 1 0 0

/-- Concrete configuration: the (constant) random stream. -/
def c4r : Nat → F := fun _ => 0

/-- Concrete configuration: the architecture. -/
def c4arch : List Int := [1, 2, 1]

/-- Concrete configuration: the built network. -/
def c4net : Net := ⟨c4arch, builtLayers c4arch c4opt c4r⟩

/-- Concrete configuration: the unit in slot `(i, j)`. -/
def c4b (i j : Nat) : Unit := builtUnit c4arch c4opt c4r i j

/-- Concrete configuration: the processed input layer and its emitted
signals. -/
def c4p0 : List Unit × List Signal := runInputLayer [c4b 0 0] [5]

/-- Concrete configuration: the signals reaching the hidden layer. -/
def c4sig1 : List Signal := c4p0.2

/-- Concrete configuration: the processed hidden layer and its emitted
signals, received in canonical order. -/
def c4L1 : List Unit × List Signal := runLayer [c4b 1 0, c4b 1 1] c4sig1

/-- Concrete configuration: the signals reaching the output layer. -/
def c4sig2 : List Signal := c4L1.2

/-- Concrete configuration: the output unit after receiving its fan-in in
reversed arrival order. -/
def c4out2 : Unit × F := (c4b 2 0).forward c4sig2.reverse

/-- Concrete configuration: the network after the reversed-delivery forward
pass. -/
def c4net1b : Net := { c4net with layers := c4p0.1 :: [c4L1.1, [c4out2.1]] }

/-- Concrete configuration: the network after the subsequent backward
pass. -/
def c4net2b : Net :=
  { c4net1b with layers :=
      (runLayersBRev c4net1b.layers.reverse
        ((((c4net1b.layers.getLastD []).map Unit.id).zip [1]).map
          fun p => (p.1, Signal.mk inputID p.2))).reverse }

/-- The trajectory observed by the run whose channels deliver every fan-in
in canonical order. -/
def c4traj1 : List (List F × Net) :=
  match c4net.run [([5], [1])] with
  | .ok tr => tr
  | .error _ => []

/-- The trajectory observed by the run whose output unit receives its fan-in
in reversed order. -/
def c4traj2 : List (List F × Net) := [([c4out2.2], c4net2b.stepAll)]

/-! ### The synchronisation barrier

The training-mode concurrency of `Unit.start` (src/neuron.go), the driver
loops of `Net.Forward`/`Net.Backward` and the `sync` barrier (src/net.go)
are modelled as an interleaving transition system over unit phases and a
driver phase.  All Go channels involved are unbuffered, so every message is
a rendezvous: a send and its receive form one joint transition. -/

/-- The phase of a unit inside one iteration of its `start` loop
(src/neuron.go): receiving its forward fan-in (`got` of `nin` signals so
far), broadcasting its activation (`sent` downstream sends done), receiving
its backward fan-in, sending upstream gradients, and blocking on
`u.stepDone <- 1`.  The optimizer step is local computation and is absorbed
into the transition entering `done`. -/
inductive UPhase where
  | frecv (got : Nat)
  | fsend (sent : Nat)
  | brecv (got : Nat)
  | bsend (sent : Nat)
  | done
deriving DecidableEq

/-- A unit's state: its pass number (how many `stepDone` reports it has
completed) and its current phase. -/
structure UState where
  pass : Nat
  ph : UPhase
deriving DecidableEq

/-- The driver's phase inside one training iteration: the ordered feed loop
of `Net.Forward`, its ordered collect loop, the ordered gradient feed of
`Net.Backward`, and the receive loop of `sync` (`c` completions received on
the shared `stepDone` channel). -/
inductive DPhase where
  | feeding (j : Nat)
  | collecting (j : Nat)
  | grading (j : Nat)
  | syncing (c : Nat)
deriving DecidableEq

/-- The driver's state: its pass number and phase. -/
structure DState where
  pass : Nat
  dph : DPhase
deriving DecidableEq

/-- A global configuration: the driver and every unit, addressed by layer
and index.  (Positions outside the architecture are irrelevant and never
touched.) -/
structure Config where
  d : DState
  u : Nat → Nat → UState

/-- Layer size. -/
def sz (arch : List Nat) (i : Nat) : Nat := arch.getD i 0

/-- Forward fan-in of a unit of layer `i`: input units have `nin = 1`
(`feedIn`), later units one per upstream peer. -/
def nin (arch : List Nat) (i : Nat) : Nat :=
  if i = 0 then 1 else sz arch (i - 1)

/-- Forward fan-out (`len(u.output)`): output units have the single external
output channel (`feedOut`), others one channel per downstream peer.  This is
also the number of gradient signals received in `backward`. -/
def nout (arch : List Nat) (i : Nat) : Nat :=
  if i = arch.length - 1 then 1 else sz arch (i + 1)

/-- Number of upstream gradient sends of a unit of layer `i` (`backward`
sends on `u.outputB[k]` for every upstream weight): input units send none. -/
def nbwd (arch : List Nat) (i : Nat) : Nat :=
  if i = 0 then 0 else sz arch (i - 1)

/-- Total number of units, as summed by `sync` (src/net.go). -/
def totU (arch : List Nat) : Nat := arch.sum

/-- Point update of the unit-state table. -/
def updU (u : Nat → Nat → UState) (i j : Nat) (s : UState) :
    Nat → Nat → UState :=
  fun a b => if a = i ∧ b = j then s else u a b

/-- Phase after one more forward receive (the `for ii := 0; ii < u.nin`
loop): keep receiving or start broadcasting. -/
def advF (arch : List Nat) (i g : Nat) : UPhase :=
  if g + 1 < nin arch i then .frecv (g + 1) else .fsend 0

/-- Phase after one more forward send: keep broadcasting or start the
backward receive loop. -/
def advS (arch : List Nat) (i s : Nat) : UPhase :=
  if s + 1 < nout arch i then .fsend (s + 1) else .brecv 0

/-- Phase after one more backward receive: keep receiving, or start the
upstream gradient sends, or (for input units, which have none) go directly
to the `stepDone` report. -/
def advB (arch : List Nat) (i g : Nat) : UPhase :=
  if g + 1 < nout arch i then .brecv (g + 1)
  else if nbwd arch i = 0 then .done else .bsend 0

/-- Phase after one more backward send: keep sending or block on the
`stepDone` report. -/
def advBS (arch : List Nat) (i s : Nat) : UPhase :=
  if s + 1 < nbwd arch i then .bsend (s + 1) else .done

/-- One interleaving step of the network in training mode.  Every
constructor is a rendezvous of the Go code or a driver-local move:
`feed` is `n.Layers[0][ii].input <- ...` of `Net.Forward` paired with the
input unit's receive; `ffire` is a unit's broadcast send (`u.output` is a
map, so the downstream target is arbitrary) paired with the downstream
fan-in receive; `collect` is the ordered `<-...output[outputID]` of
`Net.Forward`; `grade` is the ordered `inputB <- ...` of `Net.Backward`;
`bfire` is an upstream gradient send (`W.Params` is a map, so the target is
arbitrary) paired with the upstream backward receive; `sync` is one receive
of `<-n.stepDone` paired with some unit's `u.stepDone <- 1`, after which
that unit re-enters `forward` for the next pass; the `*Done` moves are the
driver finishing one loop and entering the next. -/
inductive BStep (arch : List Nat) : Config → Config → Prop where
  | feed (c : Config) (p fj q g : Nat) :
      c.d = ⟨p, .feeding fj⟩ → fj < sz arch 0 →
      c.u 0 fj = ⟨q, .frecv g⟩ → g < nin arch 0 →
      BStep arch c ⟨⟨p, .feeding (fj + 1)⟩, updU c.u 0 fj ⟨q, advF arch 0 g⟩⟩
  | feedDone (c : Config) (p : Nat) :
      c.d = ⟨p, .feeding (sz arch 0)⟩ →
      BStep arch c ⟨⟨p, .collecting 0⟩, c.u⟩
  | ffire (c : Config) (i j k qs s qr g : Nat) :
      i + 1 < arch.length → j < sz arch i → k < sz arch (i + 1) →
      c.u i j = ⟨qs, .fsend s⟩ → s < nout arch i →
      c.u (i + 1) k = ⟨qr, .frecv g⟩ → g < nin arch (i + 1) →
      BStep arch c ⟨c.d,
        updU (updU c.u i j ⟨qs, advS arch i s⟩) (i + 1) k
          ⟨qr, advF arch (i + 1) g⟩⟩
  | collect (c : Config) (p cj q s : Nat) :
      c.d = ⟨p, .collecting cj⟩ → cj < sz arch (arch.length - 1) →
      c.u (arch.length - 1) cj = ⟨q, .fsend s⟩ →
      s < nout arch (arch.length - 1) →
      BStep arch c ⟨⟨p, .collecting (cj + 1)⟩,
        updU c.u (arch.length - 1) cj ⟨q, .brecv 0⟩⟩
  | collectDone (c : Config) (p : Nat) :
      c.d = ⟨p, .collecting (sz arch (arch.length - 1))⟩ →
      BStep arch c ⟨⟨p, .grading 0⟩, c.u⟩
  | grade (c : Config) (p gj q g : Nat) :
      c.d = ⟨p, .grading gj⟩ → gj < sz arch (arch.length - 1) →
      c.u (arch.length - 1) gj = ⟨q, .brecv g⟩ →
      g < nout arch (arch.length - 1) →
      BStep arch c ⟨⟨p, .grading (gj + 1)⟩,
        updU c.u (arch.length - 1) gj ⟨q, advB arch (arch.length - 1) g⟩⟩
  | bfire (c : Config) (i j k qs s qr g : Nat) :
      1 ≤ i → i < arch.length → j < sz arch i → k < sz arch (i - 1) →
      c.u i j = ⟨qs, .bsend s⟩ → s < nbwd arch i →
      c.u (i - 1) k = ⟨qr, .brecv g⟩ → g < nout arch (i - 1) →
      BStep arch c ⟨c.d,
        updU (updU c.u i j ⟨qs, advBS arch i s⟩) (i - 1) k
          ⟨qr, advB arch (i - 1) g⟩⟩
  | gradeDone (c : Config) (p : Nat) :
      c.d = ⟨p, .grading (sz arch (arch.length - 1))⟩ →
      BStep arch c ⟨⟨p, .syncing 0⟩, c.u⟩
  | sync (c : Config) (p sc i j q : Nat) :
      c.d = ⟨p, .syncing sc⟩ → i < arch.length → j < sz arch i →
      c.u i j = ⟨q, .done⟩ →
      BStep arch c ⟨⟨p, .syncing (sc + 1)⟩, updU c.u i j ⟨q + 1, .frecv 0⟩⟩
  | syncDone (c : Config) (p : Nat) :
      c.d = ⟨p, .syncing (totU arch)⟩ →
      BStep arch c ⟨⟨p + 1, .feeding 0⟩, c.u⟩

/-- The initial configuration: the driver about to feed pass 0, every unit
blocked at the start of its forward receive loop. -/
def initC : Config := ⟨⟨0, .feeding 0⟩, fun _ _ => ⟨0, .frecv 0⟩⟩

/-- Reachability from the initial configuration. -/
def Reach (arch : List Nat) (c : Config) : Prop :=
  Relation.ReflTransGen (BStep arch) initC c

/-- Forward messages the unit `(i, j)` has sent this pass. -/
def fwdSentN (arch : List Nat) (c : Config) (i j : Nat) : Nat :=
  match (c.u i j).ph with
  | .frecv _ => 0
  | .fsend s => s
  | _ => nout arch i

/-- Forward messages the unit `(i, k)` has received this pass. -/
def recvdF (arch : List Nat) (c : Config) (i k : Nat) : Nat :=
  match (c.u i k).ph with
  | .frecv g => g
  | _ => nin arch i

/-- Total forward sends of layer `i`. -/
def SSent (arch : List Nat) (c : Config) (i : Nat) : Nat :=
  ∑ j ∈ Finset.range (sz arch i), fwdSentN arch c i j

/-- Total forward receives of layer `i`. -/
def SRecv (arch : List Nat) (c : Config) (i : Nat) : Nat :=
  ∑ k ∈ Finset.range (sz arch i), recvdF arch c i k

/-- Number of units that have reported completion of the driver's current
pass (their pass counter is one ahead). -/
def reported (arch : List Nat) (c : Config) : Nat :=
  ∑ i ∈ Finset.range arch.length,
    ∑ j ∈ Finset.range (sz arch i),
      (if (c.u i j).pass = c.d.pass + 1 then 1 else 0)

/-- In-pass bounds on every phase counter. -/
def PhaseOK (arch : List Nat) (c : Config) : Prop :=
  ∀ i < arch.length, ∀ j < sz arch i,
    (∀ g, (c.u i j).ph = .frecv g → g < nin arch i)
    ∧ (∀ s, (c.u i j).ph = .fsend s → s < nout arch i)
    ∧ (∀ g, (c.u i j).ph = .brecv g → g < nout arch i)
    ∧ (∀ s, (c.u i j).ph = .bsend s → s < nbwd arch i)

/-- Every unit is at the given pass. -/
def PassAll (arch : List Nat) (c : Config) (p : Nat) : Prop :=
  ∀ i < arch.length, ∀ j < sz arch i, (c.u i j).pass = p

/-- Rendezvous conservation on forward edges: between adjacent layers,
messages sent equal messages received. -/
def FCon (arch : List Nat) (c : Config) : Prop :=
  ∀ i, i + 1 < arch.length → SSent arch c i = SRecv arch c (i + 1)

/-- Progress of the ordered input feed: the first `fj` input units have
consumed their input (input fan-in is 1), the rest have not begun. -/
def Fed (arch : List Nat) (c : Config) (fj : Nat) : Prop :=
  ∀ k < sz arch 0,
    (k < fj → ∀ g, (c.u 0 k).ph ≠ .frecv g)
    ∧ (fj ≤ k → (c.u 0 k).ph = .frecv 0)

/-- No backward activity has occurred this pass. -/
def NoBwd (arch : List Nat) (c : Config) : Prop :=
  ∀ i < arch.length, ∀ j < sz arch i,
    (∀ g, (c.u i j).ph = .brecv g → g = 0)
    ∧ (∀ s, (c.u i j).ph ≠ .bsend s)
    ∧ (c.u i j).ph ≠ .done

/-- Every output unit is still in its forward phases. -/
def OutFwd (arch : List Nat) (c : Config) : Prop :=
  ∀ k < sz arch (arch.length - 1),
    ∀ g, (c.u (arch.length - 1) k).ph ≠ .brecv g

/-- Progress of the ordered output collect: the first `cj` output units have
delivered their result to the driver. -/
def Coll (arch : List Nat) (c : Config) (cj : Nat) : Prop :=
  ∀ k < sz arch (arch.length - 1),
    (k < cj → (c.u (arch.length - 1) k).ph = .brecv 0)
    ∧ (cj ≤ k → ∀ g, (c.u (arch.length - 1) k).ph ≠ .brecv g)

/-- Every unit has completed its forward work for this pass. -/
def AllFwd (arch : List Nat) (c : Config) : Prop :=
  ∀ i < arch.length, ∀ j < sz arch i,
    (∀ g, (c.u i j).ph ≠ .frecv g) ∧ (∀ s, (c.u i j).ph ≠ .fsend s)

/-- Progress of the ordered gradient feed to the output units. -/
def GradP (arch : List Nat) (c : Config) (gj : Nat) : Prop :=
  ∀ k < sz arch (arch.length - 1),
    (k < gj → ∀ g, (c.u (arch.length - 1) k).ph ≠ .brecv g)
    ∧ (gj ≤ k → (c.u (arch.length - 1) k).ph = .brecv 0)

/-- While the driver is inside `sync` at pass `p`: every unit is either
still finishing pass `p` (past its forward phases) or has reported and is
blocked at the very start of pass `p + 1`'s forward. -/
def SyncOK (arch : List Nat) (c : Config) (p : Nat) : Prop :=
  ∀ i < arch.length, ∀ j < sz arch i,
    ((c.u i j).pass = p ∧ (∀ g, (c.u i j).ph ≠ .frecv g)
      ∧ (∀ s, (c.u i j).ph ≠ .fsend s))
    ∨ ((c.u i j).pass = p + 1 ∧ (c.u i j).ph = .frecv 0)

/-- The inductive invariant of the transition system, by driver phase. -/
def INV (arch : List Nat) (c : Config) : Prop :=
  (∀ fj, c.d.dph = .feeding fj →
    fj ≤ sz arch 0 ∧ PassAll arch c c.d.pass ∧ Fed arch c fj
      ∧ PhaseOK arch c ∧ FCon arch c ∧ NoBwd arch c ∧ OutFwd arch c)
  ∧ (∀ cj, c.d.dph = .collecting cj →
    cj ≤ sz arch (arch.length - 1) ∧ PassAll arch c c.d.pass
      ∧ Fed arch c (sz arch 0) ∧ PhaseOK arch c ∧ FCon arch c
      ∧ NoBwd arch c ∧ Coll arch c cj)
  ∧ (∀ gj, c.d.dph = .grading gj →
    gj ≤ sz arch (arch.length - 1) ∧ PassAll arch c c.d.pass
      ∧ PhaseOK arch c ∧ AllFwd arch c ∧ GradP arch c gj)
  ∧ (∀ sc, c.d.dph = .syncing sc →
    sc = reported arch c ∧ SyncOK arch c c.d.pass)

end Neuron

deriving instance DecidableEq for Except

namespace Neuron

/-- C7: for every score and target in {+1,-1}, MarginLoss returns hinge loss
`max(1 - score*target, 0)` and subgradient 0 when the margin is met (with
room or exactly), else `-target`; `MarginLoss 9 1 = (0,0)`,
`MarginLoss 9 (-1) = (10,1)`, and any other target fails. -/
theorem marginLoss_spec (score : F) (target : Int) :
    ((target = 1 ∨ target = -1) →
      MarginLoss score target =
        .ok (max (1 - score * (target : F)) 0,
             if 1 ≤ score * (target : F) then (0 : F) else -(target : F))) ∧
    (target ≠ 1 → target ≠ -1 → MarginLoss score target = .error "Expected target +/- 1") ∧
    MarginLoss 9 1 = .ok (0, 0) ∧
    MarginLoss 9 (-1) = .ok (10, 1) ∧
    MarginLoss 9 0 = .error "Expected target +/- 1" := by
  refine ⟨fun h => ?_, fun h1 h2 => ?_, by norm_num [MarginLoss, max_def],
    by norm_num [MarginLoss, max_def], by norm_num [MarginLoss]⟩
  · simp [MarginLoss, h]
  · simp [MarginLoss, h1, h2]

/-- Witness for C7 at score 9, target 1. -/
theorem marginLoss_spec_witness :
    MarginLoss 9 1 =
      .ok (max (1 - 9 * ((1 : Int) : F)) 0,
           if 1 ≤ 9 * ((1 : Int) : F) then (0 : F) else -((1 : Int) : F)) :=
  (marginLoss_spec 9 1).1 (Or.inl rfl)

/-- C10: at the exact margin boundary `score * target = 1`, MarginLoss takes
the zero-gradient branch: it returns loss 0 and gradient 0, not `-target`. -/
theorem marginLoss_boundary (score : F) (target : Int)
    (hv : target = 1 ∨ target = -1) (hb : score * (target : F) = 1) :
    MarginLoss score target = .ok (0, 0) := by
  have h := (marginLoss_spec score target).1 hv
  rw [h, hb]
  norm_num

/-- Witness for C10 at score 1, target 1. -/
theorem marginLoss_boundary_witness : MarginLoss 1 1 = .ok (0, 0) :=
  marginLoss_boundary 1 1 (Or.inl rfl) (by norm_num)

end Neuron

namespace Neuron

theorem cacheUpd_fst (sigs : List Signal) (kp : String × Param) :
    (cacheUpd sigs kp).1 = kp.1 := by
  unfold cacheUpd
  split
  · split <;> rfl
  · rfl

theorem cacheUpd_nil (kp : String × Param) : cacheUpd [] kp = kp := by
  unfold cacheUpd
  split <;> rfl

theorem cacheUpd_keep (sigs : List Signal) (kp : String × Param) :
    (cacheUpd sigs kp).2.data = kp.2.data ∧
    (cacheUpd sigs kp).2.requiresGrad = kp.2.requiresGrad ∧
    (cacheUpd sigs kp).2.grad = kp.2.grad := by
  unfold cacheUpd
  split
  · split <;> exact ⟨rfl, rfl, rfl⟩
  · exact ⟨rfl, rfl, rfl⟩

theorem cacheUpd_not_sent (sigs : List Signal) (kp : String × Param)
    (h : ∀ s ∈ sigs, s.id ≠ kp.1) : cacheUpd sigs kp = kp := by
  have hf : sigs.filter (fun s => s.id = kp.1) = [] := by
    rw [List.filter_eq_nil_iff]
    intro s hs
    simpa using h s hs
  unfold cacheUpd
  rw [hf]
  split <;> rfl

theorem keysP_map_cacheUpd (sigs : List Signal) (ps : List (String × Param)) :
    keysP (ps.map (cacheUpd sigs)) = keysP ps := by
  unfold keysP
  rw [List.map_map]
  exact List.map_congr_left fun kp _ => cacheUpd_fst sigs kp

theorem lookupP_map_cacheUpd (sigs : List Signal) (ps : List (String × Param))
    (k : String) :
    lookupP (ps.map (cacheUpd sigs)) k =
      (lookupP ps k).map fun p => (cacheUpd sigs (k, p)).2 := by
  induction ps with
  | nil => rfl
  | cons kp rest ih =>
      cases kp with
      | mk k0 p0 =>
          cases h2 : cacheUpd sigs (k0, p0) with
          | mk k1 p1 =>
              have hk1 : k1 = k0 := by
                have h3 := cacheUpd_fst sigs (k0, p0)
                rw [h2] at h3
                exact h3
              subst hk1
              rw [List.map_cons, h2]
              simp only [lookupP]
              by_cases hk : k1 = k
              · subst hk
                rw [if_pos rfl, if_pos rfl, Option.map_some', h2]
              · rw [if_neg hk, if_neg hk, ih]

theorem dataOf_map_cacheUpd (sigs : List Signal) (ps : List (String × Param))
    (k : String) : dataOf ⟨ps.map (cacheUpd sigs)⟩ k = dataOf ⟨ps⟩ k := by
  unfold dataOf
  rw [lookupP_map_cacheUpd]
  cases lookupP ps k with
  | none => rfl
  | some p => exact (cacheUpd_keep sigs (k, p)).1

theorem preAct_congr_weight (sigs : List Signal) (w w' : Weight)
    (h : ∀ k, dataOf w' k = dataOf w k) : preAct w' sigs = preAct w sigs := by
  unfold preAct
  exact congrArg List.sum (List.map_congr_left fun s _ => by rw [h])

theorem lookupP_eq_none_iff (ps : List (String × Param)) (k : String) :
    lookupP ps k = none ↔ k ∉ keysP ps := by
  induction ps with
  | nil => simp [lookupP, keysP]
  | cons kp rest ih =>
      rw [lookupP]
      by_cases hk : kp.1 = k
      · subst hk
        simp [keysP]
      · simp only [if_neg hk, ih, keysP, List.map_cons, List.mem_cons]
        constructor
        · intro h hmem
          rcases hmem with h1 | h2
          · exact hk h1.symm
          · exact h h2
        · intro h
          exact fun h2 => h (Or.inr h2)

theorem lookupP_mem (ps : List (String × Param)) (k : String) (p : Param)
    (h : lookupP ps k = some p) : (k, p) ∈ ps := by
  induction ps with
  | nil => simp [lookupP] at h
  | cons kp rest ih =>
      cases kp with
      | mk a b =>
          simp only [lookupP] at h
          by_cases hk : a = k
          · rw [if_pos hk] at h
            injection h with h
            subst hk
            subst h
            exact List.mem_cons_self _ _
          · rw [if_neg hk] at h
            exact List.mem_cons_of_mem _ (ih h)

theorem lookupP_of_mem_nodup (ps : List (String × Param)) (k : String) (p : Param)
    (hnd : (keysP ps).Nodup) (hmem : (k, p) ∈ ps) : lookupP ps k = some p := by
  induction ps with
  | nil => simp at hmem
  | cons kp rest ih =>
      rw [keysP, List.map_cons, List.nodup_cons] at hnd
      rcases List.mem_cons.mp hmem with h1 | h2
      · rw [lookupP, ← h1]
        simp
      · rw [lookupP]
        by_cases hk : kp.1 = k
        · exfalso
          apply hnd.1
          rw [hk]
          exact List.mem_map.mpr ⟨(k, p), h2, rfl⟩
        · rw [if_neg hk]
          exact ih hnd.2 h2

theorem replaceP_eq_map (ps : List (String × Param)) (k : String) (p' : Param)
    (hnd : (keysP ps).Nodup) (hk : k ∈ keysP ps) :
    replaceP ps k p' = ps.map fun kp => if kp.1 = k then (k, p') else kp := by
  induction ps with
  | nil => rfl
  | cons kp rest ih =>
      cases kp with
      | mk a b =>
          rw [keysP, List.map_cons, List.nodup_cons] at hnd
          simp only [replaceP, List.map_cons]
          by_cases h1 : a = k
          · subst h1
            rw [if_pos rfl, if_pos rfl]
            congr 1
            have hnotin : ∀ kq ∈ rest, ¬ (kq.1 = a) := by
              intro kq hq hqk
              apply hnd.1
              rw [← hqk]
              exact List.mem_map.mpr ⟨kq, hq, rfl⟩
            rw [List.map_congr_left (fun kq hq => if_neg (hnotin kq hq))]
            simp
          · rw [if_neg h1, if_neg h1]
            congr 1
            apply ih hnd.2
            simp only [keysP] at hk ⊢
            rcases List.mem_map.mp hk with ⟨kq, hq, hqk⟩
            rcases List.mem_cons.mp hq with h2 | h2
            · exact absurd (by rw [h2] at hqk; exact hqk) h1
            · exact List.mem_map.mpr ⟨kq, h2, hqk⟩

theorem cacheUpd_single_hit (k : String) (v : F) (p : Param)
    (hrg : p.requiresGrad = true) :
    cacheUpd [⟨k, v⟩] (k, p) = (k, { p with value := v }) := by
  unfold cacheUpd
  simp [hrg, List.filter]

theorem cacheUpd_single_hit_ng (k : String) (v : F) (p : Param)
    (hrg : p.requiresGrad = false) :
    cacheUpd [⟨k, v⟩] (k, p) = (k, p) := by
  unfold cacheUpd
  simp [hrg]

theorem cacheUpd_single_miss (k : String) (v : F) (kp : String × Param)
    (h : kp.1 ≠ k) : cacheUpd [⟨k, v⟩] kp = kp := by
  apply cacheUpd_not_sent
  intro s hs
  rcases List.mem_singleton.mp hs with rfl
  exact fun hc => h (by rw [← hc])

theorem Weight_forward_eq (w : Weight) (k : String) (v : F)
    (hnd : (keysP w.params).Nodup) :
    w.forward k v = (⟨w.params.map (cacheUpd [⟨k, v⟩])⟩, dataOf w k * v) := by
  unfold Weight.forward
  cases hl : lookupP w.params k with
  | none =>
      have hk : k ∉ keysP w.params := (lookupP_eq_none_iff _ _).mp hl
      have hcong : ∀ kp ∈ w.params, cacheUpd [⟨k, v⟩] kp = kp := by
        intro kp hkp
        apply cacheUpd_single_miss
        intro hc
        exact hk (hc ▸ List.mem_map.mpr ⟨kp, hkp, rfl⟩)
      have hmap : w.params.map (cacheUpd [⟨k, v⟩]) = w.params := by
        rw [List.map_congr_left hcong]
        simp
      have hd : dataOf w k = 0 := by unfold dataOf; rw [hl]
      rw [hmap, hd]
      simp
  | some p =>
      have hmem := lookupP_mem _ _ _ hl
      have hkk : k ∈ keysP w.params := List.mem_map.mpr ⟨(k, p), hmem, rfl⟩
      have hd : dataOf w k = p.data := by unfold dataOf; rw [hl]
      have hunique : ∀ kp ∈ w.params, kp.1 = k → kp = (k, p) := by
        intro kp hkp h1
        have h2 : lookupP w.params k = some kp.2 := by
          apply lookupP_of_mem_nodup w.params k kp.2 hnd
          have h3 : kp = (k, kp.2) := by
            cases kp
            simp_all
          exact h3 ▸ hkp
        rw [hl] at h2
        cases kp
        simp_all
      rw [hd]
      by_cases hrg : p.requiresGrad
      · simp only [hrg, if_true]
        congr 1
        congr 1
        rw [replaceP_eq_map _ _ _ hnd hkk]
        apply (List.map_congr_left _).symm
        intro kp hkp
        by_cases h1 : kp.1 = k
        · have hkpe := hunique kp hkp h1
          rw [hkpe, cacheUpd_single_hit k v p hrg, if_pos rfl, hrg]
        · rw [cacheUpd_single_miss k v kp h1, if_neg h1]
      · simp only [hrg, if_false]
        have hcong : ∀ kp ∈ w.params, cacheUpd [⟨k, v⟩] kp = kp := by
          intro kp hkp
          by_cases h1 : kp.1 = k
          · have hkpe := hunique kp hkp h1
            rw [hkpe]
            exact cacheUpd_single_hit_ng k v p (by simpa using hrg)
          · exact cacheUpd_single_miss k v kp h1
        have hmap : w.params.map (cacheUpd [⟨k, v⟩]) = w.params := by
          rw [List.map_congr_left hcong]
          simp
        rw [hmap]
        simp

end Neuron

namespace Neuron

theorem cacheUpd_cons (s : Signal) (rest : List Signal) (kp : String × Param) :
    cacheUpd rest (cacheUpd [s] kp) = cacheUpd (s :: rest) kp := by
  cases hrg : kp.2.requiresGrad
  · have h1 : cacheUpd [s] kp = kp := by unfold cacheUpd; simp [hrg]
    rw [h1]
    unfold cacheUpd
    simp [hrg]
  · by_cases h1 : s.id = kp.1
    · have h2 : cacheUpd [s] kp = (kp.1, { kp.2 with value := s.value }) := by
        unfold cacheUpd
        simp [hrg, List.filter, h1]
      rw [h2]
      unfold cacheUpd
      simp only [hrg, if_true]
      have h3 : (s :: rest).filter (fun t => t.id = kp.1) =
          s :: rest.filter (fun t => t.id = kp.1) := by
        rw [List.filter_cons]
        simp [h1]
      rw [h3]
      cases hfr : rest.filter (fun t => t.id = kp.1) with
      | nil => simp
      | cons a t =>
          rw [List.getLast?_cons_cons]
          cases hgl : (a :: t).getLast? with
          | none => simp at hgl
          | some b => simp
    · have h2 : cacheUpd [s] kp = kp := by
        apply cacheUpd_not_sent
        intro t ht
        rcases List.mem_singleton.mp ht with rfl
        exact h1
      rw [h2]
      have h3 : (s :: rest).filter (fun t => t.id = kp.1) =
          rest.filter (fun t => t.id = kp.1) := by
        rw [List.filter_cons]
        simp [h1]
      unfold cacheUpd
      rw [h3]

theorem forwardFold (sigs : List Signal) (w : Weight) (a : F)
    (hnd : (keysP w.params).Nodup) :
    sigs.foldl fwdStep (w, a)
    = (⟨w.params.map (cacheUpd sigs)⟩, a + preAct w sigs) := by
  induction sigs generalizing w a with
  | nil =>
      have h1 : w.params.map (cacheUpd []) = w.params := by
        rw [List.map_congr_left fun kp _ => cacheUpd_nil kp]
        simp
      simp [h1, preAct]
  | cons s rest ih =>
      rw [List.foldl_cons]
      have hnd2 : (keysP ((⟨w.params.map (cacheUpd [s])⟩ : Weight).params)).Nodup := by
        show (keysP (w.params.map (cacheUpd [s]))).Nodup
        rw [keysP_map_cacheUpd]
        exact hnd
      have hstep : fwdStep (w, a) s
          = ((⟨w.params.map (cacheUpd [s])⟩ : Weight), a + dataOf w s.id * s.value) := by
        show ((w.forward s.id s.value).1, a + (w.forward s.id s.value).2) = _
        rw [Weight_forward_eq w s.id s.value hnd]
      rw [hstep, ih ⟨w.params.map (cacheUpd [s])⟩ (a + dataOf w s.id * s.value) hnd2]
      rw [Prod.mk.injEq]
      refine ⟨?_, ?_⟩
      · show (⟨(w.params.map (cacheUpd [s])).map (cacheUpd rest)⟩ : Weight) = _
        congr 1
        rw [List.map_map]
        exact List.map_congr_left fun kp _ => cacheUpd_cons s rest kp
      · rw [preAct_congr_weight rest w ⟨w.params.map (cacheUpd [s])⟩
              (fun k => dataOf_map_cacheUpd [s] w.params k)]
        have hc : preAct w (s :: rest) = dataOf w s.id * s.value + preAct w rest := by
          simp [preAct]
        rw [hc]
        ring

theorem Unit_forward_eq (u : Unit) (sigs : List Signal)
    (hnd : (keysP u.w.params).Nodup) :
    u.forward sigs =
      ({ u with w := ⟨u.w.params.map (cacheUpd (⟨biasID, 1⟩ :: sigs))⟩,
                activ := (u.activ.forward (preAct u.w (⟨biasID, 1⟩ :: sigs))).1 },
       (u.activ.forward (preAct u.w (⟨biasID, 1⟩ :: sigs))).2) := by
  have hpre : preAct u.w (⟨biasID, 1⟩ :: sigs)
      = dataOf u.w biasID * 1 + preAct u.w sigs := by
    simp [preAct]
  have hw : (⟨u.w.params.map (cacheUpd [⟨biasID, 1⟩])⟩ : Weight).params.map (cacheUpd sigs)
      = u.w.params.map (cacheUpd (⟨biasID, 1⟩ :: sigs)) := by
    show (u.w.params.map (cacheUpd [⟨biasID, 1⟩])).map (cacheUpd sigs) = _
    rw [List.map_map]
    exact List.map_congr_left fun kp _ => cacheUpd_cons ⟨biasID, 1⟩ sigs kp
  have hnd2 : (keysP ((⟨u.w.params.map (cacheUpd [⟨biasID, 1⟩])⟩ : Weight).params)).Nodup := by
    show (keysP (u.w.params.map (cacheUpd [⟨biasID, 1⟩]))).Nodup
    rw [keysP_map_cacheUpd]
    exact hnd
  have hpre2 : preAct (⟨u.w.params.map (cacheUpd [⟨biasID, 1⟩])⟩ : Weight) sigs
      = preAct u.w sigs :=
    preAct_congr_weight sigs u.w _ fun k => dataOf_map_cacheUpd [⟨biasID, 1⟩] u.w.params k
  unfold Unit.forward
  rw [Weight_forward_eq u.w biasID 1 hnd,
      forwardFold sigs ⟨u.w.params.map (cacheUpd [⟨biasID, 1⟩])⟩ (dataOf u.w biasID * 1) hnd2,
      hw, hpre2, hpre]

end Neuron

namespace Neuron

theorem lookupP_map_keyfix (f : String × Param → String × Param)
    (hf : ∀ kp, (f kp).1 = kp.1) (ps : List (String × Param)) (k : String) :
    lookupP (ps.map f) k = (lookupP ps k).map fun p => (f (k, p)).2 := by
  induction ps with
  | nil => rfl
  | cons kp rest ih =>
      cases kp with
      | mk k0 p0 =>
          cases h2 : f (k0, p0) with
          | mk k1 p1 =>
              have hk1 : k1 = k0 := by
                have h3 := hf (k0, p0)
                rw [h2] at h3
                exact h3
              subst hk1
              rw [List.map_cons, h2]
              simp only [lookupP]
              by_cases hk : k1 = k
              · subst hk
                rw [if_pos rfl, if_pos rfl, Option.map_some', h2]
              · rw [if_neg hk, if_neg hk, ih]

theorem keysP_map_keyfix (f : String × Param → String × Param)
    (hf : ∀ kp, (f kp).1 = kp.1) (ps : List (String × Param)) :
    keysP (ps.map f) = keysP ps := by
  unfold keysP
  rw [List.map_map]
  exact List.map_congr_left fun kp _ => hf kp

theorem gradUpd_fst (g : F) (kp : String × Param) : (gradUpd g kp).1 = kp.1 := by
  unfold gradUpd
  split <;> rfl

theorem gradUpd_keep (g : F) (kp : String × Param) :
    (gradUpd g kp).2.data = kp.2.data ∧
    (gradUpd g kp).2.requiresGrad = kp.2.requiresGrad ∧
    (gradUpd g kp).2.value = kp.2.value := by
  unfold gradUpd
  split <;> exact ⟨rfl, rfl, rfl⟩

theorem singleUpd_fst (k : String) (g : F) (kp : String × Param) :
    ((if kp.1 = k then gradUpd g kp else kp)).1 = kp.1 := by
  split
  · rw [gradUpd_fst]
  · rfl

theorem Weight_backward_eq (w : Weight) (k : String) (g : F)
    (hnd : (keysP w.params).Nodup) :
    w.backward k g =
      (⟨w.params.map fun kp => if kp.1 = k then gradUpd g kp else kp⟩,
       dataOf w k * g) := by
  unfold Weight.backward
  cases hl : lookupP w.params k with
  | none =>
      have hk : k ∉ keysP w.params := (lookupP_eq_none_iff _ _).mp hl
      have hcong : ∀ kp ∈ w.params,
          (if kp.1 = k then gradUpd g kp else kp) = kp := by
        intro kp hkp
        rw [if_neg]
        intro hc
        exact hk (hc ▸ List.mem_map.mpr ⟨kp, hkp, rfl⟩)
      have hmap : (w.params.map fun kp => if kp.1 = k then gradUpd g kp else kp)
          = w.params := by
        rw [List.map_congr_left hcong]
        simp
      have hd : dataOf w k = 0 := by unfold dataOf; rw [hl]
      rw [hmap, hd]
      simp
  | some p =>
      have hmem := lookupP_mem _ _ _ hl
      have hkk : k ∈ keysP w.params := List.mem_map.mpr ⟨(k, p), hmem, rfl⟩
      have hd : dataOf w k = p.data := by unfold dataOf; rw [hl]
      have hunique : ∀ kp ∈ w.params, kp.1 = k → kp = (k, p) := by
        intro kp hkp h1
        have h2 : lookupP w.params k = some kp.2 := by
          apply lookupP_of_mem_nodup w.params k kp.2 hnd
          have h3 : kp = (k, kp.2) := by
            cases kp
            simp_all
          exact h3 ▸ hkp
        rw [hl] at h2
        cases kp
        simp_all
      rw [hd]
      by_cases hrg : p.requiresGrad
      · simp only [hrg, if_true]
        congr 1
        congr 1
        rw [replaceP_eq_map _ _ _ hnd hkk]
        apply (List.map_congr_left _).symm
        intro kp hkp
        by_cases h1 : kp.1 = k
        · have hkpe := hunique kp hkp h1
          rw [if_pos h1, if_pos h1, hkpe]
          unfold gradUpd
          simp [hrg]
        · rw [if_neg h1, if_neg h1]
      · simp only [hrg, if_false]
        have hcong : ∀ kp ∈ w.params,
            (if kp.1 = k then gradUpd g kp else kp) = kp := by
          intro kp hkp
          by_cases h1 : kp.1 = k
          · have hkpe := hunique kp hkp h1
            rw [if_pos h1, hkpe]
            unfold gradUpd
            simp [hrg]
          · rw [if_neg h1]
        have hmap : (w.params.map fun kp => if kp.1 = k then gradUpd g kp else kp)
            = w.params := by
          rw [List.map_congr_left hcong]
          simp
        rw [hmap]
        simp

theorem backwardFold (l : List (String × Param)) (w : Weight)
    (acc : List (String × Signal)) (outB : List String) (uid : String) (g : F)
    (hndw : (keysP w.params).Nodup) (hndl : (keysP l).Nodup)
    (hmem : ∀ kp ∈ l, lookupP w.params kp.1 = some kp.2) :
    l.foldl (bwdStep outB uid g) (w, acc)
    = (⟨w.params.map fun kp => if kp.1 ∈ keysP l then gradUpd g kp else kp⟩,
       acc ++ bwdSends outB uid g l) := by
  induction l generalizing w acc with
  | nil =>
      have hcong : ∀ kp ∈ w.params,
          (if kp.1 ∈ keysP ([] : List (String × Param)) then gradUpd g kp else kp)
          = kp := by
        intro kp _
        rw [if_neg]
        simp [keysP]
      have hmap : (w.params.map fun kp =>
          if kp.1 ∈ keysP ([] : List (String × Param)) then gradUpd g kp else kp)
          = w.params := by
        rw [List.map_congr_left hcong]
        simp
      simp [hmap, bwdSends]
  | cons kp0 rest ih =>
      cases kp0 with
      | mk k0 p0 =>
          rw [keysP, List.map_cons, List.nodup_cons] at hndl
          have hl0 : lookupP w.params k0 = some p0 := hmem (k0, p0) (by simp)
          have hd0 : dataOf w k0 = p0.data := by unfold dataOf; rw [hl0]
          have hstep : bwdStep outB uid g (w, acc) (k0, p0)
              = ((⟨w.params.map fun kp => if kp.1 = k0 then gradUpd g kp else kp⟩ : Weight),
                 acc ++ if k0 ∈ outB then [(k0, ⟨uid, p0.data * g⟩)] else []) := by
            show ((w.backward k0 g).1,
                  acc ++ if k0 ∈ outB then [(k0, ⟨uid, (w.backward k0 g).2⟩)] else []) = _
            rw [Weight_backward_eq w k0 g hndw, hd0]
          rw [List.foldl_cons, hstep]
          have hndw2 : (keysP ((⟨w.params.map fun kp =>
              if kp.1 = k0 then gradUpd g kp else kp⟩ : Weight).params)).Nodup := by
            show (keysP (w.params.map fun kp =>
              if kp.1 = k0 then gradUpd g kp else kp)).Nodup
            rw [keysP_map_keyfix _ (singleUpd_fst k0 g)]
            exact hndw
          have hmem2 : ∀ kq ∈ rest,
              lookupP (w.params.map fun kp =>
                if kp.1 = k0 then gradUpd g kp else kp) kq.1 = some kq.2 := by
            intro kq hq
            rw [lookupP_map_keyfix _ (singleUpd_fst k0 g), hmem kq (by simp [hq])]
            have hne : kq.1 ≠ k0 := by
              intro hc
              apply hndl.1
              rw [← hc]
              exact List.mem_map.mpr ⟨kq, hq, rfl⟩
            simp [hne]
          rw [ih _ _ hndw2 hndl.2 hmem2]
          rw [Prod.mk.injEq]
          refine ⟨?_, ?_⟩
          · congr 1
            rw [List.map_map]
            apply List.map_congr_left
            intro kp hkp
            show (if ((if kp.1 = k0 then gradUpd g kp else kp)).1 ∈ keysP rest then
                    gradUpd g (if kp.1 = k0 then gradUpd g kp else kp)
                  else (if kp.1 = k0 then gradUpd g kp else kp))
                = if kp.1 ∈ keysP ((k0, p0) :: rest) then gradUpd g kp else kp
            rw [singleUpd_fst k0 g kp]
            have hkeys : keysP ((k0, p0) :: rest) = k0 :: keysP rest := rfl
            by_cases h1 : kp.1 = k0
            · have hnotin : kp.1 ∉ keysP rest := by
                rw [h1]
                exact hndl.1
              have hin : kp.1 ∈ keysP ((k0, p0) :: rest) := by
                rw [hkeys, h1]
                exact List.mem_cons_self _ _
              rw [if_neg hnotin, if_pos h1, if_pos hin]
            · rw [if_neg h1]
              by_cases h2 : kp.1 ∈ keysP rest
              · have hin : kp.1 ∈ keysP ((k0, p0) :: rest) := by
                  rw [hkeys]
                  exact List.mem_cons_of_mem _ h2
                rw [if_pos h2, if_pos hin]
              · have hnotin : kp.1 ∉ keysP ((k0, p0) :: rest) := by
                  rw [hkeys]
                  intro hc
                  rcases List.mem_cons.mp hc with hc1 | hc2
                  · exact h1 hc1
                  · exact h2 hc2
                rw [if_neg h2, if_neg hnotin]
          · rw [List.append_assoc]
            congr 1
            show _ = bwdSends outB uid g ((k0, p0) :: rest)
            unfold bwdSends
            rw [List.filterMap_cons]
            by_cases hb : k0 ∈ outB
            · simp [hb]
            · simp [hb]

theorem foldl_add_value (l : List Signal) (a : F) :
    l.foldl (fun acc s => acc + s.value) a = a + (l.map Signal.value).sum := by
  induction l generalizing a with
  | nil => simp
  | cons s rest ih =>
      rw [List.foldl_cons, ih]
      simp
      ring

theorem Unit_backward_eq (u : Unit) (gsigs : List Signal)
    (hnd : (keysP u.w.params).Nodup) :
    u.backward gsigs =
      ({ u with w := ⟨u.w.params.map
            (gradUpd (u.activ.backward ((gsigs.map Signal.value).sum)))⟩ },
       bwdSends u.outputB u.id
         (u.activ.backward ((gsigs.map Signal.value).sum)) u.w.params) := by
  have hsum : gsigs.foldl (fun acc s => acc + s.value) 0
      = (gsigs.map Signal.value).sum := by
    rw [foldl_add_value]
    ring
  have hmem : ∀ kp ∈ u.w.params, lookupP u.w.params kp.1 = some kp.2 := by
    intro kp hkp
    apply lookupP_of_mem_nodup u.w.params kp.1 kp.2 hnd
    cases kp
    exact hkp
  have hmap : (u.w.params.map fun kp =>
      if kp.1 ∈ keysP u.w.params then
        gradUpd (u.activ.backward ((gsigs.map Signal.value).sum)) kp
      else kp)
      = u.w.params.map (gradUpd (u.activ.backward ((gsigs.map Signal.value).sum))) := by
    apply List.map_congr_left
    intro kp hkp
    have hin : kp.1 ∈ keysP u.w.params := List.mem_map.mpr ⟨kp, hkp, rfl⟩
    rw [if_pos hin]
  unfold Unit.backward
  rw [hsum, backwardFold u.w.params u.w [] u.outputB u.id _ hnd hnd hmem]
  dsimp only
  rw [Prod.mk.injEq]
  constructor
  · rw [hmap]
  · simp

end Neuron

namespace Neuron

theorem lookupB_insertB_ne (buf : List (String × F)) (k k' : String) (v : F)
    (h : k' ≠ k) : lookupB (insertB buf k v) k' = lookupB buf k' := by
  induction buf with
  | nil =>
      simp only [insertB, lookupB]
      rw [if_neg fun hc => h hc.symm]
  | cons kv rest ih =>
      cases kv with
      | mk k0 v0 =>
          simp only [insertB]
          by_cases h0 : k0 = k
          · subst h0
            simp only [if_pos rfl, lookupB]
            rw [if_neg fun hc => h hc.symm, if_neg fun hc => h hc.symm]
          · rw [if_neg h0]
            simp only [lookupB]
            by_cases h1 : k0 = k'
            · rw [if_pos h1, if_pos h1]
            · rw [if_neg h1, if_neg h1, ih]

theorem SGD_Step_hyper (opt : SGD) (k : String) (p : Param) :
    (opt.Step k p).1.lr = opt.lr ∧ (opt.Step k p).1.momentum = opt.momentum ∧
    (opt.Step k p).1.weightDecay = opt.weightDecay := by
  unfold SGD.Step
  by_cases hrg : p.requiresGrad
  · by_cases hm : 0 < opt.momentum
    · cases hb : lookupB opt.buf k <;> simp [hrg, hm, hb]
    · simp [hrg, hm]
  · simp [hrg]

theorem SGD_Step_buf_ne (opt : SGD) (k k' : String) (p : Param) (h : k' ≠ k) :
    lookupB (opt.Step k p).1.buf k' = lookupB opt.buf k' := by
  unfold SGD.Step
  by_cases hrg : p.requiresGrad
  · by_cases hm : 0 < opt.momentum
    · cases hb : lookupB opt.buf k <;>
        simp [hrg, hm, hb, lookupB_insertB_ne _ _ _ _ h]
    · simp [hrg, hm]
  · simp [hrg]

theorem SGD_Step_congr (opt opt' : SGD) (k : String) (p : Param)
    (hlr : opt'.lr = opt.lr) (hm : opt'.momentum = opt.momentum)
    (hwd : opt'.weightDecay = opt.weightDecay)
    (hb : lookupB opt'.buf k = lookupB opt.buf k) :
    (opt'.Step k p).2 = (opt.Step k p).2 := by
  unfold SGD.Step
  by_cases hrg : p.requiresGrad
  · by_cases hmo : 0 < opt.momentum
    · cases hb0 : lookupB opt.buf k <;> simp [hrg, hlr, hm, hwd, hb, hmo, hb0]
    · simp [hrg, hlr, hm, hwd, hb, hmo]
  · simp [hrg]

theorem SGD_Step_grad_zero (opt : SGD) (k : String) (p : Param)
    (hrg : p.requiresGrad = true) : ((opt.Step k p).2).grad = 0 := by
  unfold SGD.Step
  simp [hrg]

theorem SGD_Step_ng (opt : SGD) (k : String) (p : Param)
    (hrg : p.requiresGrad = false) : opt.Step k p = (opt, p) := by
  unfold SGD.Step
  simp [hrg]

theorem stepSpec_fold (l : List (String × Param)) (opt : SGD)
    (acc : List (String × Param)) :
    l.foldl stepStep (opt, acc) = ((stepSpec opt l).1, acc ++ (stepSpec opt l).2) := by
  induction l generalizing opt acc with
  | nil => simp [stepSpec]
  | cons kp rest ih =>
      rw [List.foldl_cons]
      have hstep : stepStep (opt, acc) kp
          = ((opt.Step kp.1 kp.2).1, acc ++ [(kp.1, (opt.Step kp.1 kp.2).2)]) := rfl
      rw [hstep, ih]
      simp [stepSpec]

theorem Unit_step_eq (u : Unit) :
    u.step = { u with opt := (stepSpec u.opt u.w.params).1,
                      w := ⟨(stepSpec u.opt u.w.params).2⟩ } := by
  unfold Unit.step
  rw [stepSpec_fold]
  simp

theorem stepSpec_params (l : List (String × Param)) (opt opt' : SGD)
    (hndl : (keysP l).Nodup)
    (hlr : opt'.lr = opt.lr) (hm : opt'.momentum = opt.momentum)
    (hwd : opt'.weightDecay = opt.weightDecay)
    (hb : ∀ kp ∈ l, lookupB opt'.buf kp.1 = lookupB opt.buf kp.1) :
    (stepSpec opt' l).2 = l.map fun kp => (kp.1, (opt.Step kp.1 kp.2).2) := by
  induction l generalizing opt' with
  | nil => simp [stepSpec]
  | cons kp rest ih =>
      rw [keysP, List.map_cons, List.nodup_cons] at hndl
      simp only [stepSpec, List.map_cons]
      congr 1
      · rw [SGD_Step_congr opt opt' kp.1 kp.2 hlr hm hwd (hb kp (by simp))]
      · refine ih _ hndl.2 ?_ ?_ ?_ ?_
        · rw [(SGD_Step_hyper opt' kp.1 kp.2).1, hlr]
        · rw [(SGD_Step_hyper opt' kp.1 kp.2).2.1, hm]
        · rw [(SGD_Step_hyper opt' kp.1 kp.2).2.2, hwd]
        · intro kq hq
          have hne : kq.1 ≠ kp.1 := by
            intro hc
            apply hndl.1
            rw [← hc]
            exact List.mem_map.mpr ⟨kq, hq, rfl⟩
          rw [SGD_Step_buf_ne opt' kp.1 kq.1 kp.2 hne, hb kq (by simp [hq])]

theorem Unit_step_params (u : Unit) (hnd : (keysP u.w.params).Nodup) :
    (u.step).w.params = u.w.params.map fun kp => (kp.1, (u.opt.Step kp.1 kp.2).2) := by
  rw [Unit_step_eq]
  show (stepSpec u.opt u.w.params).2 = _
  exact stepSpec_params u.w.params u.opt u.opt hnd rfl rfl rfl fun _ _ => rfl

end Neuron

namespace Neuron

theorem filter_eq_single_of_nodup (sigs : List Signal) (s : Signal)
    (hnd : (sigs.map Signal.id).Nodup) (hs : s ∈ sigs) :
    sigs.filter (fun t => t.id = s.id) = [s] := by
  induction sigs with
  | nil => simp at hs
  | cons a rest ih =>
      rw [List.map_cons, List.nodup_cons] at hnd
      rcases List.mem_cons.mp hs with h1 | h2
      · subst h1
        rw [List.filter_cons]
        simp only [decide_eq_true_eq]
        rw [if_pos trivial]
        congr 1
        rw [List.filter_eq_nil_iff]
        intro t ht
        simp only [decide_eq_true_eq]
        intro hc
        exact hnd.1 (hc ▸ List.mem_map.mpr ⟨t, ht, rfl⟩)
      · rw [List.filter_cons]
        have hne : ¬ (a.id = s.id) := by
          intro hc
          exact hnd.1 (hc ▸ List.mem_map.mpr ⟨s, h2, rfl⟩)
        simp only [decide_eq_true_eq]
        rw [if_neg hne]
        exact ih hnd.2 h2

theorem cacheUpd_lookup_hit (sigs : List Signal) (s : Signal) (p : Param)
    (hnd : (sigs.map Signal.id).Nodup) (hs : s ∈ sigs)
    (hrg : p.requiresGrad = true) :
    cacheUpd (⟨biasID, 1⟩ :: sigs) (s.id, p) = (s.id, { p with value := s.value }) := by
  have hfs := filter_eq_single_of_nodup sigs s hnd hs
  unfold cacheUpd
  simp only [hrg, if_true]
  rw [List.filter_cons]
  by_cases hb : s.id = biasID
  · have hc : ((⟨biasID, 1⟩ : Signal).id = s.id) := by rw [hb]
    simp only [decide_eq_true_eq]
    rw [if_pos hc, hfs]
    simp
  · have hc : ¬ ((⟨biasID, 1⟩ : Signal).id = s.id) := by
      intro h
      exact hb h.symm
    simp only [decide_eq_true_eq]
    rw [if_neg hc, hfs]
    simp

end Neuron

namespace Neuron

/-- C2: in a training pass, a Hidden/Output unit sums the gradient signals
received from its downstream peers into `grad`, applies the activation
derivative (a ReLU unit's `grad` becomes 0 whenever the cached
pre-activation was `<= 0`), then adds `grad * cachedInput[peer]` to each
grad-requiring weight's gradient accumulator, emits `grad * weight[peer]` on
each upstream peer's backward channel (exactly the parameter keys listed in
`outputB`), and adds `grad` to the bias gradient accumulator (whose cached
input is 1 from the forward pass). -/
theorem backward_accumulates_and_sends (u : Unit) (gsigs : List Signal)
    (hnd : (keysP u.w.params).Nodup) :
    ((u.activ.kind = ActivKind.relu ∧ u.activ.value ≤ 0) →
        u.activ.backward ((gsigs.map Signal.value).sum) = 0) ∧
    (∀ k p, lookupP u.w.params k = some p → p.requiresGrad = true →
        lookupP ((u.backward gsigs).1).w.params k =
          some { p with grad :=
            p.grad + u.activ.backward ((gsigs.map Signal.value).sum) * p.value }) ∧
    ((u.backward gsigs).2 =
        u.w.params.filterMap fun kp =>
          if kp.1 ∈ u.outputB then
            some (kp.1, ⟨u.id, kp.2.data * u.activ.backward ((gsigs.map Signal.value).sum)⟩)
          else none) ∧
    (∀ pb, lookupP u.w.params biasID = some pb → pb.requiresGrad = true →
        pb.value = 1 →
        lookupP ((u.backward gsigs).1).w.params biasID =
          some { pb with grad :=
            pb.grad + u.activ.backward ((gsigs.map Signal.value).sum) }) := by
  have hbe := Unit_backward_eq u gsigs hnd
  set g := u.activ.backward ((gsigs.map Signal.value).sum) with hg
  refine ⟨?_, ?_, ?_, ?_⟩
  · rintro ⟨hk, hv⟩
    rw [hg]
    unfold Activation.backward
    rw [hk]
    simp [hv]
  · intro k p hl hrg
    rw [hbe]
    show lookupP (u.w.params.map (gradUpd g)) k = _
    rw [lookupP_map_keyfix (gradUpd g) (gradUpd_fst g), hl]
    unfold gradUpd
    simp [hrg]
  · rw [hbe]
    rfl
  · intro pb hl hrg hv
    rw [hbe]
    show lookupP (u.w.params.map (gradUpd g)) biasID = _
    rw [lookupP_map_keyfix (gradUpd g) (gradUpd_fst g), hl]
    unfold gradUpd
    simp [hrg, hv]

/-- Witness for C2 on a concrete one-weight ReLU unit with positive cached
pre-activation receiving a single gradient signal. -/
theorem backward_accumulates_and_sends_witness :
    lookupP ((Unit.backward
        { id := "u", w := ⟨[("A", ⟨2, true, 3, 5⟩), (biasID, ⟨0, true, 1, 0⟩)]⟩,
          nin := 1, activ := ⟨.relu, 4⟩, opt := NewSGD 1 0 0,
          output := ["d"], outputB := ["A"] } [⟨"d", 7⟩]).1).w.params "A" =
      some { data := 2, requiresGrad := true, value := 3,
             grad := (5 : F) + (Activation.backward ⟨.relu, 4⟩
               (([(⟨"d", 7⟩ : Signal)].map Signal.value).sum)) * 3 } :=
  (backward_accumulates_and_sends
    { id := "u", w := ⟨[("A", ⟨2, true, 3, 5⟩), (biasID, ⟨0, true, 1, 0⟩)]⟩,
      nin := 1, activ := ⟨.relu, 4⟩, opt := NewSGD 1 0 0,
      output := ["d"], outputB := ["A"] } [⟨"d", 7⟩] (by decide)).2.1
    "A" ⟨2, true, 3, 5⟩ (by decide) rfl

/-- C8: a unit's Step applies the optimizer once per parameter, passing the
parameter's id and its accumulated gradient; afterwards every grad-requiring
parameter's accumulated gradient is zero.  Accumulated gradients are zeroed
only by Step: Forward leaves every accumulated gradient unchanged, and
Backward only adds to it. -/
theorem step_applies_optimizer_and_zeroes_grads (u : Unit)
    (hnd : (keysP u.w.params).Nodup) :
    (∀ k p, lookupP u.w.params k = some p →
        lookupP (u.step).w.params k = some ((u.opt.Step k p).2)) ∧
    (∀ k p, lookupP u.w.params k = some p → p.requiresGrad = true →
        ∃ p', lookupP (u.step).w.params k = some p' ∧ p'.grad = 0) ∧
    (∀ sigs k p, lookupP u.w.params k = some p →
        ∃ p', lookupP ((u.forward sigs).1).w.params k = some p' ∧
          p'.grad = p.grad) ∧
    (∀ gsigs k p, lookupP u.w.params k = some p →
        lookupP ((u.backward gsigs).1).w.params k =
          some (gradUpd (u.activ.backward ((gsigs.map Signal.value).sum)) (k, p)).2) := by
  have hsp := Unit_step_params u hnd
  refine ⟨?_, ?_, ?_, ?_⟩
  · intro k p hl
    rw [hsp, lookupP_map_keyfix (fun kp => (kp.1, (u.opt.Step kp.1 kp.2).2))
          (fun kp => rfl), hl]
    rfl
  · intro k p hl hrg
    refine ⟨(u.opt.Step k p).2, ?_, SGD_Step_grad_zero u.opt k p hrg⟩
    rw [hsp, lookupP_map_keyfix (fun kp => (kp.1, (u.opt.Step kp.1 kp.2).2))
          (fun kp => rfl), hl]
    rfl
  · intro sigs k p hl
    rw [Unit_forward_eq u sigs hnd]
    show ∃ p', lookupP (u.w.params.map (cacheUpd (⟨biasID, 1⟩ :: sigs))) k = some p' ∧ _
    rw [lookupP_map_keyfix _ (cacheUpd_fst _), hl]
    exact ⟨_, rfl, (cacheUpd_keep _ (k, p)).2.2⟩
  · intro gsigs k p hl
    rw [Unit_backward_eq u gsigs hnd]
    show lookupP (u.w.params.map
      (gradUpd (u.activ.backward ((gsigs.map Signal.value).sum)))) k = _
    rw [lookupP_map_keyfix _ (gradUpd_fst _), hl]
    rfl

/-- Witness for C8 on a concrete unit: the optimizer is applied and the
gradient accumulator is reset. -/
theorem step_applies_optimizer_and_zeroes_grads_witness :
    lookupP ((Unit.step
        { id := "u", w := ⟨[("A", ⟨2, true, 3, 5⟩)]⟩,
          nin := 1, activ := ⟨.identity, 0⟩, opt := NewSGD 1 0 0,
          output := [], outputB := [] }).w.params) "A" =
      some (((NewSGD 1 0 0).Step "A" ⟨2, true, 3, 5⟩).2) :=
  (step_applies_optimizer_and_zeroes_grads
    { id := "u", w := ⟨[("A", ⟨2, true, 3, 5⟩)]⟩,
      nin := 1, activ := ⟨.identity, 0⟩, opt := NewSGD 1 0 0,
      output := [], outputB := [] } (by decide)).1 "A" ⟨2, true, 3, 5⟩ (by decide)

end Neuron

namespace Neuron

/-- C9: `Net.Forward` with an input whose length differs from `Arch[0]`
fails with a dimension-mismatch error before sending any signal to any unit:
the error is raised, the sent-signal list is empty, and no network state is
produced. -/
theorem forward_dim_mismatch_fails_cleanly (n : Net) (data : List F)
    (h : (data.length : Int) ≠ n.arch.headI) :
    n.Forward data = .error "Input dim not equal to number of input units" ∧
    n.forwardSends data = [] := by
  constructor
  · unfold Net.Forward
    rw [if_pos h]
  · unfold Net.forwardSends
    rw [if_pos h]

/-- Witness for C9: a 2-element input into a net whose first layer has one
unit. -/
theorem forward_dim_mismatch_fails_cleanly_witness :
    (Net.Forward ⟨[1, 1, 1], []⟩ [2, 3]
        = .error "Input dim not equal to number of input units") ∧
    Net.forwardSends ⟨[1, 1, 1], []⟩ [2, 3] = [] :=
  forward_dim_mismatch_fails_cleanly ⟨[1, 1, 1], []⟩ [2, 3] (by decide)

/-- C6, counterexample: the claim that forward fan-in is tracked with a
pending set keyed by peer id (consuming exactly one signal per peer and
matching duplicate arrivals to the correct slot without double-counting) is
false of the code: the receive loop merely counts arrivals, so a duplicated
signal from the same peer is consumed as two of the `nin` arrivals and its
weighted value is added twice. -/
theorem forward_fanin_not_pending_set :
    ¬ (∀ (u : Unit) (s : Signal) (rest : List Signal),
        u.forward (s :: s :: rest) = u.forward (s :: rest)) := by
  intro h
  have h2 := congrArg Prod.snd
    (h { id := "u", w := ⟨[("A", ⟨1, true, 0, 0⟩)]⟩, nin := 2,
         activ := ⟨.identity, 0⟩, opt := NewSGD 1 0 0,
         output := [], outputB := [] }
       ⟨"A", 2⟩ [])
  have h4 : ((Unit.forward
      { id := "u", w := ⟨[("A", ⟨1, true, 0, 0⟩)]⟩, nin := 2,
        activ := ⟨.identity, 0⟩, opt := NewSGD 1 0 0,
        output := [], outputB := [] }
      [⟨"A", 2⟩, ⟨"A", 2⟩]).2 : F) = 4 := by
    simp [Unit.forward, fwdStep, Weight.forward, Activation.forward, lookupP,
          replaceP, biasID]
    norm_num
  have h1 : ((Unit.forward
      { id := "u", w := ⟨[("A", ⟨1, true, 0, 0⟩)]⟩, nin := 2,
        activ := ⟨.identity, 0⟩, opt := NewSGD 1 0 0,
        output := [], outputB := [] }
      [⟨"A", 2⟩]).2 : F) = 2 := by
    simp [Unit.forward, fwdStep, Weight.forward, Activation.forward, lookupP,
          replaceP, biasID]
  rw [h4, h1] at h2
  norm_num at h2

/-- C6, amended: the receive loops of forward and backward consume a fixed
count of signals (`nin` forward, `len(output)` backward) with a simple
counter; each arriving signal's weight is looked up by sender id and its
value overwrites `cachedInput[senderID]`.  Under the protocol assumption
that the delivery contains exactly one signal per peer (in any order), the
unit's pre-activation is `activation(bias + sum of weight[senderID] * value)`
and each grad-requiring peer parameter caches that peer's value; duplicate
arrivals are not detected and are double-counted. -/
theorem forward_fanin_amended (u : Unit) (sigs : List Signal)
    (hnd : (keysP u.w.params).Nodup) (hsig : (sigs.map Signal.id).Nodup) :
    ((u.forward sigs).2 =
      (u.activ.forward (dataOf u.w biasID * 1 +
        (sigs.map fun s => dataOf u.w s.id * s.value).sum)).2) ∧
    (∀ s ∈ sigs, ∀ p, lookupP u.w.params s.id = some p → p.requiresGrad = true →
        lookupP ((u.forward sigs).1).w.params s.id =
          some { p with value := s.value }) := by
  have hfe := Unit_forward_eq u sigs hnd
  have hpre : preAct u.w (⟨biasID, 1⟩ :: sigs)
      = dataOf u.w biasID * 1 + (sigs.map fun s => dataOf u.w s.id * s.value).sum := by
    simp [preAct]
  constructor
  · rw [hfe]
    show (u.activ.forward (preAct u.w (⟨biasID, 1⟩ :: sigs))).2 = _
    rw [hpre]
  · intro s hs p hl hrg
    rw [hfe]
    show lookupP (u.w.params.map (cacheUpd (⟨biasID, 1⟩ :: sigs))) s.id = _
    rw [lookupP_map_keyfix _ (cacheUpd_fst _), hl, Option.map_some',
        cacheUpd_lookup_hit sigs s p hsig hs hrg]

/-- Witness for C6's amended claim: a unit with two peers receiving one
signal from each, out of order. -/
theorem forward_fanin_amended_witness :
    (Unit.forward
        { id := "u", w := ⟨[("A", ⟨1, true, 0, 0⟩), ("B", ⟨2, true, 0, 0⟩)]⟩,
          nin := 2, activ := ⟨.identity, 0⟩, opt := NewSGD 1 0 0,
          output := [], outputB := [] }
        [⟨"B", 5⟩, ⟨"A", 3⟩]).2 =
      (Activation.forward ⟨.identity, 0⟩
        (dataOf ⟨[("A", ⟨1, true, 0, 0⟩), ("B", ⟨2, true, 0, 0⟩)]⟩ biasID * 1 +
          (([⟨"B", 5⟩, ⟨"A", 3⟩] : List Signal).map fun s =>
            dataOf ⟨[("A", ⟨1, true, 0, 0⟩), ("B", ⟨2, true, 0, 0⟩)]⟩ s.id * s.value).sum)).2 :=
  (forward_fanin_amended
    { id := "u", w := ⟨[("A", ⟨1, true, 0, 0⟩), ("B", ⟨2, true, 0, 0⟩)]⟩,
      nin := 2, activ := ⟨.identity, 0⟩, opt := NewSGD 1 0 0,
      output := [], outputB := [] }
    [⟨"B", 5⟩, ⟨"A", 3⟩] (by decide) (by decide)).1

end Neuron

namespace Neuron

theorem digitChar_toNat : ∀ d < 10, (digitChar d).toNat = 48 + d := by decide

theorem digitChar_ne_underscore : ∀ d < 10, digitChar d ≠ '_' := by decide

theorem natChars_mem (n : Nat) :
    ∀ c ∈ natChars n, (∃ d < 10, c = digitChar d) := by
  intro c hc
  unfold natChars at hc
  rcases List.mem_map.mp hc with ⟨d, hd, hdc⟩
  exact ⟨d, Nat.digits_lt_base (by norm_num) (List.mem_reverse.mp hd), hdc.symm⟩

theorem padZeros_mem (w n : Nat) :
    ∀ c ∈ padZeros w (natChars n), (∃ d < 10, c = digitChar d) := by
  intro c hc
  unfold padZeros at hc
  rcases List.mem_append.mp hc with h1 | h2
  · have hc0 : c = '0' := List.eq_of_mem_replicate h1
    exact ⟨0, by norm_num, by rw [hc0]; rfl⟩
  · exact natChars_mem n c h2

theorem padZeros_no_underscore (w n : Nat) : '_' ∉ padZeros w (natChars n) := by
  intro h
  rcases padZeros_mem w n '_' h with ⟨d, hd, hdc⟩
  exact digitChar_ne_underscore d hd hdc.symm

theorem foldr_digits_ofDigits (L : List Nat) (a : Nat) :
    L.foldr (fun d acc => 10 * acc + d) a = Nat.ofDigits 10 L + a * 10 ^ L.length := by
  induction L with
  | nil => simp
  | cons d T ih =>
      rw [List.foldr_cons, ih, Nat.ofDigits_cons, List.length_cons, pow_succ]
      ring

theorem fromMSB_digits (n : Nat) :
    (Nat.digits 10 n).reverse.foldl (fun a d => 10 * a + d) 0 = n := by
  rw [List.foldl_reverse, foldr_digits_ofDigits, Nat.ofDigits_digits]
  simp

theorem foldl_map_digitChar (L : List Nat) (a : Nat) (hL : ∀ d ∈ L, d < 10) :
    (L.map digitChar).foldl (fun x c => 10 * x + (c.toNat - 48)) a
      = L.foldl (fun x d => 10 * x + d) a := by
  induction L generalizing a with
  | nil => rfl
  | cons d T ih =>
      rw [List.map_cons, List.foldl_cons, List.foldl_cons,
          digitChar_toNat d (hL d (by simp))]
      have h48 : 48 + d - 48 = d := by omega
      rw [h48]
      exact ih _ fun t ht => hL t (by simp [ht])

theorem decodeMSB_pad (w n : Nat) : decodeMSB (padZeros w (natChars n)) = n := by
  unfold decodeMSB padZeros
  rw [List.foldl_append]
  have hz : (List.replicate (w - (natChars n).length) '0').foldl
      (fun a c => 10 * a + (c.toNat - 48)) 0 = 0 := by
    induction (w - (natChars n).length) with
    | zero => rfl
    | succ k ih => rw [List.replicate_succ, List.foldl_cons]; exact ih
  rw [hz]
  unfold natChars
  rw [foldl_map_digitChar _ _ fun d hd =>
        Nat.digits_lt_base (by norm_num) (List.mem_reverse.mp hd)]
  exact fromMSB_digits n

theorem split_at_underscore (A : List Char) :
    ∀ (A' B B' : List Char), '_' ∉ A → '_' ∉ A' →
      A ++ '_' :: B = A' ++ '_' :: B' → A = A' ∧ B = B' := by
  induction A with
  | nil =>
      intro A' B B' _ hA' h
      cases A' with
      | nil =>
          simp at h
          exact ⟨rfl, h⟩
      | cons c t =>
          rw [List.nil_append, List.cons_append, List.cons.injEq] at h
          exact absurd (h.1 ▸ List.mem_cons_self c t) hA'
  | cons c t ih =>
      intro A' B B' hA hA' h
      cases A' with
      | nil =>
          rw [List.nil_append, List.cons_append, List.cons.injEq] at h
          exact absurd (h.1.symm ▸ List.mem_cons_self c t) hA
      | cons c' t' =>
          rw [List.cons_append, List.cons_append, List.cons.injEq] at h
          have hmem : '_' ∉ t := fun hm => hA (List.mem_cons_of_mem c hm)
          have hmem' : '_' ∉ t' := fun hm => hA' (List.mem_cons_of_mem c' hm)
          rcases ih t' B B' hmem hmem' h.2 with ⟨h1, h2⟩
          exact ⟨by rw [h.1, h1], h2⟩

theorem uid_inj (i j i' j' : Nat) (h : uid i j = uid i' j') : i = i' ∧ j = j' := by
  unfold uid at h
  have hdata : padZeros 3 (natChars i) ++ '_' :: padZeros 6 (natChars j)
      = padZeros 3 (natChars i') ++ '_' :: padZeros 6 (natChars j') :=
    congrArg String.data h
  rcases split_at_underscore _ _ _ _ (padZeros_no_underscore 3 i)
      (padZeros_no_underscore 3 i') hdata with ⟨h1, h2⟩
  constructor
  · rw [← decodeMSB_pad 3 i, ← decodeMSB_pad 3 i', h1]
  · rw [← decodeMSB_pad 6 j, ← decodeMSB_pad 6 j', h2]

theorem padZeros_length (w : Nat) (l : List Char) :
    (padZeros w l).length = w - l.length + l.length := by
  unfold padZeros
  simp

theorem uid_head_digit (i j : Nat) :
    ∃ c t, (uid i j).data = c :: t ∧ c ≠ '_' := by
  cases hp : padZeros 3 (natChars i) with
  | nil =>
      have := padZeros_length 3 (natChars i)
      rw [hp] at this
      simp at this
      omega
  | cons c t =>
      refine ⟨c, t ++ '_' :: padZeros 6 (natChars j), ?_, ?_⟩
      · show padZeros 3 (natChars i) ++ '_' :: padZeros 6 (natChars j) = _
        rw [hp]
        rfl
      · intro hc
        exact padZeros_no_underscore 3 i (by rw [hp, ← hc]; exact List.mem_cons_self _ _)

theorem uid_ne_biasID (i j : Nat) : uid i j ≠ biasID := by
  intro h
  rcases uid_head_digit i j with ⟨c, t, hct, hc⟩
  have hdata := congrArg String.data h
  rw [hct] at hdata
  have : c = '_' := by
    have hb : biasID.data = '_' :: ['B', 'I', 'A', 'S'] := rfl
    rw [hb, List.cons.injEq] at hdata
    exact hdata.1
  exact hc this

theorem uid_ne_inputID (i j : Nat) : uid i j ≠ inputID := by
  intro h
  rcases uid_head_digit i j with ⟨c, t, hct, hc⟩
  have hdata := congrArg String.data h
  rw [hct] at hdata
  have : c = '_' := by
    have hb : inputID.data = '_' :: ['I', 'N', 'P', 'U', 'T'] := rfl
    rw [hb, List.cons.injEq] at hdata
    exact hdata.1
  exact hc this

theorem uid_ne_outputID (i j : Nat) : uid i j ≠ outputID := by
  intro h
  rcases uid_head_digit i j with ⟨c, t, hct, hc⟩
  have hdata := congrArg String.data h
  rw [hct] at hdata
  have : c = '_' := by
    have hb : outputID.data = '_' :: ['O', 'U', 'T', 'P', 'U', 'T'] := rfl
    rw [hb, List.cons.injEq] at hdata
    exact hdata.1
  exact hc this

theorem layerIds_nodup (arch : List Int) (i : Nat) : (layerIds arch i).Nodup := by
  unfold layerIds
  apply List.Nodup.map_on
  · intro j1 h1 j2 h2 he
    exact (uid_inj i j1 i j2 he).2
  · exact List.nodup_range _

end Neuron

namespace Neuron

theorem connect_eq (u1 u2 : Unit) (rv : F) :
    connect u1 u2 rv = (addOut [u2.id] u1, recvConn u1.id rv u2) := rfl

theorem addOut_nil (u : Unit) : addOut [] u = u := by
  simp [addOut]

theorem addOut_addOut (ids1 ids2 : List String) (u : Unit) :
    addOut ids2 (addOut ids1 u) = addOut (ids1 ++ ids2) u := by
  simp [addOut]

theorem addOut_id (ids : List String) (u : Unit) : (addOut ids u).id = u.id := rfl

theorem recvConnN_id (nms : List String) (r : Nat → F) :
    ∀ (c s : Nat) (u : Unit), (recvConnN nms r c s u).id = u.id := by
  induction nms with
  | nil => intro c s u; rfl
  | cons nm rest ih => intro c s u; exact ih (c + s) s (recvConn nm (r c) u)

theorem mapIdxFrom_length (f : Nat → Unit → Unit) :
    ∀ (c : Nat) (l : List Unit), (mapIdxFrom f c l).length = l.length := by
  intro c l
  induction l generalizing c with
  | nil => rfl
  | cons u rest ih => simp [mapIdxFrom, ih]

theorem mapIdxFrom_id : ∀ (c : Nat) (l : List Unit),
    mapIdxFrom (fun _ u => u) c l = l := by
  intro c l
  induction l generalizing c with
  | nil => rfl
  | cons u rest ih => simp [mapIdxFrom, ih]

theorem mapIdxFrom_congr (f g : Nat → Unit → Unit)
    (h : ∀ k u, f k u = g k u) :
    ∀ (c : Nat) (l : List Unit), mapIdxFrom f c l = mapIdxFrom g c l := by
  intro c l
  induction l generalizing c with
  | nil => rfl
  | cons u rest ih => simp [mapIdxFrom, h, ih]

theorem mapIdxFrom_shift (f : Nat → Unit → Unit) (s : Nat) :
    ∀ (l : List Unit) (c : Nat),
      mapIdxFrom f (c + s) l = mapIdxFrom (fun k u => f (k + s) u) c l := by
  intro l
  induction l with
  | nil => intro c; rfl
  | cons u rest ih =>
      intro c
      show f (c + s) u :: mapIdxFrom f (c + s + 1) rest = _
      have harith : c + s + 1 = (c + 1) + s := by omega
      rw [harith, ih (c + 1)]
      rfl

theorem mapIdxFrom_comp (f g : Nat → Unit → Unit) :
    ∀ (l : List Unit) (c : Nat),
      mapIdxFrom f c (mapIdxFrom g c l) = mapIdxFrom (fun k u => f k (g k u)) c l := by
  intro l
  induction l with
  | nil => intro c; rfl
  | cons u rest ih =>
      intro c
      show f c (g c u) :: mapIdxFrom f (c + 1) (mapIdxFrom g (c + 1) rest) = _
      rw [ih (c + 1)]
      rfl

theorem mapIdxFrom_range (f : Nat → Unit → Unit) :
    ∀ (n : Nat) (g : Nat → Unit) (c : Nat),
      mapIdxFrom f c ((List.range n).map g)
        = (List.range n).map fun k => f (c + k) (g k) := by
  intro n
  induction n with
  | zero => intro g c; rfl
  | succ m ih =>
      intro g c
      rw [List.range_succ_eq_map, List.map_cons, List.map_cons, List.map_map,
          List.map_map]
      show f c (g 0) :: mapIdxFrom f (c + 1) ((List.range m).map (g ∘ Nat.succ)) = _
      rw [ih (g ∘ Nat.succ) (c + 1)]
      have harith : ∀ k, (c + 1) + k = c + (k + 1) := by omega
      congr 1
      apply List.map_congr_left
      intro k _
      show f (c + 1 + k) (g (k + 1)) = f (c + (k + 1)) (g (k + 1))
      rw [harith k]

theorem idsOf_mapIdxFrom (f : Nat → Unit → Unit) (hf : ∀ k u, (f k u).id = u.id) :
    ∀ (c : Nat) (l : List Unit), idsOf (mapIdxFrom f c l) = idsOf l := by
  intro c l
  induction l generalizing c with
  | nil => rfl
  | cons u rest ih =>
      show (f c u).id :: idsOf (mapIdxFrom f (c + 1) rest) = u.id :: idsOf rest
      rw [hf c u, ih (c + 1)]

theorem connectOne_spec (r : Nat → F) :
    ∀ (l2 : List Unit) (u1 : Unit) (c : Nat),
      connectOne u1 l2 r c =
        (addOut (idsOf l2) u1,
         mapIdxFrom (fun cj u2 => recvConn u1.id (r cj) u2) c l2,
         c + l2.length) := by
  intro l2
  induction l2 with
  | nil =>
      intro u1 c
      show (u1, [], c) = (addOut [] u1, [], c + 0)
      rw [addOut_nil, Nat.add_zero]
  | cons u2 rest ih =>
      intro u1 c
      show (let p := connect u1 u2 (r c)
            let q := connectOne p.1 rest r (c + 1)
            (q.1, p.2 :: q.2.1, q.2.2)) = _
      rw [connect_eq]
      show ((connectOne (addOut [u2.id] u1) rest r (c + 1)).1,
            recvConn u1.id (r c) u2 :: (connectOne (addOut [u2.id] u1) rest r (c + 1)).2.1,
            (connectOne (addOut [u2.id] u1) rest r (c + 1)).2.2) = _
      rw [ih (addOut [u2.id] u1) (c + 1)]
      show (addOut (idsOf rest) (addOut [u2.id] u1),
            recvConn u1.id (r c) u2 ::
              mapIdxFrom (fun cj u => recvConn (addOut [u2.id] u1).id (r cj) u) (c + 1) rest,
            c + 1 + rest.length) = _
      rw [addOut_addOut]
      have harith : c + 1 + rest.length = c + (u2 :: rest).length := by
        simp
        omega
      rw [harith]
      rfl

end Neuron

namespace Neuron

theorem connectAll_spec (r : Nat → F) :
    ∀ (l1 l2 : List Unit) (c : Nat),
      connectAll l1 l2 r c =
        (l1.map (addOut (idsOf l2)),
         mapIdxFrom (fun cj u => recvConnN (idsOf l1) r cj l2.length u) c l2,
         c + l1.length * l2.length) := by
  intro l1
  induction l1 with
  | nil =>
      intro l2 c
      show ([], l2, c) = _
      rw [mapIdxFrom_congr (fun cj u => recvConnN (idsOf ([] : List Unit)) r cj l2.length u)
            (fun _ u => u) (fun k u => rfl) c l2, mapIdxFrom_id]
      simp
  | cons u1 rest ih =>
      intro l2 c
      show ((connectOne u1 l2 r c).1 ::
              (connectAll rest (connectOne u1 l2 r c).2.1 r (connectOne u1 l2 r c).2.2).1,
            (connectAll rest (connectOne u1 l2 r c).2.1 r (connectOne u1 l2 r c).2.2).2.1,
            (connectAll rest (connectOne u1 l2 r c).2.1 r (connectOne u1 l2 r c).2.2).2.2) = _
      rw [connectOne_spec r l2 u1 c]
      dsimp only
      rw [ih (mapIdxFrom (fun cj u2 => recvConn u1.id (r cj) u2) c l2) (c + l2.length)]
      have hids : idsOf (mapIdxFrom (fun cj u2 => recvConn u1.id (r cj) u2) c l2)
          = idsOf l2 :=
        idsOf_mapIdxFrom (fun cj u2 => recvConn u1.id (r cj) u2) (fun k u => rfl) c l2
      have hlen : (mapIdxFrom (fun cj u2 => recvConn u1.id (r cj) u2) c l2).length
          = l2.length := mapIdxFrom_length _ c l2
      rw [hids, hlen]
      rw [Prod.mk.injEq, Prod.mk.injEq]
      refine ⟨rfl, ?_, ?_⟩
      · rw [mapIdxFrom_shift (fun cj u => recvConnN (idsOf rest) r cj l2.length u)
              l2.length (mapIdxFrom (fun cj u2 => recvConn u1.id (r cj) u2) c l2) c,
            mapIdxFrom_comp]
        exact mapIdxFrom_congr _ _ (fun k u => rfl) c l2
      · show c + l2.length + rest.length * l2.length = c + (rest.length + 1) * l2.length
        ring

end Neuron

namespace Neuron

theorem baseUnit_id (arch : List Int) (opt : SGD) (i j : Nat) :
    (baseUnit arch opt i j).id = uid i j := by
  unfold baseUnit newInputUnit newOutputUnit newHiddenUnit newUnit Unit.feedIn Unit.feedOut
  split
  · rfl
  · split <;> rfl

theorem recvUnit_id (arch : List Int) (opt : SGD) (r : Nat → F) (i j : Nat) :
    (recvUnit arch opt r i j).id = uid i j := by
  unfold recvUnit
  cases i with
  | zero => exact baseUnit_id arch opt 0 j
  | succ t => rw [recvConnN_id]; exact baseUnit_id arch opt (t + 1) j

theorem idsOf_baseLayer (arch : List Int) (opt : SGD) (m n : Nat) :
    idsOf ((List.range n).map (baseUnit arch opt m)) = (List.range n).map (uid m) := by
  unfold idsOf
  rw [List.map_map]
  exact List.map_congr_left fun j _ => baseUnit_id arch opt m j

theorem idsOf_recvLayer (arch : List Int) (opt : SGD) (r : Nat → F) (m n : Nat) :
    idsOf ((List.range n).map (recvUnit arch opt r m))
      = (List.range n).map (uid m) := by
  unfold idsOf
  rw [List.map_map]
  exact List.map_congr_left fun j _ => recvUnit_id arch opt r m j

theorem buildLoop (arch : List Int) (opt : SGD) (r : Nat → F) :
    ∀ (k i : Nat), i + k + 1 = arch.length →
      connectNet
        ((List.range (szOf arch i)).map (recvUnit arch opt r i) ::
          ((List.range k).map fun t =>
            (List.range (szOf arch (i + 1 + t))).map (baseUnit arch opt (i + 1 + t))))
        r (cOff arch i)
      = (List.range (k + 1)).map fun t =>
          (List.range (szOf arch (i + t))).map (builtUnit arch opt r (i + t)) := by
  intro k
  induction k with
  | zero =>
      intro i hi
      rw [List.range_zero, List.map_nil, connectNet]
      have h1 : List.range (0 + 1) = [0] := rfl
      rw [h1, List.map_cons, List.map_nil]
      congr 1
      apply List.map_congr_left
      intro j _
      unfold builtUnit
      rw [if_pos (by omega)]
      rfl
  | succ m ih =>
      intro i hi
      rw [List.range_succ_eq_map, List.map_cons, connectNet, connectAll_spec]
      have hlen2 : ((List.range (szOf arch (i + 1 + 0))).map
          (baseUnit arch opt (i + 1 + 0))).length = szOf arch (i + 1) := by
        simp
      have hids : idsOf ((List.range (szOf arch i)).map (recvUnit arch opt r i))
          = layerIds arch i := idsOf_recvLayer arch opt r i (szOf arch i)
      have hids2 : idsOf ((List.range (szOf arch (i + 1 + 0))).map
          (baseUnit arch opt (i + 1 + 0))) = layerIds arch (i + 1) := by
        rw [idsOf_baseLayer]
        show (List.range (szOf arch (i + 1 + 0))).map (uid (i + 1 + 0)) = _
        rw [Nat.add_zero]
        rfl
      rw [hlen2, hids, hids2]
      have hhead : ((List.range (szOf arch i)).map (recvUnit arch opt r i)).map
            (addOut (layerIds arch (i + 1)))
          = (List.range (szOf arch i)).map (builtUnit arch opt r i) := by
        rw [List.map_map]
        apply List.map_congr_left
        intro j _
        show addOut (layerIds arch (i + 1)) (recvUnit arch opt r i j) = _
        unfold builtUnit
        rw [if_neg (by omega)]
      have hrecv : mapIdxFrom
            (fun cj u => recvConnN (layerIds arch i) r cj (szOf arch (i + 1)) u)
            (cOff arch i)
            ((List.range (szOf arch (i + 1 + 0))).map (baseUnit arch opt (i + 1 + 0)))
          = (List.range (szOf arch (i + 1))).map (recvUnit arch opt r (i + 1)) := by
        rw [show i + 1 + 0 = i + 1 from rfl, mapIdxFrom_range]
        apply List.map_congr_left
        intro j _
        rfl
      rw [hhead, hrecv]
      have hcnt : cOff arch i +
            ((List.range (szOf arch i)).map (recvUnit arch opt r i)).length *
              szOf arch (i + 1)
          = cOff arch (i + 1) := by
        simp [cOff]
      rw [hcnt]
      have htail : ((List.range m).map Nat.succ).map
            (fun t => (List.range (szOf arch (i + 1 + t))).map (baseUnit arch opt (i + 1 + t)))
          = (List.range m).map
              (fun t => (List.range (szOf arch ((i + 1) + 1 + t))).map
                (baseUnit arch opt ((i + 1) + 1 + t))) := by
        rw [List.map_map]
        apply List.map_congr_left
        intro t _
        show (List.range (szOf arch (i + 1 + (t + 1)))).map (baseUnit arch opt (i + 1 + (t + 1))) = _
        have : i + 1 + (t + 1) = (i + 1) + 1 + t := by omega
        rw [this]
      rw [htail, ih (i + 1) (by omega)]
      conv_rhs => rw [List.range_succ_eq_map]
      rw [List.map_cons, List.map_map]
      congr 1
      apply List.map_congr_left
      intro t _
      show (List.range (szOf arch ((i + 1) + t))).map (builtUnit arch opt r ((i + 1) + t))
          = (List.range (szOf arch (i + (t + 1)))).map (builtUnit arch opt r (i + (t + 1)))
      have harr : (i + 1) + t = i + (t + 1) := by omega
      rw [harr]

end Neuron

namespace Neuron

theorem NewMLP_layers (arch : List Int) (opt : SGD) (r : Nat → F)
    (hlen : 3 ≤ arch.length) (hpos : ∀ sz ∈ arch, 1 ≤ sz) :
    NewMLP arch opt r = .ok ⟨arch, builtLayers arch opt r⟩ := by
  have hany : ¬ (arch.any (fun sz => sz < 1) = true) := by
    rw [List.any_eq_true]
    rintro ⟨sz, hmem, hlt⟩
    have h1 := hpos sz hmem
    simp at hlt
    omega
  unfold NewMLP
  rw [if_neg (by omega), if_neg hany]
  have hsplit : (List.range arch.length).map
      (fun ii => mkLayer opt arch.length ii (arch.getD ii 0).toNat)
      = (List.range (szOf arch 0)).map (recvUnit arch opt r 0) ::
        (List.range (arch.length - 1)).map
          (fun t => (List.range (szOf arch (1 + t))).map
            (baseUnit arch opt (1 + t))) := by
    have h2 : List.range arch.length
        = 0 :: (List.range (arch.length - 1)).map Nat.succ := by
      conv_lhs => rw [show arch.length = (arch.length - 1) + 1 by omega]
      exact List.range_succ_eq_map _
    rw [h2, List.map_cons, List.map_map]
    congr 1
    apply List.map_congr_left
    intro t _
    show mkLayer opt arch.length (t + 1) (arch.getD (t + 1) 0).toNat = _
    have h3 : 1 + t = t + 1 := by omega
    rw [h3]
    rfl
  have hb := buildLoop arch opt r (arch.length - 1) 0 (by omega)
  rw [show cOff arch 0 = 0 from rfl] at hb
  rw [hsplit, hb]
  unfold builtLayers
  rw [show arch.length - 1 + 1 = arch.length by omega]
  congr 1
  congr 1
  apply List.map_congr_left
  intro t _
  show (List.range (szOf arch (0 + t))).map (builtUnit arch opt r (0 + t)) = _
  rw [Nat.zero_add]

end Neuron

namespace Neuron

/-- C5: network construction succeeds exactly on valid architectures: with
at least 3 layers, all sizes at least 1, `NewMLP` returns a net with one
layer per architecture entry and `len(Layers[i]) = arch[i]` for every `i`;
with fewer than 3 layers or any non-positive size it fails with a
construction error. -/
theorem newMLP_validation (arch : List Int) (opt : SGD) (r : Nat → F) :
    ((3 ≤ arch.length ∧ ∀ sz ∈ arch, 1 ≤ sz) →
      ∃ n, NewMLP arch opt r = .ok n ∧
        n.arch = arch ∧
        n.layers.length = arch.length ∧
        ∀ i, i < arch.length → ((n.layers.getD i []).length : Int) = arch.getD i 0) ∧
    ((arch.length < 3 ∨ ∃ sz ∈ arch, sz < 1) →
      ∃ e, NewMLP arch opt r = .error e) := by
  constructor
  · rintro ⟨hlen, hpos⟩
    refine ⟨⟨arch, builtLayers arch opt r⟩, NewMLP_layers arch opt r hlen hpos,
      rfl, ?_, ?_⟩
    · show (builtLayers arch opt r).length = arch.length
      unfold builtLayers
      simp
    · intro i hi
      show (((builtLayers arch opt r).getD i []).length : Int) = arch.getD i 0
      unfold builtLayers
      have hlt : i < ((List.range arch.length).map fun t =>
          (List.range (szOf arch t)).map (builtUnit arch opt r t)).length := by
        simp [hi]
      rw [List.getD_eq_getElem _ _ hlt, List.getElem_map, List.getElem_range]
      simp only [List.length_map, List.length_range]
      unfold szOf
      have hmem : arch.getD i 0 ∈ arch := by
        rw [List.getD_eq_getElem _ _ hi]
        exact List.getElem_mem hi
      have h1 := hpos _ hmem
      omega
  · intro hbad
    by_cases hlen : arch.length < 3
    · refine ⟨"MLP architectures need >= 2 layers", ?_⟩
      unfold NewMLP
      rw [if_pos hlen]
    · rcases hbad with h | ⟨sz, hmem, hlt⟩
      · exact absurd h hlen
      · refine ⟨"Each layer >= 1 unit", ?_⟩
        unfold NewMLP
        rw [if_neg hlen, if_pos (List.any_eq_true.mpr ⟨sz, hmem, by simpa using hlt⟩)]

/-- Witness for C5: the 1-1-1 architecture builds with matching layer sizes,
and a 2-layer architecture fails. -/
theorem newMLP_validation_witness :
    (∃ n, NewMLP [1, 1, 1] (NewSGD 1 0 0) (fun _ => 0) = .ok n ∧
      n.arch = [1, 1, 1] ∧
      n.layers.length = ([1, 1, 1] : List Int).length ∧
      ∀ i, i < ([1, 1, 1] : List Int).length →
        ((n.layers.getD i []).length : Int) = ([1, 1, 1] : List Int).getD i 0) ∧
    (∃ e, NewMLP [2, 4] (NewSGD 1 0 0) (fun _ => 0) = .error e) :=
  ⟨(newMLP_validation [1, 1, 1] (NewSGD 1 0 0) (fun _ => 0)).1
      ⟨by norm_num, by decide⟩,
   (newMLP_validation [2, 4] (NewSGD 1 0 0) (fun _ => 0)).2 (Or.inl (by norm_num))⟩

end Neuron

namespace Neuron

theorem insertP_not_mem (ps : List (String × Param)) (k : String) (p : Param)
    (h : lookupP ps k = none) : insertP ps k p = ps ++ [(k, p)] := by
  unfold insertP
  rw [h]

theorem recvConn_params (nm : String) (rv : F) (u : Unit)
    (h : nm ∉ keysP u.w.params) :
    (recvConn nm rv u).w.params = u.w.params ++
      [(nm, ⟨randUnif (-(1/100)) (1/100) rv, true, 0, 0⟩)] := by
  show (u.w.init nm (randUnif (-(1/100)) (1/100) rv) true).params = _
  unfold Weight.init
  rw [insertP_not_mem _ _ _ ((lookupP_eq_none_iff _ _).mpr h)]

theorem keysP_append (ps qs : List (String × Param)) :
    keysP (ps ++ qs) = keysP ps ++ keysP qs := by
  unfold keysP
  rw [List.map_append]

theorem keysP_connParams (nms : List String) (r : Nat → F) :
    ∀ c s, keysP (connParams nms r c s) = nms := by
  induction nms with
  | nil => intro c s; rfl
  | cons nm rest ih =>
      intro c s
      show keysP ((nm, _) :: connParams rest r (c + s) s) = nm :: rest
      show nm :: keysP (connParams rest r (c + s) s) = nm :: rest
      rw [ih (c + s) s]

theorem recvConnN_params (nms : List String) (r : Nat → F) :
    ∀ (c s : Nat) (u : Unit), (∀ nm ∈ nms, nm ∉ keysP u.w.params) → nms.Nodup →
      (recvConnN nms r c s u).w.params = u.w.params ++ connParams nms r c s := by
  induction nms with
  | nil =>
      intro c s u _ _
      show u.w.params = u.w.params ++ []
      rw [List.append_nil]
  | cons nm rest ih =>
      intro c s u hdisj hnd
      rw [List.nodup_cons] at hnd
      show (recvConnN rest r (c + s) s (recvConn nm (r c) u)).w.params = _
      have hp := recvConn_params nm (r c) u (hdisj nm (by simp))
      have hkeys : keysP ((recvConn nm (r c) u).w.params)
          = keysP u.w.params ++ [nm] := by
        rw [hp, keysP_append]
        rfl
      rw [ih (c + s) s _ ?hd hnd.2, hp]
      · show (u.w.params ++ [(nm, _)]) ++ connParams rest r (c + s) s = _
        rw [List.append_assoc]
        rfl
      case hd =>
        intro nm2 h2
        rw [hkeys]
        intro hc
        rcases List.mem_append.mp hc with hc1 | hc2
        · exact hdisj nm2 (by simp [h2]) hc1
        · exact hnd.1 ((List.mem_singleton.mp hc2) ▸ h2)

theorem recvConnN_activ (nms : List String) (r : Nat → F) :
    ∀ (c s : Nat) (u : Unit), (recvConnN nms r c s u).activ = u.activ := by
  induction nms with
  | nil => intro c s u; rfl
  | cons nm rest ih => intro c s u; exact ih (c + s) s (recvConn nm (r c) u)

theorem recvConnN_output (nms : List String) (r : Nat → F) :
    ∀ (c s : Nat) (u : Unit), (recvConnN nms r c s u).output = u.output := by
  induction nms with
  | nil => intro c s u; rfl
  | cons nm rest ih => intro c s u; exact ih (c + s) s (recvConn nm (r c) u)

theorem recvConnN_outputB (nms : List String) (r : Nat → F) :
    ∀ (c s : Nat) (u : Unit),
      (recvConnN nms r c s u).outputB = u.outputB ++ nms := by
  induction nms with
  | nil => intro c s u; rw [List.append_nil]; rfl
  | cons nm rest ih =>
      intro c s u
      show (recvConnN rest r (c + s) s (recvConn nm (r c) u)).outputB = _
      rw [ih (c + s) s (recvConn nm (r c) u)]
      show (u.outputB ++ [nm]) ++ rest = _
      rw [List.append_assoc]
      rfl

theorem builtUnit_params_input (arch : List Int) (opt : SGD) (r : Nat → F)
    (j : Nat) (hlen : 3 ≤ arch.length) :
    (builtUnit arch opt r 0 j).w.params
      = [(inputID, ⟨1, false, 0, 0⟩)] := by
  unfold builtUnit
  rw [if_neg (by omega)]
  rfl

theorem builtUnit_params_mid (arch : List Int) (opt : SGD) (r : Nat → F)
    (t j : Nat) :
    (builtUnit arch opt r (t + 1) j).w.params
      = (if t + 1 = arch.length - 1 then [(biasID, ⟨0, true, 0, 0⟩)]
         else [(biasID, ⟨1/10, true, 0, 0⟩)])
        ++ connParams (layerIds arch t) r (cOff arch t + j) (szOf arch (t + 1)) := by
  have hbase : ∀ u0 : Unit, u0.w.params = [(biasID, (⟨0, true, 0, 0⟩ : Param))] ∨
      u0.w.params = [(biasID, (⟨1/10, true, 0, 0⟩ : Param))] → True := fun _ _ => trivial
  unfold builtUnit recvUnit
  have hdisj : ∀ pb : Param, ∀ nm ∈ layerIds arch t,
      nm ∉ keysP [(biasID, pb)] := by
    intro pb nm hnm
    rcases List.mem_map.mp hnm with ⟨k, _, hk⟩
    intro hc
    rcases List.mem_singleton.mp hc with hc2
    exact uid_ne_biasID t k (by rw [hk, hc2])
  by_cases hlast : t + 1 = arch.length - 1
  · rw [if_pos hlast, if_pos hlast]
    have hb : (baseUnit arch opt (t + 1) j).w.params
        = [(biasID, (⟨0, true, 0, 0⟩ : Param))] := by
      unfold baseUnit
      rw [if_neg (by omega), if_pos hlast]
      rfl
    rw [recvConnN_params _ r _ _ _ (by rw [hb]; exact hdisj _) (layerIds_nodup arch t), hb]
  · rw [if_neg hlast]
    show (recvConnN (layerIds arch t) r (cOff arch t + j) (szOf arch (t + 1))
        (baseUnit arch opt (t + 1) j)).w.params = _
    have hb : (baseUnit arch opt (t + 1) j).w.params
        = [(biasID, (⟨1/10, true, 0, 0⟩ : Param))] := by
      unfold baseUnit
      rw [if_neg (by omega), if_neg hlast]
      rfl
    rw [recvConnN_params _ r _ _ _ (by rw [hb]; exact hdisj _) (layerIds_nodup arch t), hb,
        if_neg hlast]

theorem builtUnit_keys_nodup (arch : List Int) (opt : SGD) (r : Nat → F)
    (i j : Nat) (hlen : 3 ≤ arch.length) :
    (keysP (builtUnit arch opt r i j).w.params).Nodup := by
  cases i with
  | zero =>
      rw [builtUnit_params_input arch opt r j hlen]
      decide
  | succ t =>
      rw [builtUnit_params_mid arch opt r t j, keysP_append, keysP_connParams]
      have hb : keysP (if t + 1 = arch.length - 1
          then [(biasID, (⟨0, true, 0, 0⟩ : Param))]
          else [(biasID, (⟨1/10, true, 0, 0⟩ : Param))]) = [biasID] := by
        split <;> rfl
      rw [hb]
      rw [List.singleton_append, List.nodup_cons]
      refine ⟨?_, layerIds_nodup arch t⟩
      intro hc
      rcases List.mem_map.mp hc with ⟨k, _, hk⟩
      exact uid_ne_biasID t k hk

theorem builtUnit_activ (arch : List Int) (opt : SGD) (r : Nat → F) (i j : Nat) :
    (builtUnit arch opt r i j).activ
      = ⟨if i = 0 ∨ i = arch.length - 1 then .identity else .relu, 0⟩ := by
  have hrecv : (recvUnit arch opt r i j).activ = (baseUnit arch opt i j).activ := by
    unfold recvUnit
    cases i with
    | zero => rfl
    | succ t => rw [recvConnN_activ]
  have hbase : (baseUnit arch opt i j).activ
      = ⟨if i = 0 ∨ i = arch.length - 1 then .identity else .relu, 0⟩ := by
    unfold baseUnit
    by_cases h0 : i = 0
    · rw [if_pos h0, if_pos (Or.inl h0)]
      rfl
    · rw [if_neg h0]
      by_cases hl : i = arch.length - 1
      · rw [if_pos hl, if_pos (Or.inr hl)]
        rfl
      · rw [if_neg hl, if_neg (by rintro (h | h) <;> [exact h0 h; exact hl h])]
        rfl
  unfold builtUnit
  split
  · rw [hrecv, hbase]
  · show (recvUnit arch opt r i j).activ = _
    rw [hrecv, hbase]

end Neuron

namespace Neuron

theorem unit_forward_id (u : Unit) (sigs : List Signal) :
    (u.forward sigs).1.id = u.id := rfl

theorem unit_forward_out (u : Unit) (prevIds : List String) (prev : List F)
    (hnd : (keysP u.w.params).Nodup) :
    (u.forward (List.zipWith Signal.mk prevIds prev)).2
      = specUnitOut prevIds prev u := by
  rw [Unit_forward_eq u _ hnd]
  show (u.activ.forward
      (preAct u.w (⟨biasID, 1⟩ :: List.zipWith Signal.mk prevIds prev))).2 = _
  have hpre : preAct u.w (⟨biasID, 1⟩ :: List.zipWith Signal.mk prevIds prev)
      = dataOf u.w biasID +
        (List.zipWith (fun pid v => dataOf u.w pid * v) prevIds prev).sum := by
    unfold preAct
    rw [List.map_cons, List.sum_cons, List.map_zipWith]
    show dataOf u.w biasID * 1 + _ = _
    rw [mul_one]
  rw [hpre]
  unfold specUnitOut Activation.forward
  rcases hu : u.activ with ⟨kind, val⟩
  cases kind <;> rfl

theorem map_mk_eq_zipWith (g : Unit → F) :
    ∀ (l : List Unit),
      l.map (fun u => Signal.mk u.id (g u))
        = List.zipWith Signal.mk (idsOf l) (l.map g) := by
  intro l
  induction l with
  | nil => rfl
  | cons u rest ih =>
      show Signal.mk u.id (g u) :: _ = Signal.mk u.id (g u) :: _
      rw [ih]
      rfl

theorem runLayer_out (units : List Unit) (prevIds : List String) (prev : List F)
    (hnds : ∀ u ∈ units, (keysP u.w.params).Nodup) :
    (runLayer units (List.zipWith Signal.mk prevIds prev)).2
      = List.zipWith Signal.mk (idsOf units) (specLayer prevIds prev units) := by
  show ((units.map fun u => u.forward (List.zipWith Signal.mk prevIds prev)).map
      fun p => Signal.mk p.1.id p.2) = _
  rw [List.map_map]
  have h1 : units.map ((fun p : Unit × F => Signal.mk p.1.id p.2) ∘
      fun u => u.forward (List.zipWith Signal.mk prevIds prev))
      = units.map fun u => Signal.mk u.id (specUnitOut prevIds prev u) := by
    apply List.map_congr_left
    intro u hu
    show Signal.mk ((u.forward _).1.id) ((u.forward _).2) = _
    rw [unit_forward_id, unit_forward_out u prevIds prev (hnds u hu)]
  rw [h1, map_mk_eq_zipWith]
  rfl

theorem runLayers_out : ∀ (layers : List (List Unit)) (prevIds : List String)
    (prev : List F),
    (∀ l ∈ layers, ∀ u ∈ l, (keysP u.w.params).Nodup) →
    (runLayers layers (List.zipWith Signal.mk prevIds prev)).2
      = List.zipWith Signal.mk (lastIdsOf layers prevIds)
          (specForwardAux layers prevIds prev) := by
  intro layers
  induction layers with
  | nil => intro prevIds prev _; rfl
  | cons l rest ih =>
      intro prevIds prev hwf
      show (runLayers rest (runLayer l (List.zipWith Signal.mk prevIds prev)).2).2 = _
      rw [runLayer_out l prevIds prev (hwf l (by simp)),
          ih (idsOf l) (specLayer prevIds prev l)
            (fun l2 h2 => hwf l2 (List.mem_cons_of_mem _ h2))]
      rfl

theorem builtUnit_id (arch : List Int) (opt : SGD) (r : Nat → F) (i j : Nat) :
    (builtUnit arch opt r i j).id = uid i j := by
  unfold builtUnit
  split
  · exact recvUnit_id arch opt r i j
  · show (addOut _ (recvUnit arch opt r i j)).id = _
    rw [addOut_id]
    exact recvUnit_id arch opt r i j

theorem idsOf_builtLayer (arch : List Int) (opt : SGD) (r : Nat → F) (i n : Nat) :
    idsOf ((List.range n).map (builtUnit arch opt r i))
      = (List.range n).map (uid i) := by
  unfold idsOf
  rw [List.map_map]
  exact List.map_congr_left fun j _ => builtUnit_id arch opt r i j

theorem lastIdsOf_built (arch : List Int) (opt : SGD) (r : Nat → F) :
    ∀ (k i : Nat),
      lastIdsOf
        ((List.range k).map fun t =>
          (List.range (szOf arch (i + 1 + t))).map (builtUnit arch opt r (i + 1 + t)))
        (layerIds arch i)
      = layerIds arch (i + k) := by
  intro k
  induction k with
  | zero => intro i; rfl
  | succ m ih =>
      intro i
      rw [List.range_succ_eq_map, List.map_cons, List.map_map]
      show lastIdsOf (_ :: _) _ = _
      unfold lastIdsOf
      have h1 : idsOf ((List.range (szOf arch (i + 1 + 0))).map
          (builtUnit arch opt r (i + 1 + 0))) = layerIds arch (i + 1) := by
        rw [idsOf_builtLayer]
        show (List.range (szOf arch (i + 1 + 0))).map (uid (i + 1 + 0)) = _
        rw [Nat.add_zero]
        rfl
      rw [h1]
      have h2 : (List.range m).map
          ((fun t => (List.range (szOf arch (i + 1 + t))).map (builtUnit arch opt r (i + 1 + t)))
            ∘ Nat.succ)
          = (List.range m).map
            (fun t => (List.range (szOf arch ((i + 1) + 1 + t))).map
              (builtUnit arch opt r ((i + 1) + 1 + t))) := by
        apply List.map_congr_left
        intro t _
        show (List.range (szOf arch (i + 1 + (t + 1)))).map
            (builtUnit arch opt r (i + 1 + (t + 1))) = _
        have h3 : i + 1 + (t + 1) = (i + 1) + 1 + t := by omega
        rw [h3]
      rw [h2, ih (i + 1)]
      have h4 : (i + 1) + m = i + (m + 1) := by omega
      rw [h4]

theorem specForwardAux_length : ∀ (layers : List (List Unit))
    (prevIds : List String) (prev : List F),
    (specForwardAux layers prevIds prev).length
      = (lastIdsOf layers prevIds).length
      ∨ layers = [] := by
  intro layers
  induction layers with
  | nil => intro prevIds prev; right; rfl
  | cons l rest ih =>
      intro prevIds prev
      left
      show (specForwardAux rest (idsOf l) (specLayer prevIds prev l)).length
          = (lastIdsOf rest (idsOf l)).length
      rcases ih (idsOf l) (specLayer prevIds prev l) with h | h
      · exact h
      · subst h
        show (specLayer prevIds prev l).length = (idsOf l).length
        unfold specLayer idsOf
        simp

theorem map_value_zipWith (ids : List String) :
    ∀ (vals : List F), vals.length = ids.length →
      (List.zipWith Signal.mk ids vals).map Signal.value = vals := by
  induction ids with
  | nil =>
      intro vals h
      rw [List.length_nil] at h
      rw [List.eq_nil_of_length_eq_zero h]
      rfl
  | cons i rest ih =>
      intro vals h
      cases vals with
      | nil => simp at h
      | cons v vrest =>
          show v :: (List.zipWith Signal.mk rest vrest).map Signal.value = v :: vrest
          rw [ih vrest (by simpa using h)]

end Neuron

namespace Neuron

theorem inputUnit_forward (u : Unit) (v : F)
    (hp : u.w.params = [(inputID, ⟨1, false, 0, 0⟩)])
    (ha : u.activ = ⟨.identity, 0⟩) :
    u.forward [⟨inputID, v⟩] = (u, v) := by
  rcases u with ⟨id, w, nin, activ, opt, out, outB⟩
  rcases w with ⟨params⟩
  dsimp at hp ha
  subst hp ha
  simp [Unit.forward, fwdStep, Weight.forward, lookupP, Activation.forward,
    biasID, inputID]

theorem runInputLayer_out : ∀ (units : List Unit) (data : List F),
    units.length = data.length →
    (∀ u ∈ units, u.w.params = [(inputID, ⟨1, false, 0, 0⟩)]
      ∧ u.activ = ⟨.identity, 0⟩) →
    runInputLayer units data
      = (units, List.zipWith Signal.mk (idsOf units) data) := by
  intro units
  induction units with
  | nil =>
      intro data hlen _
      rw [List.length_nil] at hlen
      rw [List.eq_nil_of_length_eq_zero hlen.symm]
      rfl
  | cons u us ih =>
      intro data hlen hwf
      cases data with
      | nil => simp at hlen
      | cons v vs =>
          have hu := hwf u (by simp)
          have h1 : u.forward [⟨inputID, v⟩] = (u, v) :=
            inputUnit_forward u v hu.1 hu.2
          have ih2 := ih vs (by simpa using hlen)
            (fun u2 h2 => hwf u2 (List.mem_cons_of_mem _ h2))
          have ha := congrArg Prod.fst ih2
          have hb := congrArg Prod.snd ih2
          dsimp only at ha hb
          show ((((u, v) :: us.zip vs).map
                fun p => p.1.forward [⟨inputID, p.2⟩]).map Prod.fst,
              (((u, v) :: us.zip vs).map
                fun p => p.1.forward [⟨inputID, p.2⟩]).map
                  fun p => (⟨p.1.id, p.2⟩ : Signal))
            = (u :: us, ⟨u.id, v⟩ :: List.zipWith Signal.mk (idsOf us) vs)
          simp only [List.map_cons]
          rw [Prod.mk.injEq]
          constructor
          · show (u.forward [⟨inputID, v⟩]).1 :: _ = _
            rw [h1]
            show u :: (runInputLayer us vs).1 = _
            rw [ha]
          · show (⟨(u.forward [⟨inputID, v⟩]).1.id,
                (u.forward [⟨inputID, v⟩]).2⟩ : Signal) :: _ = _
            rw [h1]
            show (⟨u.id, v⟩ : Signal) :: (runInputLayer us vs).2 = _
            rw [hb]

theorem builtLayers_cons (arch : List Int) (opt : SGD) (r : Nat → F)
    (hlen : 3 ≤ arch.length) :
    builtLayers arch opt r
      = ((List.range (szOf arch 0)).map (builtUnit arch opt r 0))
        :: (List.range (arch.length - 1)).map
            (fun t => (List.range (szOf arch (1 + t))).map
              (builtUnit arch opt r (1 + t))) := by
  obtain ⟨m, hm⟩ : ∃ m, arch.length = m + 1 := ⟨arch.length - 1, by omega⟩
  unfold builtLayers
  rw [hm, List.range_succ_eq_map, List.map_cons, List.map_map]
  rw [Nat.add_sub_cancel]
  congr 1
  apply List.map_congr_left
  intro t _
  show (List.range (szOf arch (t + 1))).map (builtUnit arch opt r (t + 1)) = _
  have h3 : 1 + t = t + 1 := by omega
  rw [h3]

theorem Net_Forward_cons (n : Net) (data : List F) (l0 : List Unit)
    (rest : List (List Unit)) (hL : n.layers = l0 :: rest)
    (hdim : (data.length : Int) = n.arch.headI) :
    n.Forward data
      = .ok ((runLayers rest (runInputLayer l0 data).2).2.map Signal.value,
          { n with layers :=
              (runInputLayer l0 data).1
                :: (runLayers rest (runInputLayer l0 data).2).1 }) := by
  unfold Net.Forward
  rw [if_neg (not_not_intro hdim), hL]

/-- **C1.** For every network built by `NewMLP` and every input whose length
matches `arch[0]`, `Net.Forward` succeeds and returns exactly the
specification-side layered MLP computation: input units pass their external
input through unchanged (layer 0 of `specForward` is `data` itself), and
every later unit outputs `activation(bias + Σ weight[peer] * peerValue)`;
the output has one value per output unit, in unit order, and the activation
is ReLU (`max(x,0)`) exactly on the hidden layers and the identity on the
input and output layers. -/
theorem netForward_computes_mlp (arch : List Int) (opt : SGD) (r : Nat → F)
    (n : Net) (data : List F)
    (hok : NewMLP arch opt r = .ok n)
    (hdim : (data.length : Int) = arch.headI) :
    ∃ n2 : Net, n.Forward data = .ok (specForward n data, n2)
      ∧ (specForward n data).length = szOf arch (arch.length - 1)
      ∧ ∀ i : Nat, ∀ u ∈ n.layers.getD i [],
          u.activ = ⟨if i = 0 ∨ i = arch.length - 1 then .identity else .relu,
            0⟩ := by
  have hlen : 3 ≤ arch.length := by
    by_contra h
    have h3 : arch.length < 3 := by omega
    rw [NewMLP, if_pos h3] at hok
    exact Except.noConfusion hok
  have hpos : ∀ sz ∈ arch, 1 ≤ sz := by
    intro sz hsz
    by_contra h
    have hany : arch.any (fun sz => sz < 1) = true := by
      rw [List.any_eq_true]
      refine ⟨sz, hsz, ?_⟩
      simp
      omega
    rw [NewMLP, if_neg (by omega), if_pos hany] at hok
    exact Except.noConfusion hok
  rw [NewMLP_layers arch opt r hlen hpos] at hok
  injection hok with hok
  subst hok
  have hd0 : data.length = szOf arch 0 := by
    cases arch with
    | nil => simp at hlen
    | cons a l =>
        have ha : 1 ≤ a := hpos a (by simp)
        have h1 : (a :: l).headI = a := rfl
        have h2 : szOf (a :: l) 0 = a.toNat := rfl
        rw [h1] at hdim
        rw [h2]
        omega
  have hid0 : idsOf ((List.range (szOf arch 0)).map (builtUnit arch opt r 0))
      = layerIds arch 0 := by
    rw [idsOf_builtLayer]
    rfl
  have hinput : runInputLayer
        ((List.range (szOf arch 0)).map (builtUnit arch opt r 0)) data
      = ((List.range (szOf arch 0)).map (builtUnit arch opt r 0),
          List.zipWith Signal.mk
            (idsOf ((List.range (szOf arch 0)).map (builtUnit arch opt r 0)))
            data) := by
    apply runInputLayer_out
    · rw [List.length_map, List.length_range, hd0]
    · intro u hu
      rw [List.mem_map] at hu
      obtain ⟨j, hj, rfl⟩ := hu
      refine ⟨builtUnit_params_input arch opt r j hlen, ?_⟩
      rw [builtUnit_activ]
      simp
  have hnodup : ∀ l ∈ (List.range (arch.length - 1)).map
        (fun t => (List.range (szOf arch (1 + t))).map
          (builtUnit arch opt r (1 + t))),
      ∀ u ∈ l, (keysP u.w.params).Nodup := by
    intro l hl u hu
    rw [List.mem_map] at hl
    obtain ⟨t, ht, rfl⟩ := hl
    rw [List.mem_map] at hu
    obtain ⟨j, hj, rfl⟩ := hu
    exact builtUnit_keys_nodup arch opt r _ j hlen
  have hlast : lastIdsOf
        ((List.range (arch.length - 1)).map
          (fun t => (List.range (szOf arch (1 + t))).map
            (builtUnit arch opt r (1 + t))))
        (idsOf ((List.range (szOf arch 0)).map (builtUnit arch opt r 0)))
      = layerIds arch (arch.length - 1) := by
    rw [hid0]
    have h := lastIdsOf_built arch opt r (arch.length - 1) 0
    have h0 : (0 : Nat) + (arch.length - 1) = arch.length - 1 := by omega
    rw [h0] at h
    exact h
  have hrest : ((List.range (arch.length - 1)).map
        (fun t => (List.range (szOf arch (1 + t))).map
          (builtUnit arch opt r (1 + t)))).length = arch.length - 1 := by
    rw [List.length_map, List.length_range]
  have hlenA : (specForwardAux
        ((List.range (arch.length - 1)).map
          (fun t => (List.range (szOf arch (1 + t))).map
            (builtUnit arch opt r (1 + t))))
        (idsOf ((List.range (szOf arch 0)).map (builtUnit arch opt r 0)))
        data).length = szOf arch (arch.length - 1) := by
    rcases specForwardAux_length
        ((List.range (arch.length - 1)).map
          (fun t => (List.range (szOf arch (1 + t))).map
            (builtUnit arch opt r (1 + t))))
        (idsOf ((List.range (szOf arch 0)).map (builtUnit arch opt r 0)))
        data with h | h
    · rw [h, hlast]
      unfold layerIds
      rw [List.length_map, List.length_range]
    · rw [h] at hrest
      simp at hrest
      omega
  have hrun : (runLayers
        ((List.range (arch.length - 1)).map
          (fun t => (List.range (szOf arch (1 + t))).map
            (builtUnit arch opt r (1 + t))))
        (List.zipWith Signal.mk
          (idsOf ((List.range (szOf arch 0)).map (builtUnit arch opt r 0)))
          data)).2.map Signal.value
      = specForwardAux
          ((List.range (arch.length - 1)).map
            (fun t => (List.range (szOf arch (1 + t))).map
              (builtUnit arch opt r (1 + t))))
          (idsOf ((List.range (szOf arch 0)).map (builtUnit arch opt r 0)))
          data := by
    rw [runLayers_out _ _ _ hnodup, hlast]
    apply map_value_zipWith
    rw [hlenA]
    unfold layerIds
    rw [List.length_map, List.length_range]
  have hspec : specForward ⟨arch, builtLayers arch opt r⟩ data
      = specForwardAux
          ((List.range (arch.length - 1)).map
            (fun t => (List.range (szOf arch (1 + t))).map
              (builtUnit arch opt r (1 + t))))
          (idsOf ((List.range (szOf arch 0)).map (builtUnit arch opt r 0)))
          data := by
    unfold specForward
    rw [show (⟨arch, builtLayers arch opt r⟩ : Net).layers
        = builtLayers arch opt r from rfl]
    rw [builtLayers_cons arch opt r hlen]
  have hF : Net.Forward ⟨arch, builtLayers arch opt r⟩ data
      = .ok (specForward ⟨arch, builtLayers arch opt r⟩ data,
          { arch := arch,
            layers :=
              (runInputLayer
                  ((List.range (szOf arch 0)).map (builtUnit arch opt r 0))
                  data).1
                :: (runLayers
                    ((List.range (arch.length - 1)).map
                      (fun t => (List.range (szOf arch (1 + t))).map
                        (builtUnit arch opt r (1 + t))))
                    (runInputLayer
                      ((List.range (szOf arch 0)).map (builtUnit arch opt r 0))
                      data).2).1 }) := by
    rw [Net_Forward_cons ⟨arch, builtLayers arch opt r⟩ data
      ((List.range (szOf arch 0)).map (builtUnit arch opt r 0))
      ((List.range (arch.length - 1)).map
        (fun t => (List.range (szOf arch (1 + t))).map
          (builtUnit arch opt r (1 + t))))
      (builtLayers_cons arch opt r hlen) hdim]
    rw [hspec, hinput]
    dsimp only
    rw [hrun]
  refine ⟨_, hF, ?_, ?_⟩
  · rw [hspec]
    exact hlenA
  · intro i u hu
    have hu2 : u ∈ (builtLayers arch opt r).getD i [] := hu
    unfold builtLayers at hu2
    by_cases h : i < arch.length
    · rw [List.getD_eq_getElem _ _
        (by rw [List.length_map, List.length_range]; exact h)] at hu2
      rw [List.getElem_map, List.getElem_range] at hu2
      rw [List.mem_map] at hu2
      obtain ⟨j, hj, rfl⟩ := hu2
      exact builtUnit_activ arch opt r i j
    · rw [List.getD_eq_default _ _
        (by rw [List.length_map, List.length_range]; omega)] at hu2
      simp at hu2

theorem netForward_computes_mlp_witness :
    ∃ n2 : Net,
      Net.Forward
          ⟨[1, 1, 1], builtLayers [1, 1, 1] (NewSGD 1 0 0) (fun _ => 0)⟩ [2]
        = .ok (specForward
            ⟨[1, 1, 1], builtLayers [1, 1, 1] (NewSGD 1 0 0) (fun _ => 0)⟩ [2],
          n2)
      ∧ (specForward
          ⟨[1, 1, 1], builtLayers [1, 1, 1] (NewSGD 1 0 0) (fun _ => 0)⟩
          [2]).length = szOf [1, 1, 1] (([1, 1, 1] : List Int).length - 1)
      ∧ ∀ i : Nat, ∀ u ∈ (⟨[1, 1, 1],
            builtLayers [1, 1, 1] (NewSGD 1 0 0) (fun _ => 0)⟩ :
            Net).layers.getD i [],
          u.activ = ⟨if i = 0 ∨ i = ([1, 1, 1] : List Int).length - 1
            then .identity else .relu, 0⟩ :=
  netForward_computes_mlp [1, 1, 1] (NewSGD 1 0 0) (fun _ => 0)
    ⟨[1, 1, 1], builtLayers [1, 1, 1] (NewSGD 1 0 0) (fun _ => 0)⟩ [2]
    (NewMLP_layers [1, 1, 1] (NewSGD 1 0 0) (fun _ => 0) (by norm_num)
      (by norm_num))
    (by norm_num)

end Neuron

namespace Neuron

theorem filter_id_len_le_one (sigs : List Signal) (k : String)
    (hnd : (sigs.map Signal.id).Nodup) :
    (sigs.filter (fun s => s.id = k)).length ≤ 1 := by
  induction sigs with
  | nil => simp
  | cons s rest ih =>
      rw [List.map_cons, List.nodup_cons] at hnd
      by_cases hs : s.id = k
      · have hrest : rest.filter (fun t => t.id = k) = [] := by
          rw [List.filter_eq_nil_iff]
          intro x hx hxk
          apply hnd.1
          rw [List.mem_map]
          refine ⟨x, hx, ?_⟩
          have hxid : x.id = k := by simpa using hxk
          rw [hxid, hs]
        have hcons : (s :: rest).filter (fun t => t.id = k) = [s] := by
          rw [List.filter_cons, if_pos (by simpa using hs), hrest]
        rw [hcons]
        simp
      · have hcons : (s :: rest).filter (fun t => t.id = k)
            = rest.filter (fun t => t.id = k) := by
          rw [List.filter_cons, if_neg (by simpa using hs)]
        rw [hcons]
        exact ih hnd.2

theorem filter_eq_of_perm_nodup (sigs' sigs : List Signal)
    (hp : sigs'.Perm sigs) (hnd : (sigs.map Signal.id).Nodup) (k : String) :
    sigs'.filter (fun s => s.id = k) = sigs.filter (fun s => s.id = k) := by
  have hpf := hp.filter (fun s => s.id = k)
  have hlen := filter_id_len_le_one sigs k hnd
  rcases hsf : sigs.filter (fun s => s.id = k) with _ | ⟨a, _ | ⟨b, t⟩⟩
  · rw [hsf] at hpf
    rw [hsf]
    exact hpf.eq_nil
  · rw [hsf] at hpf
    rw [hsf]
    exact List.perm_singleton.mp hpf
  · exfalso
    rw [hsf] at hlen
    simp at hlen

theorem Unit_forward_perm (u : Unit) (sigs deliv : List Signal)
    (hperm : deliv.Perm sigs)
    (hnd : (keysP u.w.params).Nodup)
    (hids : ((⟨biasID, (1 : F)⟩ :: sigs).map Signal.id).Nodup) :
    u.forward deliv = u.forward sigs := by
  rw [Unit_forward_eq u deliv hnd, Unit_forward_eq u sigs hnd]
  have hpermb : (⟨biasID, (1 : F)⟩ :: deliv).Perm (⟨biasID, (1 : F)⟩ :: sigs) :=
    hperm.cons _
  have hpre : preAct u.w (⟨biasID, 1⟩ :: deliv)
      = preAct u.w (⟨biasID, 1⟩ :: sigs) := by
    unfold preAct
    exact (hpermb.map _).sum_eq
  have hmapc : u.w.params.map (cacheUpd (⟨biasID, 1⟩ :: deliv))
      = u.w.params.map (cacheUpd (⟨biasID, 1⟩ :: sigs)) := by
    apply List.map_congr_left
    intro kp _
    unfold cacheUpd
    rw [filter_eq_of_perm_nodup _ _ hpermb hids kp.1]
  rw [hpre, hmapc]

theorem Unit_backward_perm (u : Unit) (gs deliv : List Signal)
    (hperm : deliv.Perm gs) :
    u.backward deliv = u.backward gs := by
  have h : deliv.foldl (fun acc s => acc + s.value) 0
      = gs.foldl (fun acc s => acc + s.value) 0 := by
    rw [foldl_add_value, foldl_add_value, (hperm.map Signal.value).sum_eq]
  unfold Unit.backward
  rw [h]

theorem runLayer_fst (units : List Unit) (sigs : List Signal) :
    (runLayer units sigs).1 = units.map fun u => (u.forward sigs).1 := by
  show ((units.map fun u => u.forward sigs).map Prod.fst) = _
  rw [List.map_map]
  rfl

theorem runLayer_snd (units : List Unit) (sigs : List Signal) :
    (runLayer units sigs).2
      = units.map fun u =>
          (⟨(u.forward sigs).1.id, (u.forward sigs).2⟩ : Signal) := by
  show ((units.map fun u => u.forward sigs).map
      fun p => (⟨p.1.id, p.2⟩ : Signal)) = _
  rw [List.map_map]
  rfl

theorem runLayer_snd_ids (units : List Unit) (sigs : List Signal) :
    (runLayer units sigs).2.map Signal.id = idsOf units := by
  rw [runLayer_snd, List.map_map]
  rfl

theorem LayerFwdR_det {units : List Unit} {sigs : List Signal}
    {us' : List Unit} {outs : List Signal}
    (h : LayerFwdR units sigs us' outs) :
    (∀ u ∈ units, (keysP u.w.params).Nodup) →
    ((⟨biasID, (1 : F)⟩ :: sigs).map Signal.id).Nodup →
    us' = (runLayer units sigs).1 ∧ outs = (runLayer units sigs).2 := by
  induction h with
  | nil sigs => exact fun _ _ => ⟨rfl, rfl⟩
  | cons u us sigs deliv us' outs hperm hrec ih =>
      intro hks hids
      have hu : u.forward deliv = u.forward sigs :=
        Unit_forward_perm u sigs deliv hperm (hks u (by simp)) hids
      obtain ⟨ih1, ih2⟩ := ih (fun v hv => hks v (List.mem_cons_of_mem _ hv)) hids
      constructor
      · rw [runLayer_fst, List.map_cons, hu, ih1, runLayer_fst]
      · rw [runLayer_snd, List.map_cons, hu, ih2, runLayer_snd]

theorem runLayers_cons (l : List Unit) (rest : List (List Unit))
    (sigs : List Signal) :
    runLayers (l :: rest) sigs
      = ((runLayer l sigs).1 :: (runLayers rest (runLayer l sigs).2).1,
         (runLayers rest (runLayer l sigs).2).2) := rfl

theorem LayersFwdR_det {layers : List (List Unit)} {sigs : List Signal}
    {layers' : List (List Unit)} {outs' : List Signal}
    (h : LayersFwdR layers sigs layers' outs') :
    (∀ l ∈ layers, (∀ u ∈ l, (keysP u.w.params).Nodup)
      ∧ (idsOf l).Nodup ∧ biasID ∉ idsOf l) →
    ((⟨biasID, (1 : F)⟩ :: sigs).map Signal.id).Nodup →
    layers' = (runLayers layers sigs).1
      ∧ outs' = (runLayers layers sigs).2 := by
  induction h with
  | nil sigs => exact fun _ _ => ⟨rfl, rfl⟩
  | cons l rest sigs l' outs rest' outs' hlayer hrec ih =>
      intro hwf hids
      have hl := hwf l (by simp)
      obtain ⟨h1, h2⟩ := LayerFwdR_det hlayer hl.1 hids
      have hids2 : ((⟨biasID, (1 : F)⟩ :: (runLayer l sigs).2).map
          Signal.id).Nodup := by
        rw [List.map_cons, List.nodup_cons, runLayer_snd_ids]
        exact ⟨hl.2.2, hl.2.1⟩
      subst h2
      obtain ⟨ih1, ih2⟩ :=
        ih (fun l2 hl2 => hwf l2 (List.mem_cons_of_mem _ hl2)) hids2
      rw [runLayers_cons]
      exact ⟨by rw [h1, ih1], by rw [ih2]⟩

end Neuron

namespace Neuron

theorem runInputLayer_snd_ids : ∀ (units : List Unit) (data : List F),
    units.length ≤ data.length →
    (runInputLayer units data).2.map Signal.id = idsOf units := by
  intro units
  induction units with
  | nil => intro data _; rfl
  | cons u us ih =>
      intro data hlen
      cases data with
      | nil => simp at hlen
      | cons v vs =>
          show u.id :: ((runInputLayer us vs).2.map Signal.id)
            = u.id :: idsOf us
          rw [ih vs (by simpa using hlen)]

theorem NetFwdR_det {n : Net} {data outs : List F} {n' : Net}
    (h : NetFwdR n data outs n') (hwf : NetWF n) :
    n.Forward data = .ok (outs, n') := by
  cases h with
  | nilL hl hdim =>
      unfold Net.Forward
      rw [if_neg (not_not_intro hdim), hl]
  | mk l0 rest rest' outs hl hdim hrec =>
      have hdlen : data.length = szOf n.arch 0 := by
        cases harch : n.arch with
        | nil =>
            rw [harch] at hdim
            simp at hdim
            simp [szOf, hdim]
        | cons a l =>
            rw [harch] at hdim
            have h1 : (a :: l).headI = a := rfl
            rw [h1] at hdim
            show data.length = (List.getD (a :: l) 0 0).toNat
            have h2 : List.getD (a :: l) 0 0 = a := rfl
            rw [h2]
            omega
      have hl0len : l0.length = szOf n.arch 0 := by
        have h0 := hwf.2.1 0
        rw [hl] at h0
        exact h0
      have hids : ((⟨biasID, (1 : F)⟩ :: (runInputLayer l0 data).2).map
          Signal.id).Nodup := by
        rw [List.map_cons, List.nodup_cons,
          runInputLayer_snd_ids l0 data (by omega)]
        have hl0 := hwf.2.2 l0 (by rw [hl]; simp)
        exact ⟨hl0.2.2, hl0.2.1⟩
      obtain ⟨h1, h2⟩ := LayersFwdR_det hrec
        (fun l2 hl2 => hwf.2.2 l2 (by rw [hl]; exact List.mem_cons_of_mem _ hl2))
        hids
      rw [Net_Forward_cons n data l0 rest hl hdim, h1, h2]

theorem runLayerB_fst (units : List Unit) (sends : List (String × Signal)) :
    (runLayerB units sends).1
      = units.map fun u =>
          (u.backward ((sends.filter fun ts => ts.1 = u.id).map Prod.snd)).1 := by
  show ((units.map fun u =>
      u.backward ((sends.filter fun ts => ts.1 = u.id).map Prod.snd)).map
        Prod.fst) = _
  rw [List.map_map]
  rfl

theorem runLayerB_snd (units : List Unit) (sends : List (String × Signal)) :
    (runLayerB units sends).2
      = (units.map fun u =>
          (u.backward ((sends.filter fun ts => ts.1 = u.id).map
            Prod.snd)).2).flatten := by
  show ((units.map fun u =>
      u.backward ((sends.filter fun ts => ts.1 = u.id).map Prod.snd)).map
        Prod.snd).flatten = _
  rw [List.map_map]
  rfl

theorem LayerBwdR_det {units : List Unit} {sends : List (String × Signal)}
    {us' : List Unit} {outs : List (String × Signal)}
    (h : LayerBwdR units sends us' outs) :
    us' = (runLayerB units sends).1 ∧ outs = (runLayerB units sends).2 := by
  induction h with
  | nil sends => exact ⟨rfl, rfl⟩
  | cons u us sends deliv us' outs hperm hrec ih =>
      have hu : u.backward deliv
          = u.backward ((sends.filter fun ts => ts.1 = u.id).map Prod.snd) :=
        Unit_backward_perm u _ deliv hperm
      obtain ⟨ih1, ih2⟩ := ih
      constructor
      · rw [runLayerB_fst, List.map_cons, hu, ih1, runLayerB_fst]
      · rw [runLayerB_snd, List.map_cons, List.flatten_cons, hu, ih2,
          runLayerB_snd]

theorem runLayersBRev_cons (l : List Unit) (rest : List (List Unit))
    (sends : List (String × Signal)) :
    runLayersBRev (l :: rest) sends
      = (runLayerB l sends).1 :: runLayersBRev rest (runLayerB l sends).2 := rfl

theorem LayersBwdR_det {revLs : List (List Unit)}
    {sends : List (String × Signal)} {rev' : List (List Unit)}
    (h : LayersBwdR revLs sends rev') :
    rev' = runLayersBRev revLs sends := by
  induction h with
  | nil sends => rfl
  | cons l rest sends l' outs rest' hlayer hrec ih =>
      obtain ⟨h1, h2⟩ := LayerBwdR_det hlayer
      subst h2
      rw [runLayersBRev_cons, h1, ih]

theorem NetBwdR_det {n : Net} {grad : List F} {n' : Net}
    (h : NetBwdR n grad n') : n.Backward grad = .ok n' := by
  cases h with
  | mk rev' hdim hrec =>
      unfold Net.Backward
      rw [if_neg (not_not_intro hdim), LayersBwdR_det hrec]

theorem TrainStepR_det {n : Net} {data grad outs : List F} {n' : Net}
    (h : TrainStepR n data grad outs n') (hwf : NetWF n) :
    n.trainStep data grad = .ok (outs, n') := by
  cases h with
  | mk n1 n2 hf hb =>
      unfold Net.trainStep
      rw [NetFwdR_det hf hwf]
      dsimp only
      rw [NetBwdR_det hb]

end Neuron

namespace Neuron

theorem keysP_replaceP (ps : List (String × Param)) (id : String) (p : Param) :
    keysP (replaceP ps id p) = keysP ps := by
  induction ps with
  | nil => rfl
  | cons kp rest ih =>
      cases kp with
      | mk k q =>
          unfold replaceP
          by_cases h : k = id
          · rw [if_pos h]
            rfl
          · rw [if_neg h]
            show k :: keysP (replaceP rest id p) = k :: keysP rest
            rw [ih]

theorem Weight_forward_keys (w : Weight) (id : String) (v : F) :
    keysP ((w.forward id v).1).params = keysP w.params := by
  unfold Weight.forward
  cases h : lookupP w.params id with
  | none => rfl
  | some p =>
      dsimp only
      by_cases hg : p.requiresGrad
      · rw [if_pos hg]
        exact keysP_replaceP _ _ _
      · rw [if_neg hg]

theorem fwd_fold_keys (sigs : List Signal) : ∀ (acc : Weight × F),
    keysP ((sigs.foldl fwdStep acc).1).params = keysP acc.1.params := by
  induction sigs with
  | nil => intro acc; rfl
  | cons s rest ih =>
      intro acc
      rw [List.foldl_cons, ih]
      show keysP ((fwdStep acc s).1.params) = _
      unfold fwdStep
      exact Weight_forward_keys _ _ _

theorem Unit_forward_keys (u : Unit) (sigs : List Signal) :
    keysP ((u.forward sigs).1.w.params) = keysP u.w.params := by
  show keysP ((sigs.foldl fwdStep (u.w.forward biasID 1)).1.params) = _
  rw [fwd_fold_keys]
  exact Weight_forward_keys _ _ _

theorem Weight_backward_keys (w : Weight) (id : String) (g : F) :
    keysP ((w.backward id g).1).params = keysP w.params := by
  unfold Weight.backward
  cases h : lookupP w.params id with
  | none => rfl
  | some p =>
      dsimp only
      by_cases hg : p.requiresGrad
      · rw [if_pos hg]
        exact keysP_replaceP _ _ _
      · rw [if_neg hg]

theorem bwd_fold_keys (l : List (String × Param)) (outB : List String)
    (uid : String) (g : F) : ∀ (acc : Weight × List (String × Signal)),
    keysP (((l.foldl (bwdStep outB uid g) acc).1).params)
      = keysP acc.1.params := by
  induction l with
  | nil => intro acc; rfl
  | cons kp rest ih =>
      intro acc
      rw [List.foldl_cons, ih]
      show keysP ((bwdStep outB uid g acc kp).1.params) = _
      unfold bwdStep
      exact Weight_backward_keys _ _ _

theorem Unit_backward_keys (u : Unit) (gsigs : List Signal) :
    keysP ((u.backward gsigs).1.w.params) = keysP u.w.params := by
  show keysP ((u.w.params.foldl
      (bwdStep u.outputB u.id
        (u.activ.backward (gsigs.foldl (fun acc s => acc + s.value) 0)))
      (u.w, [])).1.params) = _
  rw [bwd_fold_keys]

theorem step_fold_keys (l : List (String × Param)) :
    ∀ (o : SGD) (acc : List (String × Param)),
    keysP ((l.foldl stepStep (o, acc)).2) = keysP acc ++ keysP l := by
  induction l with
  | nil =>
      intro o acc
      show keysP acc = keysP acc ++ keysP []
      rw [show keysP [] = ([] : List String) from rfl, List.append_nil]
  | cons kp rest ih =>
      intro o acc
      rw [List.foldl_cons]
      show keysP ((rest.foldl stepStep
          ((stepStep (o, acc) kp).1, acc ++ [(kp.1, ((o.Step kp.1 kp.2).2))])).2) = _
      rw [ih, keysP_append]
      show keysP acc ++ [kp.1] ++ keysP rest = keysP acc ++ (kp.1 :: keysP rest)
      rw [List.append_assoc]
      rfl

theorem Unit_step_keys (u : Unit) :
    keysP (u.step.w.params) = keysP u.w.params := by
  show keysP ((u.w.params.foldl stepStep (u.opt, [])).2) = _
  rw [step_fold_keys]
  rfl

theorem UnitSim_forward (u : Unit) (sigs : List Signal) :
    UnitSim u (u.forward sigs).1 :=
  ⟨rfl, Unit_forward_keys u sigs⟩

theorem UnitSim_backward (u : Unit) (gsigs : List Signal) :
    UnitSim u (u.backward gsigs).1 :=
  ⟨rfl, Unit_backward_keys u gsigs⟩

theorem UnitSim_step (u : Unit) : UnitSim u u.step :=
  ⟨rfl, Unit_step_keys u⟩

theorem UnitSim_trans {u v w : Unit} (h1 : UnitSim u v) (h2 : UnitSim v w) :
    UnitSim u w :=
  ⟨h2.1.trans h1.1, h2.2.trans h1.2⟩

theorem forall2_map {α β : Type} (R : α → β → Prop) (l : List α) (g : α → β)
    (h : ∀ a ∈ l, R a (g a)) : List.Forall₂ R l (l.map g) := by
  induction l with
  | nil => exact List.Forall₂.nil
  | cons a rest ih =>
      exact List.Forall₂.cons (h a (by simp))
        (ih fun b hb => h b (List.mem_cons_of_mem _ hb))

theorem forall2_refl {α : Type} (R : α → α → Prop) (l : List α)
    (h : ∀ a ∈ l, R a a) : List.Forall₂ R l l := by
  have h2 := forall2_map R l (fun a => a) h
  have h3 : l.map (fun a => a) = l := by simp
  rw [h3] at h2
  exact h2

theorem forall2_trans {α : Type} {R : α → α → Prop}
    (hR : ∀ a b c, R a b → R b c → R a c) :
    ∀ {l1 l2 l3 : List α}, List.Forall₂ R l1 l2 → List.Forall₂ R l2 l3 →
      List.Forall₂ R l1 l3 := by
  intro l1 l2 l3 h1
  induction h1 generalizing l3 with
  | nil =>
      intro h2
      cases h2
      exact List.Forall₂.nil
  | cons hab hrest ih =>
      intro h2
      cases h2 with
      | cons hbc hrest2 =>
          exact List.Forall₂.cons (hR _ _ _ hab hbc) (ih hrest2)

theorem forall2_mem_right {α β : Type} {R : α → β → Prop}
    {l1 : List α} {l2 : List β} (h : List.Forall₂ R l1 l2) :
    ∀ b ∈ l2, ∃ a ∈ l1, R a b := by
  induction h with
  | nil => intro b hb; simp at hb
  | cons hab hrest ih =>
      intro b hb
      rcases List.mem_cons.mp hb with rfl | hb2
      · exact ⟨_, by simp, hab⟩
      · obtain ⟨a, ha, hr⟩ := ih b hb2
        exact ⟨a, List.mem_cons_of_mem _ ha, hr⟩

theorem forall2_idsOf {l l' : List Unit}
    (h : List.Forall₂ UnitSim l l') : idsOf l' = idsOf l := by
  induction h with
  | nil => rfl
  | cons hab hrest ih =>
      show _ :: idsOf _ = _ :: idsOf _
      rw [ih, hab.1]

end Neuron

namespace Neuron

theorem forall2_append {α β : Type} {R : α → β → Prop} :
    ∀ {l1 : List α} {l2 : List β} {l1' : List α} {l2' : List β},
    List.Forall₂ R l1 l2 → List.Forall₂ R l1' l2' →
    List.Forall₂ R (l1 ++ l1') (l2 ++ l2') := by
  intro l1 l2 l1' l2' h1 h2
  induction h1 with
  | nil => exact h2
  | cons hab hrest ih => exact List.Forall₂.cons hab ih

theorem forall2_reverse {α β : Type} {R : α → β → Prop}
    {l1 : List α} {l2 : List β} (h : List.Forall₂ R l1 l2) :
    List.Forall₂ R l1.reverse l2.reverse := by
  induction h with
  | nil => exact List.Forall₂.nil
  | cons hab hrest ih =>
      rw [List.reverse_cons, List.reverse_cons]
      exact forall2_append ih (List.Forall₂.cons hab List.Forall₂.nil)

theorem LayerSim_runInputLayer : ∀ (units : List Unit) (data : List F),
    units.length ≤ data.length →
    List.Forall₂ UnitSim units (runInputLayer units data).1 := by
  intro units
  induction units with
  | nil => intro data _; exact List.Forall₂.nil
  | cons u us ih =>
      intro data hlen
      cases data with
      | nil => simp at hlen
      | cons v vs =>
          show List.Forall₂ UnitSim (u :: us)
            ((u.forward [⟨inputID, v⟩]).1 :: (runInputLayer us vs).1)
          exact List.Forall₂.cons (UnitSim_forward u _)
            (ih vs (by simpa using hlen))

theorem LayerSim_step (l : List Unit) :
    List.Forall₂ UnitSim l (l.map Unit.step) :=
  forall2_map _ _ _ fun u _ => UnitSim_step u

theorem LayerFwdR_sim {units : List Unit} {sigs : List Signal}
    {us' : List Unit} {outs : List Signal} (h : LayerFwdR units sigs us' outs) :
    List.Forall₂ UnitSim units us' := by
  induction h with
  | nil sigs => exact List.Forall₂.nil
  | cons u us sigs deliv us' outs hperm hrec ih =>
      exact List.Forall₂.cons (UnitSim_forward u deliv) ih

theorem LayersFwdR_sim {layers : List (List Unit)} {sigs : List Signal}
    {layers' : List (List Unit)} {outs' : List Signal}
    (h : LayersFwdR layers sigs layers' outs') :
    List.Forall₂ (List.Forall₂ UnitSim) layers layers' := by
  induction h with
  | nil sigs => exact List.Forall₂.nil
  | cons l rest sigs l' outs rest' outs' hlayer hrec ih =>
      exact List.Forall₂.cons (LayerFwdR_sim hlayer) ih

theorem LayerBwdR_sim {units : List Unit} {sends : List (String × Signal)}
    {us' : List Unit} {outs : List (String × Signal)}
    (h : LayerBwdR units sends us' outs) :
    List.Forall₂ UnitSim units us' := by
  induction h with
  | nil sends => exact List.Forall₂.nil
  | cons u us sends deliv us' outs hperm hrec ih =>
      exact List.Forall₂.cons (UnitSim_backward u deliv) ih

theorem LayersBwdR_sim {revLs : List (List Unit)}
    {sends : List (String × Signal)} {rev' : List (List Unit)}
    (h : LayersBwdR revLs sends rev') :
    List.Forall₂ (List.Forall₂ UnitSim) revLs rev' := by
  induction h with
  | nil sends => exact List.Forall₂.nil
  | cons l rest sends l' outs rest' hlayer hrec ih =>
      exact List.Forall₂.cons (LayerBwdR_sim hlayer) ih

theorem NetSim_refl (n : Net) : NetSim n n :=
  ⟨rfl, forall2_refl _ _ fun l _ => forall2_refl _ _ fun u _ => ⟨rfl, rfl⟩⟩

theorem NetSim_trans {n n1 n2 : Net} (h1 : NetSim n n1) (h2 : NetSim n1 n2) :
    NetSim n n2 := by
  refine ⟨h2.1.trans h1.1, ?_⟩
  refine forall2_trans ?_ h1.2 h2.2
  intro a b c hab hbc
  refine forall2_trans ?_ hab hbc
  intro u v w huv hvw
  exact UnitSim_trans huv hvw

theorem NetFwdR_dim {n : Net} {data outs : List F} {n' : Net}
    (h : NetFwdR n data outs n') : (data.length : Int) = n.arch.headI := by
  cases h with
  | nilL hl hdim => exact hdim
  | mk l0 rest rest' outs hl hdim hrec => exact hdim

theorem dim_szOf (arch : List Int) (k : Nat) (hdim : (k : Int) = arch.headI) :
    k = szOf arch 0 := by
  cases arch with
  | nil =>
      simp at hdim
      simp [szOf, hdim]
  | cons a l =>
      have h1 : (a :: l).headI = a := rfl
      rw [h1] at hdim
      show k = (List.getD (a :: l) 0 0).toNat
      have h2 : List.getD (a :: l) 0 0 = a := rfl
      rw [h2]
      omega

theorem NetFwdR_sim {n : Net} {data outs : List F} {n' : Net}
    (h : NetFwdR n data outs n')
    (hlen0 : (n.layers.getD 0 []).length ≤ data.length) : NetSim n n' := by
  cases h with
  | nilL hl hdim => exact NetSim_refl n
  | mk l0 rest rest' outs hl hdim hrec =>
      refine ⟨rfl, ?_⟩
      rw [hl] at hlen0 ⊢
      exact List.Forall₂.cons (LayerSim_runInputLayer l0 data hlen0)
        (LayersFwdR_sim hrec)

theorem NetBwdR_sim {n : Net} {grad : List F} {n' : Net}
    (h : NetBwdR n grad n') : NetSim n n' := by
  cases h with
  | mk rev' hdim hrec =>
      refine ⟨rfl, ?_⟩
      have h2 := forall2_reverse (LayersBwdR_sim hrec)
      rw [List.reverse_reverse] at h2
      exact h2

theorem stepAll_sim (n : Net) : NetSim n n.stepAll :=
  ⟨rfl, forall2_map _ _ _ fun l _ => LayerSim_step l⟩

theorem TrainStepR_sim {n : Net} {d g outs : List F} {n' : Net}
    (h : TrainStepR n d g outs n')
    (hlen0 : (n.layers.getD 0 []).length ≤ d.length) : NetSim n n' := by
  cases h with
  | mk n1 n2 hf hb =>
      exact NetSim_trans (NetSim_trans (NetFwdR_sim hf hlen0) (NetBwdR_sim hb))
        (stepAll_sim n2)

theorem forall2_getD_len {L L' : List (List Unit)}
    (h : List.Forall₂ (List.Forall₂ UnitSim) L L') :
    ∀ i : Nat, (L'.getD i []).length = (L.getD i []).length := by
  induction h with
  | nil => intro i; rfl
  | cons hab hrest ih =>
      intro i
      cases i with
      | zero => exact hab.length_eq.symm
      | succ j => exact ih j

theorem NetWF_of_NetSim {n n' : Net} (hsim : NetSim n n') (hwf : NetWF n) :
    NetWF n' := by
  obtain ⟨harch, hll⟩ := hsim
  refine ⟨?_, ?_, ?_⟩
  · rw [harch, ← hll.length_eq]
    exact hwf.1
  · intro i
    rw [harch, forall2_getD_len hll i]
    exact hwf.2.1 i
  · intro l' hl'
    obtain ⟨l, hl, hsim2⟩ := forall2_mem_right hll l' hl'
    obtain ⟨hk, hnd, hb⟩ := hwf.2.2 l hl
    refine ⟨?_, ?_, ?_⟩
    · intro u' hu'
      obtain ⟨u, hu, husim⟩ := forall2_mem_right hsim2 u' hu'
      rw [husim.2]
      exact hk u hu
    · rw [forall2_idsOf hsim2]
      exact hnd
    · rw [forall2_idsOf hsim2]
      exact hb

theorem NetWF_TrainStepR {n : Net} {d g outs : List F} {n' : Net}
    (h : TrainStepR n d g outs n') (hwf : NetWF n) : NetWF n' := by
  have hdim : (d.length : Int) = n.arch.headI := by
    cases h with
    | mk n1 n2 hf hb => exact NetFwdR_dim hf
  have hlen0 : (n.layers.getD 0 []).length ≤ d.length := by
    rw [hwf.2.1 0, dim_szOf n.arch d.length hdim]
  exact NetWF_of_NetSim (TrainStepR_sim h hlen0) hwf

theorem RunR_run {n : Net} {script : List (List F × List F)}
    {tr : List (List F × Net)} (h : RunR n script tr) :
    NetWF n → n.run script = .ok tr := by
  induction h with
  | nil n => intro _; rfl
  | cons n s rest outs n' tr hstep hrun ih =>
      intro hwf
      have hdet := TrainStepR_det hstep hwf
      unfold Net.run
      rw [hdet]
      dsimp only
      rw [ih (NetWF_TrainStepR hstep hwf)]

end Neuron

namespace Neuron

theorem NetWF_built (arch : List Int) (opt : SGD) (r : Nat → F)
    (hlen : 3 ≤ arch.length) :
    NetWF ⟨arch, builtLayers arch opt r⟩ := by
  refine ⟨?_, ?_, ?_⟩
  · show (builtLayers arch opt r).length = arch.length
    unfold builtLayers
    rw [List.length_map, List.length_range]
  · intro i
    show ((builtLayers arch opt r).getD i []).length = szOf arch i
    unfold builtLayers
    by_cases h : i < arch.length
    · rw [List.getD_eq_getElem _ _
        (by rw [List.length_map, List.length_range]; exact h),
        List.getElem_map, List.getElem_range, List.length_map,
        List.length_range]
    · rw [List.getD_eq_default _ _
        (by rw [List.length_map, List.length_range]; omega)]
      show 0 = szOf arch i
      unfold szOf
      rw [List.getD_eq_default _ _ (by omega)]
      rfl
  · intro l hl
    unfold builtLayers at hl
    rw [List.mem_map] at hl
    obtain ⟨i, hi, rfl⟩ := hl
    refine ⟨?_, ?_, ?_⟩
    · intro u hu
      rw [List.mem_map] at hu
      obtain ⟨j, hj, rfl⟩ := hu
      exact builtUnit_keys_nodup arch opt r i j hlen
    · rw [idsOf_builtLayer]
      exact layerIds_nodup arch i
    · rw [idsOf_builtLayer]
      intro hmem
      rw [List.mem_map] at hmem
      obtain ⟨j, hj, hj2⟩ := hmem
      exact uid_ne_biasID i j hj2

theorem LayerFwdR_refl (units : List Unit) (sigs : List Signal) :
    LayerFwdR units sigs (runLayer units sigs).1 (runLayer units sigs).2 := by
  induction units with
  | nil => exact LayerFwdR.nil sigs
  | cons u us ih =>
      exact LayerFwdR.cons u us sigs sigs _ _ (List.Perm.refl sigs) ih

theorem LayersFwdR_refl (layers : List (List Unit)) : ∀ (sigs : List Signal),
    LayersFwdR layers sigs (runLayers layers sigs).1
      (runLayers layers sigs).2 := by
  induction layers with
  | nil => intro sigs; exact LayersFwdR.nil sigs
  | cons l rest ih =>
      intro sigs
      exact LayersFwdR.cons l rest sigs _ _ _ _ (LayerFwdR_refl l sigs) (ih _)

theorem LayerBwdR_refl (units : List Unit) (sends : List (String × Signal)) :
    LayerBwdR units sends (runLayerB units sends).1
      (runLayerB units sends).2 := by
  induction units with
  | nil => exact LayerBwdR.nil sends
  | cons u us ih =>
      exact LayerBwdR.cons u us sends _ _ _ (List.Perm.refl _) ih

theorem LayersBwdR_refl (revLs : List (List Unit)) :
    ∀ (sends : List (String × Signal)),
    LayersBwdR revLs sends (runLayersBRev revLs sends) := by
  induction revLs with
  | nil => intro sends; exact LayersBwdR.nil sends
  | cons l rest ih =>
      intro sends
      exact LayersBwdR.cons l rest sends _ _ _ (LayerBwdR_refl l sends) (ih _)

theorem Forward_R {n : Net} {data : List F} {p : List F × Net}
    (h : n.Forward data = .ok p) : NetFwdR n data p.1 p.2 := by
  unfold Net.Forward at h
  by_cases hdim : (data.length : Int) ≠ n.arch.headI
  · rw [if_pos hdim] at h
    exact Except.noConfusion h
  · rw [if_neg hdim] at h
    have hdim2 := not_not.mp hdim
    cases hl : n.layers with
    | nil =>
        rw [hl] at h
        injection h with h2
        rw [← h2]
        exact NetFwdR.nilL n data hl hdim2
    | cons l0 rest =>
        rw [hl] at h
        injection h with h2
        rw [← h2]
        exact NetFwdR.mk n data l0 rest _ _ hl hdim2 (LayersFwdR_refl rest _)

theorem Backward_R {n : Net} {grad : List F} {n' : Net}
    (h : n.Backward grad = .ok n') : NetBwdR n grad n' := by
  unfold Net.Backward at h
  by_cases hdim : (grad.length : Int) ≠ n.arch.getLastD 0
  · rw [if_pos hdim] at h
    exact Except.noConfusion h
  · rw [if_neg hdim] at h
    have hdim2 := not_not.mp hdim
    injection h with h2
    rw [← h2]
    exact NetBwdR.mk n grad _ hdim2 (LayersBwdR_refl _ _)

theorem trainStep_R {n : Net} {d g : List F} {p : List F × Net}
    (h : n.trainStep d g = .ok p) : TrainStepR n d g p.1 p.2 := by
  unfold Net.trainStep at h
  cases hf : n.Forward d with
  | error e =>
      rw [hf] at h
      exact Except.noConfusion h
  | ok q =>
      rw [hf] at h
      dsimp only at h
      cases hb : q.2.Backward g with
      | error e =>
          rw [hb] at h
          exact Except.noConfusion h
      | ok n2 =>
          rw [hb] at h
          dsimp only at h
          injection h with h2
          rw [← h2]
          exact TrainStepR.mk n d g q.1 q.2 n2 (Forward_R hf) (Backward_R hb)

theorem run_R : ∀ {script : List (List F × List F)} {n : Net}
    {tr : List (List F × Net)},
    n.run script = .ok tr → RunR n script tr := by
  intro script
  induction script with
  | nil =>
      intro n tr h
      injection h with h2
      rw [← h2]
      exact RunR.nil n
  | cons s rest ih =>
      intro n tr h
      unfold Net.run at h
      cases hts : n.trainStep s.1 s.2 with
      | error e =>
          rw [hts] at h
          exact Except.noConfusion h
      | ok p =>
          rw [hts] at h
          dsimp only at h
          cases hr : p.2.run rest with
          | error e =>
              rw [hr] at h
              exact Except.noConfusion h
          | ok tr2 =>
              rw [hr] at h
              dsimp only at h
              injection h with h2
              rw [← h2]
              exact RunR.cons n s rest p.1 p.2 tr2 (trainStep_R hts) (ih hr)

end Neuron

namespace Neuron

/-- **C4.** Determinism: for a network built by `NewMLP` from a fixed
architecture and a fixed random stream (the seed), and a fixed script of
(input, gradient) pairs, any two executions of the training run — however
the per-unit channel arrival orders are scheduled in each of them — observe
the identical sequence of outputs and post-step network states (the weight
trajectory).  Arithmetic is modelled exactly over `ℚ`, which also justifies
the source's tolerance-bound reading for floating point. -/
theorem run_deterministic (arch : List Int) (opt : SGD) (r : Nat → F)
    (n : Net) (script : List (List F × List F))
    (tr1 tr2 : List (List F × Net))
    (hok : NewMLP arch opt r = .ok n)
    (h1 : RunR n script tr1) (h2 : RunR n script tr2) :
    tr1 = tr2 := by
  have hlen : 3 ≤ arch.length := by
    by_contra h
    have h3 : arch.length < 3 := by omega
    rw [NewMLP, if_pos h3] at hok
    exact Except.noConfusion hok
  have hpos : ∀ sz ∈ arch, 1 ≤ sz := by
    intro sz hsz
    by_contra h
    have hany : arch.any (fun sz => sz < 1) = true := by
      rw [List.any_eq_true]
      refine ⟨sz, hsz, ?_⟩
      simp
      omega
    rw [NewMLP, if_neg (by omega), if_pos hany] at hok
    exact Except.noConfusion hok
  rw [NewMLP_layers arch opt r hlen hpos] at hok
  injection hok with hok
  subst hok
  have hwf := NetWF_built arch opt r hlen
  have e1 := RunR_run h1 hwf
  have e2 := RunR_run h2 hwf
  rw [e1] at e2
  injection e2

theorem run_deterministic_witness : c4traj1 = c4traj2 := by
  have hok : NewMLP c4arch c4opt c4r = .ok c4net :=
    NewMLP_layers c4arch c4opt c4r (by decide)
      (by
        intro sz hsz
        have h : sz ∈ [(1 : Int), 2, 1] := hsz
        simp only [List.mem_cons, List.not_mem_nil, or_false] at h
        rcases h with rfl | rfl | rfl <;> norm_num)
  have h1 : RunR c4net [([5], [1])] c4traj1 :=
    run_R (rfl : c4net.run [([5], [1])] = .ok c4traj1)
  have hlayer2 : LayerFwdR [c4b 2 0] c4sig2 [c4out2.1]
      [⟨c4out2.1.id, c4out2.2⟩] :=
    LayerFwdR.cons (c4b 2 0) [] c4sig2 c4sig2.reverse [] []
      (List.reverse_perm c4sig2) (LayerFwdR.nil c4sig2)
  have hrec2 : LayersFwdR [[c4b 1 0, c4b 1 1], [c4b 2 0]] c4sig1
      [c4L1.1, [c4out2.1]] [⟨c4out2.1.id, c4out2.2⟩] :=
    LayersFwdR.cons _ _ _ _ _ _ _ (LayerFwdR_refl [c4b 1 0, c4b 1 1] c4sig1)
      (LayersFwdR.cons _ _ _ _ _ _ _ hlayer2 (LayersFwdR.nil _))
  have hfwd2 : NetFwdR c4net [5]
      ([(⟨c4out2.1.id, c4out2.2⟩ : Signal)].map Signal.value) c4net1b :=
    NetFwdR.mk c4net [5] [c4b 0 0] [[c4b 1 0, c4b 1 1], [c4b 2 0]]
      [c4L1.1, [c4out2.1]] [⟨c4out2.1.id, c4out2.2⟩] rfl rfl hrec2
  have hbwd2 : NetBwdR c4net1b [1] c4net2b :=
    NetBwdR.mk c4net1b [1] _ rfl (LayersBwdR_refl _ _)
  have h2 : RunR c4net [([5], [1])] c4traj2 :=
    RunR.cons c4net ([5], [1]) [] [c4out2.2] c4net2b.stepAll []
      (TrainStepR.mk c4net [5] [1] [c4out2.2] c4net1b c4net2b hfwd2 hbwd2)
      (RunR.nil _)
  exact run_deterministic c4arch c4opt c4r c4net [([5], [1])]
    c4traj1 c4traj2 hok h1 h2

end Neuron

namespace Neuron

theorem updU_same (u : Nat → Nat → UState) (i j : Nat) (s : UState) :
    updU u i j s i j = s := by
  simp [updU]

theorem updU_other (u : Nat → Nat → UState) (i j : Nat) (s : UState)
    (a b : Nat) (h : ¬(a = i ∧ b = j)) : updU u i j s a b = u a b := by
  simp only [updU, if_neg h]

theorem sum_range_swap_point (m x : Nat) (hx : x < m) (f g : Nat → Nat)
    (h : ∀ y, y ≠ x → g y = f y) :
    (∑ y ∈ Finset.range m, g y) + f x
      = (∑ y ∈ Finset.range m, f y) + g x := by
  have hxm : x ∈ Finset.range m := Finset.mem_range.mpr hx
  rw [Finset.sum_eq_sum_diff_singleton_add hxm g,
    Finset.sum_eq_sum_diff_singleton_add hxm f]
  have he : ∑ y ∈ Finset.range m \ {x}, g y
      = ∑ y ∈ Finset.range m \ {x}, f y := by
    apply Finset.sum_congr rfl
    intro y hy
    exact h y (by
      rw [Finset.mem_sdiff, Finset.mem_singleton] at hy
      exact hy.2)
  rw [he]
  omega

theorem sum_range_all_eq (m : Nat) (f g : Nat → Nat)
    (hle : ∀ y < m, f y ≤ g y)
    (hsum : ∑ y ∈ Finset.range m, f y = ∑ y ∈ Finset.range m, g y) :
    ∀ y < m, f y = g y := by
  intro y hy
  have h2 := (Finset.sum_eq_sum_iff_of_le
    (fun i hi => hle i (Finset.mem_range.mp hi))).mp hsum
  exact h2 y (Finset.mem_range.mpr hy)

end Neuron

namespace Neuron

theorem forall_updU {arch : List Nat} (P : Nat → Nat → UState → Prop)
    (u : Nat → Nat → UState) (i0 j0 : Nat) (s : UState)
    (hold : ∀ i, i < arch.length → ∀ j, j < sz arch i →
      ¬(i = i0 ∧ j = j0) → P i j (u i j))
    (hnew : i0 < arch.length → j0 < sz arch i0 → P i0 j0 s) :
    ∀ i, i < arch.length → ∀ j, j < sz arch i →
      P i j (updU u i0 j0 s i j) := by
  intro i hi j hj
  by_cases h : i = i0 ∧ j = j0
  · obtain ⟨rfl, rfl⟩ := h
    rw [updU_same]
    exact hnew hi hj
  · rw [updU_other _ _ _ _ _ _ h]
    exact hold i hi j hj h

theorem FCon_congr (arch : List Nat) (c c' : Config)
    (hS : ∀ i, i + 1 < arch.length → ∀ j, j < sz arch i →
      fwdSentN arch c' i j = fwdSentN arch c i j)
    (hR : ∀ i, i + 1 < arch.length → ∀ k, k < sz arch (i + 1) →
      recvdF arch c' (i + 1) k = recvdF arch c (i + 1) k)
    (hF : FCon arch c) : FCon arch c' := by
  intro i hi
  unfold SSent SRecv
  have h1 : ∑ j ∈ Finset.range (sz arch i), fwdSentN arch c' i j
      = ∑ j ∈ Finset.range (sz arch i), fwdSentN arch c i j :=
    Finset.sum_congr rfl fun j hj => hS i hi j (Finset.mem_range.mp hj)
  have h2 : ∑ k ∈ Finset.range (sz arch (i + 1)), recvdF arch c' (i + 1) k
      = ∑ k ∈ Finset.range (sz arch (i + 1)), recvdF arch c (i + 1) k :=
    Finset.sum_congr rfl fun k hk => hR i hi k (Finset.mem_range.mp hk)
  rw [h1, h2]
  exact hF i hi

theorem reported_congr (arch : List Nat) (c c' : Config)
    (hd : c'.d.pass = c.d.pass)
    (hu : ∀ i, i < arch.length → ∀ j, j < sz arch i →
      (c'.u i j).pass = (c.u i j).pass) :
    reported arch c' = reported arch c := by
  unfold reported
  rw [hd]
  apply Finset.sum_congr rfl
  intro i hi
  apply Finset.sum_congr rfl
  intro j hj
  rw [hu i (Finset.mem_range.mp hi) j (Finset.mem_range.mp hj)]

theorem reported_upd (arch : List Nat) (c c' : Config) (i0 j0 : Nat)
    (st : UState) (hd : c'.d.pass = c.d.pass) (hu : c'.u = updU c.u i0 j0 st)
    (hi0 : i0 < arch.length) (hj0 : j0 < sz arch i0)
    (hOld : ¬((c.u i0 j0).pass = c.d.pass + 1))
    (hNew : st.pass = c.d.pass + 1) :
    reported arch c' = reported arch c + 1 := by
  unfold reported
  rw [hd, hu]
  have hrow0 : (∑ j ∈ Finset.range (sz arch i0),
      (if (updU c.u i0 j0 st i0 j).pass = c.d.pass + 1 then 1 else 0))
      = (∑ j ∈ Finset.range (sz arch i0),
        (if (c.u i0 j).pass = c.d.pass + 1 then 1 else 0)) + 1 := by
    have hsw := sum_range_swap_point (sz arch i0) j0 hj0
      (fun j => if (c.u i0 j).pass = c.d.pass + 1 then 1 else 0)
      (fun j => if (updU c.u i0 j0 st i0 j).pass = c.d.pass + 1 then 1 else 0)
      (fun y hy => by
        dsimp only
        rw [updU_other _ _ _ _ _ _ (fun hc => hy hc.2)])
    dsimp only at hsw
    rw [show (if (c.u i0 j0).pass = c.d.pass + 1 then 1 else 0) = 0
      from if_neg hOld] at hsw
    rw [show (if (updU c.u i0 j0 st i0 j0).pass = c.d.pass + 1 then 1 else 0)
      = 1 from by rw [updU_same]; exact if_pos hNew] at hsw
    omega
  have hout := sum_range_swap_point arch.length i0 hi0
    (fun i => ∑ j ∈ Finset.range (sz arch i),
      (if (c.u i j).pass = c.d.pass + 1 then 1 else 0))
    (fun i => ∑ j ∈ Finset.range (sz arch i),
      (if (updU c.u i0 j0 st i j).pass = c.d.pass + 1 then 1 else 0))
    (fun y hy => by
      dsimp only
      exact Finset.sum_congr rfl fun j _ => by
        rw [updU_other _ _ _ _ _ _ (fun hc => hy hc.1)])
  dsimp only at hout
  rw [hrow0] at hout
  omega

theorem reported_zero (arch : List Nat) (c : Config)
    (hpassall : PassAll arch c c.d.pass) : reported arch c = 0 := by
  unfold reported
  apply Finset.sum_eq_zero
  intro i hi
  apply Finset.sum_eq_zero
  intro j hj
  rw [if_neg]
  rw [hpassall i (Finset.mem_range.mp hi) j (Finset.mem_range.mp hj)]
  omega

theorem totU_eq : ∀ (arch : List Nat),
    totU arch = ∑ i ∈ Finset.range arch.length, sz arch i := by
  intro arch
  induction arch with
  | nil => rfl
  | cons a t ih =>
      show a + t.sum = _
      rw [show (a :: t).length = t.length + 1 from rfl,
        Finset.sum_range_succ']
      have h2 : ∑ i ∈ Finset.range t.length, sz (a :: t) (i + 1)
          = ∑ i ∈ Finset.range t.length, sz t i :=
        Finset.sum_congr rfl fun i _ => rfl
      rw [h2, ← ih]
      show a + totU t = totU t + sz (a :: t) 0
      show a + totU t = totU t + a
      omega

end Neuron

namespace Neuron

theorem fwdSentN_frecv {arch : List Nat} {c : Config} {i j g : Nat}
    (h : (c.u i j).ph = .frecv g) : fwdSentN arch c i j = 0 := by
  unfold fwdSentN
  rw [h]

theorem fwdSentN_fsend {arch : List Nat} {c : Config} {i j s : Nat}
    (h : (c.u i j).ph = .fsend s) : fwdSentN arch c i j = s := by
  unfold fwdSentN
  rw [h]

theorem fwdSentN_brecv {arch : List Nat} {c : Config} {i j g : Nat}
    (h : (c.u i j).ph = .brecv g) : fwdSentN arch c i j = nout arch i := by
  unfold fwdSentN
  rw [h]

theorem fwdSentN_bsend {arch : List Nat} {c : Config} {i j s : Nat}
    (h : (c.u i j).ph = .bsend s) : fwdSentN arch c i j = nout arch i := by
  unfold fwdSentN
  rw [h]

theorem fwdSentN_done {arch : List Nat} {c : Config} {i j : Nat}
    (h : (c.u i j).ph = .done) : fwdSentN arch c i j = nout arch i := by
  unfold fwdSentN
  rw [h]

theorem recvdF_frecv {arch : List Nat} {c : Config} {i k g : Nat}
    (h : (c.u i k).ph = .frecv g) : recvdF arch c i k = g := by
  unfold recvdF
  rw [h]

theorem recvdF_nf {arch : List Nat} {c : Config} {i k : Nat}
    (h : ∀ g, (c.u i k).ph ≠ .frecv g) : recvdF arch c i k = nin arch i := by
  unfold recvdF
  cases hph : (c.u i k).ph with
  | frecv g => exact absurd hph (h g)
  | fsend s => rfl
  | brecv g => rfl
  | bsend s => rfl
  | done => rfl

theorem reported_all (arch : List Nat) (c : Config)
    (h : reported arch c = totU arch) :
    ∀ i, i < arch.length → ∀ j, j < sz arch i →
      (c.u i j).pass = c.d.pass + 1 := by
  have hb1 : ∀ i j : Nat,
      (if (c.u i j).pass = c.d.pass + 1 then 1 else 0) ≤ 1 := by
    intro i j
    split <;> omega
  have hbound : ∀ i, i < arch.length →
      (∑ j ∈ Finset.range (sz arch i),
        (if (c.u i j).pass = c.d.pass + 1 then 1 else 0)) ≤ sz arch i := by
    intro i hi
    calc (∑ j ∈ Finset.range (sz arch i),
        (if (c.u i j).pass = c.d.pass + 1 then 1 else 0))
        ≤ ∑ _j ∈ Finset.range (sz arch i), 1 :=
          Finset.sum_le_sum fun j _ => hb1 i j
      _ = sz arch i := by
          rw [Finset.sum_const, Finset.card_range, smul_eq_mul, mul_one]
  have hrows := sum_range_all_eq arch.length
    (fun i => ∑ j ∈ Finset.range (sz arch i),
      (if (c.u i j).pass = c.d.pass + 1 then 1 else 0))
    (fun i => sz arch i)
    (fun i hi => hbound i hi)
    (by
      dsimp only
      rw [show (∑ i ∈ Finset.range arch.length,
        ∑ j ∈ Finset.range (sz arch i),
          (if (c.u i j).pass = c.d.pass + 1 then 1 else 0))
        = reported arch c from rfl, h, totU_eq])
  intro i hi j hj
  have hrow := hrows i hi
  dsimp only at hrow
  have hinner := sum_range_all_eq (sz arch i)
    (fun j => if (c.u i j).pass = c.d.pass + 1 then 1 else 0)
    (fun _ => 1)
    (fun j _ => hb1 i j)
    (by
      dsimp only
      rw [hrow, Finset.sum_const, Finset.card_range, smul_eq_mul, mul_one])
  have hj1 := hinner j hj
  dsimp only at hj1
  by_contra hne
  rw [if_neg hne] at hj1
  omega

theorem chain_step (arch : List Nat) (c : Config) (i : Nat)
    (hi : i + 1 < arch.length)
    (hpos : ∀ t, t < arch.length → 1 ≤ sz arch t)
    (hPh : PhaseOK arch c) (hF : FCon arch c)
    (hnext : ∀ k, k < sz arch (i + 1) → ∀ g, (c.u (i + 1) k).ph ≠ .frecv g) :
    ∀ j, j < sz arch i →
      (∀ g, (c.u i j).ph ≠ .frecv g) ∧ (∀ s, (c.u i j).ph ≠ .fsend s) := by
  have hnin : nin arch (i + 1) = sz arch i := by
    unfold nin
    rw [if_neg (by omega)]
    rfl
  have hnoutv : nout arch i = sz arch (i + 1) := by
    unfold nout
    rw [if_neg (by omega)]
  have hr : SRecv arch c (i + 1)
      = ∑ _k ∈ Finset.range (sz arch (i + 1)), nin arch (i + 1) :=
    Finset.sum_congr rfl fun k hk =>
      recvdF_nf (hnext k (Finset.mem_range.mp hk))
  have hsum : SSent arch c i
      = ∑ _j ∈ Finset.range (sz arch i), nout arch i := by
    rw [hF i hi, hr, Finset.sum_const, Finset.sum_const, Finset.card_range,
      Finset.card_range, smul_eq_mul, smul_eq_mul, hnin, hnoutv]
    exact Nat.mul_comm _ _
  have hptw := sum_range_all_eq (sz arch i)
    (fun j => fwdSentN arch c i j) (fun _ => nout arch i)
    (fun j hj => by
      dsimp only
      cases hph : (c.u i j).ph with
      | frecv g =>
          rw [fwdSentN_frecv hph]
          exact Nat.zero_le _
      | fsend s =>
          rw [fwdSentN_fsend hph]
          have := (hPh i (by omega) j hj).2.1 s hph
          omega
      | brecv g => rw [fwdSentN_brecv hph]
      | bsend s => rw [fwdSentN_bsend hph]
      | done => rw [fwdSentN_done hph])
    hsum
  intro j hj
  have h1 := hptw j hj
  dsimp only at h1
  have hnoutpos : 1 ≤ nout arch i := by
    rw [hnoutv]
    exact hpos (i + 1) hi
  constructor
  · intro g hph
    rw [fwdSentN_frecv hph] at h1
    omega
  · intro s hph
    have hb := (hPh i (by omega) j hj).2.1 s hph
    rw [fwdSentN_fsend hph] at h1
    omega

theorem allfwd_of_coll (arch : List Nat) (c : Config)
    (hlen : 3 ≤ arch.length)
    (hpos : ∀ t, t < arch.length → 1 ≤ sz arch t)
    (hPh : PhaseOK arch c) (hF : FCon arch c)
    (hColl : Coll arch c (sz arch (arch.length - 1))) :
    AllFwd arch c := by
  have main : ∀ d, d ≤ arch.length - 1 →
      ∀ j, j < sz arch (arch.length - 1 - d) →
        (∀ g, (c.u (arch.length - 1 - d) j).ph ≠ .frecv g)
        ∧ (∀ s, (c.u (arch.length - 1 - d) j).ph ≠ .fsend s) := by
    intro d
    induction d with
    | zero =>
        intro _ j hj
        rw [Nat.sub_zero] at hj ⊢
        have hb := (hColl j hj).1 hj
        rw [hb]
        constructor
        · intro g h2
          exact UPhase.noConfusion h2
        · intro s h2
          exact UPhase.noConfusion h2
    | succ m ih =>
        intro hd j hj
        have he : arch.length - 1 - m = (arch.length - 1 - (m + 1)) + 1 := by
          omega
        have hnext : ∀ k, k < sz arch ((arch.length - 1 - (m + 1)) + 1) →
            ∀ g, (c.u ((arch.length - 1 - (m + 1)) + 1) k).ph ≠ .frecv g := by
          intro k hk g
          rw [← he] at hk ⊢
          exact (ih (by omega) k hk).1 g
        exact chain_step arch c (arch.length - 1 - (m + 1))
          (by omega) hpos hPh hF hnext j hj
  intro i hi j hj
  have hd : arch.length - 1 - (arch.length - 1 - i) = i := by omega
  have h2 := main (arch.length - 1 - i) (by omega) j (by rw [hd]; exact hj)
  rw [hd] at h2
  exact h2

end Neuron

namespace Neuron

theorem fwdSentN_congr {arch : List Nat} {c c' : Config} {i j : Nat}
    (h : c'.u i j = c.u i j) :
    fwdSentN arch c' i j = fwdSentN arch c i j := by
  unfold fwdSentN
  rw [h]

theorem recvdF_congr {arch : List Nat} {c c' : Config} {i k : Nat}
    (h : c'.u i k = c.u i k) :
    recvdF arch c' i k = recvdF arch c i k := by
  unfold recvdF
  rw [h]

theorem INV_feedDone (arch : List Nat) (c : Config) (p : Nat)
    (hd : c.d = ⟨p, .feeding (sz arch 0)⟩) (hinv : INV arch c) :
    INV arch ⟨⟨p, .collecting 0⟩, c.u⟩ := by
  obtain ⟨hFd, _, _, _⟩ := hinv
  obtain ⟨hle, hPass, hFed, hPh, hFC, hNo, hOut⟩ :=
    hFd (sz arch 0) (by rw [hd])
  have hp : c.d.pass = p := by rw [hd]
  rw [hp] at hPass
  refine ⟨?_, ?_, ?_, ?_⟩
  · intro fj2 hfj2
    nomatch hfj2
  · intro cj hcj
    injection hcj with h2
    subst h2
    exact ⟨Nat.zero_le _, hPass, hFed, hPh, hFC, hNo,
      fun k hk => ⟨fun h2 => absurd h2 (by omega), fun _ => hOut k hk⟩⟩
  · intro gj hgj
    nomatch hgj
  · intro sc hsc
    nomatch hsc

theorem INV_collectDone (arch : List Nat) (c : Config) (p : Nat)
    (hlen : 3 ≤ arch.length)
    (hpos : ∀ t, t < arch.length → 1 ≤ sz arch t)
    (hd : c.d = ⟨p, .collecting (sz arch (arch.length - 1))⟩)
    (hinv : INV arch c) :
    INV arch ⟨⟨p, .grading 0⟩, c.u⟩ := by
  obtain ⟨_, hCl, _, _⟩ := hinv
  obtain ⟨hle, hPass, hFed, hPh, hFC, hNo, hColl⟩ :=
    hCl (sz arch (arch.length - 1)) (by rw [hd])
  have hp : c.d.pass = p := by rw [hd]
  rw [hp] at hPass
  have hAll : AllFwd arch c := allfwd_of_coll arch c hlen hpos hPh hFC hColl
  refine ⟨?_, ?_, ?_, ?_⟩
  · intro fj2 hfj2
    nomatch hfj2
  · intro cj hcj
    nomatch hcj
  · intro gj hgj
    injection hgj with h2
    subst h2
    exact ⟨Nat.zero_le _, hPass, hPh, hAll,
      fun k hk => ⟨fun h2 => absurd h2 (by omega),
        fun _ => (hColl k hk).1 hk⟩⟩
  · intro sc hsc
    nomatch hsc

theorem INV_gradeDone (arch : List Nat) (c : Config) (p : Nat)
    (hd : c.d = ⟨p, .grading (sz arch (arch.length - 1))⟩)
    (hinv : INV arch c) :
    INV arch ⟨⟨p, .syncing 0⟩, c.u⟩ := by
  obtain ⟨_, _, hGr, _⟩ := hinv
  obtain ⟨hle, hPass, hPh, hAll, hGrad⟩ :=
    hGr (sz arch (arch.length - 1)) (by rw [hd])
  have hp : c.d.pass = p := by rw [hd]
  rw [hp] at hPass
  refine ⟨?_, ?_, ?_, ?_⟩
  · intro fj2 hfj2
    nomatch hfj2
  · intro cj hcj
    nomatch hcj
  · intro gj hgj
    nomatch hgj
  · intro sc hsc
    injection hsc with h2
    subst h2
    constructor
    · have h0 : reported arch (⟨⟨p, .syncing 0⟩, c.u⟩ : Config) = 0 := by
        apply reported_zero
        exact hPass
      rw [h0]
    · intro i hi j hj
      exact Or.inl ⟨hPass i hi j hj, (hAll i hi j hj).1, (hAll i hi j hj).2⟩

theorem INV_syncDone (arch : List Nat) (c : Config) (p : Nat)
    (hlen : 3 ≤ arch.length)
    (hpos : ∀ t, t < arch.length → 1 ≤ sz arch t)
    (hd : c.d = ⟨p, .syncing (totU arch)⟩)
    (hinv : INV arch c) :
    INV arch ⟨⟨p + 1, .feeding 0⟩, c.u⟩ := by
  obtain ⟨_, _, _, hSy⟩ := hinv
  obtain ⟨hrep, hSync⟩ := hSy (totU arch) (by rw [hd])
  have hp : c.d.pass = p := by rw [hd]
  have hallp : ∀ i, i < arch.length → ∀ j, j < sz arch i →
      (c.u i j).pass = p + 1 ∧ (c.u i j).ph = .frecv 0 := by
    have hall := reported_all arch c hrep.symm
    intro i hi j hj
    have hpass := hall i hi j hj
    rw [hp] at hpass
    rcases hSync i hi j hj with ⟨h1, _⟩ | ⟨h1, h2⟩
    · omega
    · exact ⟨by omega, h2⟩
  refine ⟨?_, ?_, ?_, ?_⟩
  · intro fj2 hfj2
    injection hfj2 with h2
    subst h2
    refine ⟨Nat.zero_le _, ?_, ?_, ?_, ?_, ?_, ?_⟩
    · intro i hi j hj
      exact (hallp i hi j hj).1
    · intro k hk
      exact ⟨fun h2 => absurd h2 (by omega),
        fun _ => (hallp 0 (by omega) k hk).2⟩
    · intro i hi j hj
      rw [(hallp i hi j hj).2]
      refine ⟨?_, ?_, ?_, ?_⟩
      · intro g h2
        injection h2 with h3
        subst h3
        unfold nin
        split
        · omega
        · have := hpos (i - 1) (by omega)
          omega
      · intro s h2
        nomatch h2
      · intro g h2
        nomatch h2
      · intro s h2
        nomatch h2
    · intro i hi
      unfold SSent SRecv
      rw [Finset.sum_eq_zero, Finset.sum_eq_zero]
      · intro k hk
        rw [recvdF_frecv (c := ⟨⟨p + 1, .feeding 0⟩, c.u⟩)
          ((hallp (i + 1) hi k (Finset.mem_range.mp hk)).2)]
      · intro j hj
        rw [fwdSentN_frecv (c := ⟨⟨p + 1, .feeding 0⟩, c.u⟩)
          ((hallp i (by omega) j (Finset.mem_range.mp hj)).2)]
    · intro i hi j hj
      rw [(hallp i hi j hj).2]
      refine ⟨?_, ?_, ?_⟩
      · intro g h2
        nomatch h2
      · intro s h2
        nomatch h2
      · intro h2
        nomatch h2
    · intro k hk g
      rw [(hallp (arch.length - 1) (by omega) k hk).2]
      intro h2
      nomatch h2
  · intro cj hcj
    nomatch hcj
  · intro gj hgj
    nomatch hgj
  · intro sc hsc
    nomatch hsc

end Neuron

namespace Neuron

theorem INV_sync (arch : List Nat) (c : Config) (p sc i j q : Nat)
    (hd : c.d = ⟨p, .syncing sc⟩) (hi : i < arch.length) (hj : j < sz arch i)
    (hu : c.u i j = ⟨q, .done⟩) (hinv : INV arch c) :
    INV arch ⟨⟨p, .syncing (sc + 1)⟩, updU c.u i j ⟨q + 1, .frecv 0⟩⟩ := by
  obtain ⟨_, _, _, hSy⟩ := hinv
  obtain ⟨hrep, hSync⟩ := hSy sc (by rw [hd])
  have hp : c.d.pass = p := by rw [hd]
  rw [hp] at hSync
  have hq : q = p := by
    rcases hSync i hi j hj with ⟨h1, _, _⟩ | ⟨_, h2⟩
    · rw [hu] at h1
      exact h1
    · rw [hu] at h2
      nomatch h2
  refine ⟨?_, ?_, ?_, ?_⟩
  · intro fj hfj
    nomatch hfj
  · intro cj hcj
    nomatch hcj
  · intro gj hgj
    nomatch hgj
  · intro sc2 hsc2
    injection hsc2 with h2
    subst h2
    constructor
    · have hup := reported_upd arch c
        ⟨⟨p, .syncing (sc + 1)⟩, updU c.u i j ⟨q + 1, .frecv 0⟩⟩ i j
        ⟨q + 1, .frecv 0⟩ (by rw [hp]) rfl hi hj
        (by rw [hu, hp]; show ¬(q = p + 1); omega)
        (by rw [hp]; show q + 1 = p + 1; omega)
      rw [hup, ← hrep]
    · intro a ha b hb
      dsimp only
      by_cases hab : a = i ∧ b = j
      · obtain ⟨rfl, rfl⟩ := hab
        rw [updU_same]
        right
        exact ⟨by show q + 1 = p + 1; omega, rfl⟩
      · rw [updU_other _ _ _ _ _ _ hab]
        exact hSync a ha b hb

end Neuron

namespace Neuron

theorem advF_ok (arch : List Nat) (i g : Nat) :
    (∀ g2, advF arch i g = .frecv g2 → g2 < nin arch i)
    ∧ (∀ s2, advF arch i g = .fsend s2 → s2 = 0)
    ∧ (∀ g2, advF arch i g ≠ .brecv g2)
    ∧ (∀ s2, advF arch i g ≠ .bsend s2)
    ∧ advF arch i g ≠ .done := by
  unfold advF
  by_cases h1 : g + 1 < nin arch i
  · rw [if_pos h1]
    refine ⟨?_, ?_, ?_, ?_, ?_⟩
    · intro x h2
      injection h2 with h3
      omega
    · intro x h2
      nomatch h2
    · intro x h2
      nomatch h2
    · intro x h2
      nomatch h2
    · intro h2
      nomatch h2
  · rw [if_neg h1]
    refine ⟨?_, ?_, ?_, ?_, ?_⟩
    · intro x h2
      nomatch h2
    · intro x h2
      injection h2 with h3
      omega
    · intro x h2
      nomatch h2
    · intro x h2
      nomatch h2
    · intro h2
      nomatch h2

theorem advS_ok (arch : List Nat) (i s : Nat) :
    (∀ g2, advS arch i s ≠ .frecv g2)
    ∧ (∀ s2, advS arch i s = .fsend s2 → s2 = s + 1 ∧ s2 < nout arch i)
    ∧ (∀ g2, advS arch i s = .brecv g2 → g2 = 0)
    ∧ (∀ s2, advS arch i s ≠ .bsend s2)
    ∧ advS arch i s ≠ .done := by
  unfold advS
  by_cases h1 : s + 1 < nout arch i
  · rw [if_pos h1]
    refine ⟨?_, ?_, ?_, ?_, ?_⟩
    · intro x h2
      nomatch h2
    · intro x h2
      injection h2 with h3
      omega
    · intro x h2
      nomatch h2
    · intro x h2
      nomatch h2
    · intro h2
      nomatch h2
  · rw [if_neg h1]
    refine ⟨?_, ?_, ?_, ?_, ?_⟩
    · intro x h2
      nomatch h2
    · intro x h2
      nomatch h2
    · intro x h2
      injection h2 with h3
      omega
    · intro x h2
      nomatch h2
    · intro h2
      nomatch h2

theorem advB_ok (arch : List Nat) (i g : Nat) :
    (∀ g2, advB arch i g ≠ .frecv g2)
    ∧ (∀ s2, advB arch i g ≠ .fsend s2)
    ∧ (∀ g2, advB arch i g = .brecv g2 → g2 = g + 1 ∧ g2 < nout arch i)
    ∧ (∀ s2, advB arch i g = .bsend s2 → s2 = 0 ∧ 0 < nbwd arch i) := by
  unfold advB
  by_cases h1 : g + 1 < nout arch i
  · rw [if_pos h1]
    refine ⟨?_, ?_, ?_, ?_⟩ <;> intro x h2
    · nomatch h2
    · nomatch h2
    · injection h2 with h3
      omega
    · nomatch h2
  · rw [if_neg h1]
    by_cases h2 : nbwd arch i = 0
    · rw [if_pos h2]
      refine ⟨?_, ?_, ?_, ?_⟩ <;> intro x h3 <;> nomatch h3
    · rw [if_neg h2]
      refine ⟨?_, ?_, ?_, ?_⟩ <;> intro x h3
      · nomatch h3
      · nomatch h3
      · nomatch h3
      · injection h3 with h4
        omega

theorem advBS_ok (arch : List Nat) (i s : Nat) :
    (∀ g2, advBS arch i s ≠ .frecv g2)
    ∧ (∀ s2, advBS arch i s ≠ .fsend s2)
    ∧ (∀ g2, advBS arch i s ≠ .brecv g2)
    ∧ (∀ s2, advBS arch i s = .bsend s2 → s2 = s + 1 ∧ s2 < nbwd arch i) := by
  unfold advBS
  by_cases h1 : s + 1 < nbwd arch i
  · rw [if_pos h1]
    refine ⟨?_, ?_, ?_, ?_⟩ <;> intro x h2
    · nomatch h2
    · nomatch h2
    · nomatch h2
    · injection h2 with h3
      omega
  · rw [if_neg h1]
    refine ⟨?_, ?_, ?_, ?_⟩ <;> intro x h2 <;> nomatch h2

end Neuron

namespace Neuron

theorem INV_bfire (arch : List Nat) (c : Config) (i j k qs s qr g : Nat)
    (hi1 : 1 ≤ i) (hi : i < arch.length) (hj : j < sz arch i)
    (hk : k < sz arch (i - 1))
    (hus : c.u i j = ⟨qs, .bsend s⟩) (hs : s < nbwd arch i)
    (hur : c.u (i - 1) k = ⟨qr, .brecv g⟩) (hg : g < nout arch (i - 1))
    (hinv : INV arch c) :
    INV arch ⟨c.d, updU (updU c.u i j ⟨qs, advBS arch i s⟩) (i - 1) k
      ⟨qr, advB arch (i - 1) g⟩⟩ := by
  obtain ⟨hFd, hCl, hGr, hSy⟩ := hinv
  have hphs : (c.u i j).ph = .bsend s := by rw [hus]
  have hAB := advB_ok arch (i - 1) g
  have hBS := advBS_ok arch i s
  have hval : ∀ a, a < arch.length → ∀ b, b < sz arch a →
      (updU (updU c.u i j ⟨qs, advBS arch i s⟩) (i - 1) k
        ⟨qr, advB arch (i - 1) g⟩ a b = c.u a b)
      ∨ (a = i ∧ b = j ∧ updU (updU c.u i j ⟨qs, advBS arch i s⟩) (i - 1) k
          ⟨qr, advB arch (i - 1) g⟩ a b = ⟨qs, advBS arch i s⟩)
      ∨ (a = i - 1 ∧ b = k ∧ updU (updU c.u i j ⟨qs, advBS arch i s⟩) (i - 1) k
          ⟨qr, advB arch (i - 1) g⟩ a b = ⟨qr, advB arch (i - 1) g⟩) := by
    intro a ha b hb
    by_cases h1 : a = i - 1 ∧ b = k
    · obtain ⟨he1, he2⟩ := h1
      subst he1
      subst he2
      exact Or.inr (Or.inr ⟨rfl, rfl, updU_same _ _ _ _⟩)
    · rw [updU_other _ _ _ _ _ _ h1]
      by_cases h2 : a = i ∧ b = j
      · obtain ⟨he1, he2⟩ := h2
        subst he1
        subst he2
        exact Or.inr (Or.inl ⟨rfl, rfl, by rw [updU_same]⟩)
      · rw [updU_other _ _ _ _ _ _ h2]
        exact Or.inl rfl
  refine ⟨?_, ?_, ?_, ?_⟩
  · intro fj hfj
    obtain ⟨_, _, _, _, _, hNo, _⟩ := hFd fj hfj
    exact absurd hphs ((hNo i hi j hj).2.1 s)
  · intro cj hcj
    obtain ⟨_, _, _, _, _, hNo, _⟩ := hCl cj hcj
    exact absurd hphs ((hNo i hi j hj).2.1 s)
  · intro gj hgj
    obtain ⟨hle, hPass, hPh, hAll, hGrad⟩ := hGr gj hgj
    have hqs : qs = c.d.pass := by
      have h2 := hPass i hi j hj
      rw [hus] at h2
      exact h2
    have hqr : qr = c.d.pass := by
      have h2 := hPass (i - 1) (by omega) k hk
      rw [hur] at h2
      exact h2
    refine ⟨hle, ?_, ?_, ?_, ?_⟩
    · intro a ha b hb
      dsimp only
      rcases hval a ha b hb with he | ⟨_, _, he⟩ | ⟨_, _, he⟩
      · rw [he]
        exact hPass a ha b hb
      · rw [he]
        exact hqs
      · rw [he]
        exact hqr
    · intro a ha b hb
      dsimp only
      rcases hval a ha b hb with he | ⟨hei, hej, he⟩ | ⟨hei, hej, he⟩
      · rw [he]
        exact hPh a ha b hb
      · subst hei
        subst hej
        rw [he]
        refine ⟨?_, ?_, ?_, ?_⟩
        · intro g2 h2
          exact absurd h2 (hBS.1 g2)
        · intro s2 h2
          exact absurd h2 (hBS.2.1 s2)
        · intro g2 h2
          exact absurd h2 (hBS.2.2.1 g2)
        · intro s2 h2
          exact ((hBS.2.2.2 s2) h2).2
      · subst hei
        subst hej
        rw [he]
        refine ⟨?_, ?_, ?_, ?_⟩
        · intro g2 h2
          exact absurd h2 (hAB.1 g2)
        · intro s2 h2
          exact absurd h2 (hAB.2.1 s2)
        · intro g2 h2
          exact ((hAB.2.2.1 g2) h2).2
        · intro s2 h2
          have h3 := (hAB.2.2.2 s2) h2
          omega
    · intro a ha b hb
      dsimp only
      rcases hval a ha b hb with he | ⟨_, _, he⟩ | ⟨_, _, he⟩
      · rw [he]
        exact hAll a ha b hb
      · rw [he]
        exact ⟨fun g2 h2 => absurd h2 (hBS.1 g2),
          fun s2 h2 => absurd h2 (hBS.2.1 s2)⟩
      · rw [he]
        exact ⟨fun g2 h2 => absurd h2 (hAB.1 g2),
          fun s2 h2 => absurd h2 (hAB.2.1 s2)⟩
    · intro k2 hk2
      dsimp only
      rcases hval (arch.length - 1) (by omega) k2 hk2 with he
          | ⟨hei, hej, he⟩ | ⟨hei, hej, he⟩
      · rw [he]
        exact hGrad k2 hk2
      · constructor
        · intro _ g2 h2
          rw [he] at h2
          exact absurd h2 (hBS.2.2.1 g2)
        · intro hge
          exfalso
          have hold := (hGrad k2 hk2).2 hge
          rw [← hei, ← hej] at hphs
          rw [hold] at hphs
          nomatch hphs
      · exfalso
        omega
  · intro sc hsc
    obtain ⟨hrep, hSync⟩ := hSy sc hsc
    constructor
    · rw [hrep]
      have hcg := reported_congr arch c
        ⟨c.d, updU (updU c.u i j ⟨qs, advBS arch i s⟩) (i - 1) k
          ⟨qr, advB arch (i - 1) g⟩⟩ rfl ?_
      · rw [hcg]
      · intro a ha b hb
        dsimp only
        rcases hval a ha b hb with he | ⟨hei, hej, he⟩ | ⟨hei, hej, he⟩
        · rw [he]
        · subst hei
          subst hej
          rw [he, hus]
        · subst hei
          subst hej
          rw [he, hur]
    · intro a ha b hb
      dsimp only
      rcases hval a ha b hb with he | ⟨hei, hej, he⟩ | ⟨hei, hej, he⟩
      · rw [he]
        exact hSync a ha b hb
      · rw [he]
        rcases hSync i hi j hj with ⟨h1, _, _⟩ | ⟨_, h2⟩
        · rw [hus] at h1
          exact Or.inl ⟨h1, fun g2 h4 => absurd h4 (hBS.1 g2),
            fun s2 h4 => absurd h4 (hBS.2.1 s2)⟩
        · rw [hus] at h2
          nomatch h2
      · rw [he]
        rcases hSync (i - 1) (by omega) k hk with ⟨h1, _, _⟩ | ⟨_, h2⟩
        · rw [hur] at h1
          exact Or.inl ⟨h1, fun g2 h4 => absurd h4 (hAB.1 g2),
            fun s2 h4 => absurd h4 (hAB.2.1 s2)⟩
        · rw [hur] at h2
          nomatch h2

end Neuron

namespace Neuron

theorem updU_cases (u : Nat → Nat → UState) (i0 j0 : Nat) (st : UState)
    (a b : Nat) :
    (updU u i0 j0 st a b = u a b)
    ∨ (a = i0 ∧ b = j0 ∧ updU u i0 j0 st a b = st) := by
  by_cases h : a = i0 ∧ b = j0
  · obtain ⟨he1, he2⟩ := h
    subst he1
    subst he2
    exact Or.inr ⟨rfl, rfl, updU_same _ _ _ _⟩
  · rw [updU_other _ _ _ _ _ _ h]
    exact Or.inl rfl

theorem nout_pos (arch : List Nat) (hpos : ∀ t, t < arch.length → 1 ≤ sz arch t)
    (t : Nat) (ht : t < arch.length) : 1 ≤ nout arch t := by
  unfold nout
  split
  · omega
  · next h =>
      exact hpos (t + 1) (by omega)

theorem nin_pos (arch : List Nat) (hpos : ∀ t, t < arch.length → 1 ≤ sz arch t)
    (t : Nat) (ht : t < arch.length) : 1 ≤ nin arch t := by
  unfold nin
  split
  · omega
  · next h =>
      exact hpos (t - 1) (by omega)

end Neuron

namespace Neuron

theorem INV_feed (arch : List Nat) (c : Config) (p fj q g : Nat)
    (hlen : 3 ≤ arch.length)
    (hpos : ∀ t, t < arch.length → 1 ≤ sz arch t)
    (hd : c.d = ⟨p, .feeding fj⟩) (hfj : fj < sz arch 0)
    (hu : c.u 0 fj = ⟨q, .frecv g⟩) (hg : g < nin arch 0)
    (hinv : INV arch c) :
    INV arch ⟨⟨p, .feeding (fj + 1)⟩, updU c.u 0 fj ⟨q, advF arch 0 g⟩⟩ := by
  obtain ⟨hFd, _, _, _⟩ := hinv
  obtain ⟨hle, hPass, hFed, hPh, hFC, hNo, hOut⟩ := hFd fj (by rw [hd])
  have hp : c.d.pass = p := by rw [hd]
  rw [hp] at hPass
  have hq : q = p := by
    have h2 := hPass 0 (by omega) fj hfj
    rw [hu] at h2
    exact h2
  have hn : nin arch 0 = 1 := by
    unfold nin
    rw [if_pos rfl]
  have hadv : advF arch 0 g = .fsend 0 := by
    unfold advF
    rw [hn, if_neg (by omega)]
  have hAF := advF_ok arch 0 g
  refine ⟨?_, ?_, ?_, ?_⟩
  · intro fj2 hfj2
    injection hfj2 with h2
    subst h2
    refine ⟨by omega, ?_, ?_, ?_, ?_, ?_, ?_⟩
    · intro a ha b hb
      dsimp only
      rcases updU_cases c.u 0 fj ⟨q, advF arch 0 g⟩ a b with he | ⟨_, _, he⟩
      · rw [he]
        exact hPass a ha b hb
      · rw [he]
        exact hq
    · intro b hb
      dsimp only
      by_cases hbf : b = fj
      · subst hbf
        rw [updU_same]
        constructor
        · intro _ g2
          rw [show (⟨q, advF arch 0 g⟩ : UState).ph = .fsend 0 from hadv]
          intro h2
          nomatch h2
        · intro h2
          omega
      · rw [updU_other _ _ _ _ _ _ (fun hc => hbf hc.2)]
        constructor
        · intro hblt
          exact (hFed b hb).1 (by omega)
        · intro hbge
          exact (hFed b hb).2 (by omega)
    · intro a ha b hb
      dsimp only
      rcases updU_cases c.u 0 fj ⟨q, advF arch 0 g⟩ a b with he | ⟨hea, heb, he⟩
      · rw [he]
        exact hPh a ha b hb
      · subst hea
        subst heb
        rw [he]
        refine ⟨?_, ?_, ?_, ?_⟩
        · intro g2 h2
          exact hAF.1 g2 h2
        · intro s2 h2
          have h3 := hAF.2.1 s2 h2
          have h4 := nout_pos arch hpos 0 (by omega)
          omega
        · intro g2 h2
          exact absurd h2 (hAF.2.2.1 g2)
        · intro s2 h2
          exact absurd h2 (hAF.2.2.2.1 s2)
    · apply FCon_congr arch c _ ?_ ?_ hFC
      · intro t ht b hb
        rcases updU_cases c.u 0 fj ⟨q, advF arch 0 g⟩ t b with he | ⟨hea, heb, he⟩
        · exact fwdSentN_congr he
        · rw [hea, heb]
          have hnew : ((⟨⟨p, .feeding (fj + 1)⟩,
              updU c.u 0 fj ⟨q, advF arch 0 g⟩⟩ : Config).u 0 fj).ph
              = .fsend 0 := by
            dsimp only
            rw [updU_same]
            show advF arch 0 g = UPhase.fsend 0
            exact hadv
          rw [fwdSentN_fsend hnew,
            fwdSentN_frecv (show (c.u 0 fj).ph = .frecv g from by rw [hu])]
      · intro t ht b hb
        exact recvdF_congr
          (updU_other c.u 0 fj ⟨q, advF arch 0 g⟩ (t + 1) b
            (fun hc => by omega))
    · intro a ha b hb
      dsimp only
      rcases updU_cases c.u 0 fj ⟨q, advF arch 0 g⟩ a b with he | ⟨_, _, he⟩
      · rw [he]
        exact hNo a ha b hb
      · rw [he]
        refine ⟨?_, ?_, ?_⟩
        · intro g2 h2
          exact absurd h2 (hAF.2.2.1 g2)
        · intro s2
          exact hAF.2.2.2.1 s2
        · exact hAF.2.2.2.2
    · intro b hb g2
      dsimp only
      rw [updU_other _ _ _ _ _ _ (fun hc => by omega)]
      exact hOut b hb g2
  · intro cj hcj
    nomatch hcj
  · intro gj hgj
    nomatch hgj
  · intro sc hsc
    nomatch hsc

end Neuron

namespace Neuron

theorem INV_collect (arch : List Nat) (c : Config) (p cj q s : Nat)
    (hlen : 3 ≤ arch.length)
    (hd : c.d = ⟨p, .collecting cj⟩) (hcj : cj < sz arch (arch.length - 1))
    (hu : c.u (arch.length - 1) cj = ⟨q, .fsend s⟩)
    (hs : s < nout arch (arch.length - 1))
    (hinv : INV arch c) :
    INV arch ⟨⟨p, .collecting (cj + 1)⟩,
      updU c.u (arch.length - 1) cj ⟨q, .brecv 0⟩⟩ := by
  obtain ⟨_, hCl, _, _⟩ := hinv
  obtain ⟨hle, hPass, hFed, hPh, hFC, hNo, hColl⟩ := hCl cj (by rw [hd])
  have hp : c.d.pass = p := by rw [hd]
  rw [hp] at hPass
  have hq : q = p := by
    have h2 := hPass (arch.length - 1) (by omega) cj hcj
    rw [hu] at h2
    exact h2
  have hnoutL : nout arch (arch.length - 1) = 1 := by
    unfold nout
    rw [if_pos rfl]
  refine ⟨?_, ?_, ?_, ?_⟩
  · intro fj2 hfj2
    nomatch hfj2
  · intro cj2 hcj2
    injection hcj2 with h2
    subst h2
    refine ⟨by omega, ?_, ?_, ?_, ?_, ?_, ?_⟩
    · intro a ha b hb
      dsimp only
      rcases updU_cases c.u (arch.length - 1) cj ⟨q, .brecv 0⟩ a b with
        he | ⟨_, _, he⟩
      · rw [he]
        exact hPass a ha b hb
      · rw [he]
        exact hq
    · intro b hb
      dsimp only
      rw [updU_other c.u _ _ _ 0 b (fun hc => by omega)]
      exact hFed b hb
    · intro a ha b hb
      dsimp only
      rcases updU_cases c.u (arch.length - 1) cj ⟨q, .brecv 0⟩ a b with
        he | ⟨hea, heb, he⟩
      · rw [he]
        exact hPh a ha b hb
      · rw [he, hea]
        refine ⟨?_, ?_, ?_, ?_⟩
        · intro g2 h2
          nomatch h2
        · intro s2 h2
          nomatch h2
        · intro g2 h2
          injection h2 with h3
          omega
        · intro s2 h2
          nomatch h2
    · apply FCon_congr arch c _ ?_ ?_ hFC
      · intro t ht b hb
        exact fwdSentN_congr
          (updU_other c.u (arch.length - 1) cj ⟨q, .brecv 0⟩ t b
            (fun hc => by omega))
      · intro t ht b hb
        rcases updU_cases c.u (arch.length - 1) cj ⟨q, .brecv 0⟩ (t + 1) b with
          he | ⟨hea, heb, he⟩
        · exact recvdF_congr he
        · rw [hea, heb]
          rw [recvdF_nf (c := ⟨⟨p, .collecting (cj + 1)⟩,
              updU c.u (arch.length - 1) cj ⟨q, .brecv 0⟩⟩)
            (by
              intro g2
              dsimp only
              rw [updU_same]
              intro h2
              nomatch h2)]
          rw [recvdF_nf (by
            intro g2 h2
            rw [hu] at h2
            nomatch h2)]
    · intro a ha b hb
      dsimp only
      rcases updU_cases c.u (arch.length - 1) cj ⟨q, .brecv 0⟩ a b with
        he | ⟨_, _, he⟩
      · rw [he]
        exact hNo a ha b hb
      · rw [he]
        refine ⟨?_, ?_, ?_⟩
        · intro g2 h2
          injection h2 with h3
          omega
        · intro s2 h2
          nomatch h2
        · intro h2
          nomatch h2
    · intro b hb
      dsimp only
      by_cases hbc : b = cj
      · subst hbc
        rw [updU_same]
        constructor
        · intro _
          rfl
        · intro h2
          omega
      · rw [updU_other c.u _ _ _ _ b (fun hc => hbc hc.2)]
        constructor
        · intro hblt
          exact (hColl b hb).1 (by omega)
        · intro hbge
          exact (hColl b hb).2 (by omega)
  · intro gj hgj
    nomatch hgj
  · intro sc hsc
    nomatch hsc

theorem INV_grade (arch : List Nat) (c : Config) (p gj q g : Nat)
    (hlen : 3 ≤ arch.length)
    (hpos : ∀ t, t < arch.length → 1 ≤ sz arch t)
    (hd : c.d = ⟨p, .grading gj⟩) (hgj : gj < sz arch (arch.length - 1))
    (hu : c.u (arch.length - 1) gj = ⟨q, .brecv g⟩)
    (hg : g < nout arch (arch.length - 1))
    (hinv : INV arch c) :
    INV arch ⟨⟨p, .grading (gj + 1)⟩,
      updU c.u (arch.length - 1) gj ⟨q, advB arch (arch.length - 1) g⟩⟩ := by
  obtain ⟨_, _, hGr, _⟩ := hinv
  obtain ⟨hle, hPass, hPh, hAll, hGrad⟩ := hGr gj (by rw [hd])
  have hp : c.d.pass = p := by rw [hd]
  rw [hp] at hPass
  have hq : q = p := by
    have h2 := hPass (arch.length - 1) (by omega) gj hgj
    rw [hu] at h2
    exact h2
  have hnoutL : nout arch (arch.length - 1) = 1 := by
    unfold nout
    rw [if_pos rfl]
  have hAB := advB_ok arch (arch.length - 1) g
  refine ⟨?_, ?_, ?_, ?_⟩
  · intro fj2 hfj2
    nomatch hfj2
  · intro cj2 hcj2
    nomatch hcj2
  · intro gj2 hgj2
    injection hgj2 with h2
    subst h2
    refine ⟨by omega, ?_, ?_, ?_, ?_⟩
    · intro a ha b hb
      dsimp only
      rcases updU_cases c.u (arch.length - 1) gj
          ⟨q, advB arch (arch.length - 1) g⟩ a b with he | ⟨_, _, he⟩
      · rw [he]
        exact hPass a ha b hb
      · rw [he]
        exact hq
    · intro a ha b hb
      dsimp only
      rcases updU_cases c.u (arch.length - 1) gj
          ⟨q, advB arch (arch.length - 1) g⟩ a b with he | ⟨hea, heb, he⟩
      · rw [he]
        exact hPh a ha b hb
      · rw [he, hea]
        refine ⟨?_, ?_, ?_, ?_⟩
        · intro g2 h2
          exact absurd h2 (hAB.1 g2)
        · intro s2 h2
          exact absurd h2 (hAB.2.1 s2)
        · intro g2 h2
          exact ((hAB.2.2.1 g2) h2).2
        · intro s2 h2
          have h3 := (hAB.2.2.2 s2) h2
          omega
    · intro a ha b hb
      dsimp only
      rcases updU_cases c.u (arch.length - 1) gj
          ⟨q, advB arch (arch.length - 1) g⟩ a b with he | ⟨_, _, he⟩
      · rw [he]
        exact hAll a ha b hb
      · rw [he]
        exact ⟨fun g2 h2 => absurd h2 (hAB.1 g2),
          fun s2 h2 => absurd h2 (hAB.2.1 s2)⟩
    · intro b hb
      dsimp only
      by_cases hbg : b = gj
      · subst hbg
        rw [updU_same]
        constructor
        · intro _ g2 h2
          have h3 := (hAB.2.2.1 g2) h2
          omega
        · intro h2
          omega
      · rw [updU_other c.u _ _ _ _ b (fun hc => hbg hc.2)]
        constructor
        · intro hblt
          exact (hGrad b hb).1 (by omega)
        · intro hbge
          exact (hGrad b hb).2 (by omega)
  · intro sc hsc
    nomatch hsc

end Neuron

namespace Neuron

theorem INV_ffire (arch : List Nat) (c : Config) (i j k qs s qr g : Nat)
    (hpos : ∀ t, t < arch.length → 1 ≤ sz arch t)
    (hi : i + 1 < arch.length) (hj : j < sz arch i) (hk : k < sz arch (i + 1))
    (hus : c.u i j = ⟨qs, .fsend s⟩) (hs : s < nout arch i)
    (hur : c.u (i + 1) k = ⟨qr, .frecv g⟩) (hg : g < nin arch (i + 1))
    (hinv : INV arch c) :
    INV arch ⟨c.d, updU (updU c.u i j ⟨qs, advS arch i s⟩) (i + 1) k
      ⟨qr, advF arch (i + 1) g⟩⟩ := by
  obtain ⟨hFd, hCl, hGr, hSy⟩ := hinv
  have hphs : (c.u i j).ph = .fsend s := by rw [hus]
  have hphr : (c.u (i + 1) k).ph = .frecv g := by rw [hur]
  have hAS := advS_ok arch i s
  have hAF := advF_ok arch (i + 1) g
  have hval : ∀ a b : Nat,
      (updU (updU c.u i j ⟨qs, advS arch i s⟩) (i + 1) k
        ⟨qr, advF arch (i + 1) g⟩ a b = c.u a b)
      ∨ (a = i ∧ b = j ∧ updU (updU c.u i j ⟨qs, advS arch i s⟩) (i + 1) k
          ⟨qr, advF arch (i + 1) g⟩ a b = ⟨qs, advS arch i s⟩)
      ∨ (a = i + 1 ∧ b = k ∧ updU (updU c.u i j ⟨qs, advS arch i s⟩) (i + 1) k
          ⟨qr, advF arch (i + 1) g⟩ a b = ⟨qr, advF arch (i + 1) g⟩) := by
    intro a b
    by_cases h1 : a = i + 1 ∧ b = k
    · obtain ⟨he1, he2⟩ := h1
      subst he1
      subst he2
      exact Or.inr (Or.inr ⟨rfl, rfl, updU_same _ _ _ _⟩)
    · rw [updU_other _ _ _ _ _ _ h1]
      by_cases h2 : a = i ∧ b = j
      · obtain ⟨he1, he2⟩ := h2
        subst he1
        subst he2
        exact Or.inr (Or.inl ⟨rfl, rfl, by rw [updU_same]⟩)
      · rw [updU_other _ _ _ _ _ _ h2]
        exact Or.inl rfl
  have hph_s : ((⟨c.d, updU (updU c.u i j ⟨qs, advS arch i s⟩) (i + 1) k
      ⟨qr, advF arch (i + 1) g⟩⟩ : Config).u i j).ph = advS arch i s := by
    dsimp only
    rw [updU_other _ _ _ _ _ _ (fun hc => by omega), updU_same]
  have hph_r : ((⟨c.d, updU (updU c.u i j ⟨qs, advS arch i s⟩) (i + 1) k
      ⟨qr, advF arch (i + 1) g⟩⟩ : Config).u (i + 1) k).ph
      = advF arch (i + 1) g := by
    dsimp only
    rw [updU_same]
  have hsent : fwdSentN arch ⟨c.d, updU (updU c.u i j ⟨qs, advS arch i s⟩)
      (i + 1) k ⟨qr, advF arch (i + 1) g⟩⟩ i j = s + 1 := by
    by_cases h2 : s + 1 < nout arch i
    · rw [fwdSentN_fsend (by rw [hph_s]; unfold advS; rw [if_pos h2])]
    · rw [fwdSentN_brecv (by rw [hph_s]; unfold advS; rw [if_neg h2])]
      omega
  have hrecv : recvdF arch ⟨c.d, updU (updU c.u i j ⟨qs, advS arch i s⟩)
      (i + 1) k ⟨qr, advF arch (i + 1) g⟩⟩ (i + 1) k = g + 1 := by
    by_cases h2 : g + 1 < nin arch (i + 1)
    · rw [recvdF_frecv (by rw [hph_r]; unfold advF; rw [if_pos h2])]
    · rw [recvdF_nf (by
        intro g2
        rw [hph_r]
        unfold advF
        rw [if_neg h2]
        intro h3
        nomatch h3)]
      omega
  have hSpt : ∀ a b : Nat, ¬(a = i ∧ b = j) →
      fwdSentN arch ⟨c.d, updU (updU c.u i j ⟨qs, advS arch i s⟩) (i + 1) k
        ⟨qr, advF arch (i + 1) g⟩⟩ a b = fwdSentN arch c a b := by
    intro a b hne
    by_cases h2 : a = i + 1 ∧ b = k
    · rw [h2.1, h2.2]
      rw [fwdSentN_frecv hphr]
      by_cases h3 : g + 1 < nin arch (i + 1)
      · rw [fwdSentN_frecv (by rw [hph_r]; unfold advF; rw [if_pos h3])]
      · rw [fwdSentN_fsend (by rw [hph_r]; unfold advF; rw [if_neg h3])]
    · apply fwdSentN_congr
      dsimp only
      rw [updU_other _ _ _ _ _ _ h2, updU_other _ _ _ _ _ _ hne]
  have hRpt : ∀ a b : Nat, ¬(a = i + 1 ∧ b = k) →
      recvdF arch ⟨c.d, updU (updU c.u i j ⟨qs, advS arch i s⟩) (i + 1) k
        ⟨qr, advF arch (i + 1) g⟩⟩ a b = recvdF arch c a b := by
    intro a b hne
    by_cases h2 : a = i ∧ b = j
    · rw [h2.1, h2.2]
      rw [recvdF_nf (show ∀ g2, (c.u i j).ph ≠ .frecv g2 from
        fun g2 h3 => by rw [hphs] at h3; nomatch h3)]
      rw [recvdF_nf (show ∀ g2, ((⟨c.d,
          updU (updU c.u i j ⟨qs, advS arch i s⟩) (i + 1) k
            ⟨qr, advF arch (i + 1) g⟩⟩ : Config).u i j).ph ≠ .frecv g2 from by
        intro g2 h3
        rw [hph_s] at h3
        exact hAS.1 g2 h3)]
    · apply recvdF_congr
      dsimp only
      rw [updU_other _ _ _ _ _ _ hne, updU_other _ _ _ _ _ _ h2]
  have hFC2 : FCon arch c → FCon arch ⟨c.d,
      updU (updU c.u i j ⟨qs, advS arch i s⟩) (i + 1) k
        ⟨qr, advF arch (i + 1) g⟩⟩ := by
    intro hFC t ht
    by_cases hti : t = i
    · subst hti
      have h1 := sum_range_swap_point (sz arch t) j hj
        (fun y => fwdSentN arch c t y)
        (fun y => fwdSentN arch ⟨c.d, updU (updU c.u t j ⟨qs, advS arch t s⟩)
          (t + 1) k ⟨qr, advF arch (t + 1) g⟩⟩ t y)
        (fun y hy => hSpt t y (fun hc => hy hc.2))
      dsimp only at h1
      rw [fwdSentN_fsend hphs, hsent] at h1
      have h2 := sum_range_swap_point (sz arch (t + 1)) k hk
        (fun y => recvdF arch c (t + 1) y)
        (fun y => recvdF arch ⟨c.d, updU (updU c.u t j ⟨qs, advS arch t s⟩)
          (t + 1) k ⟨qr, advF arch (t + 1) g⟩⟩ (t + 1) y)
        (fun y hy => hRpt (t + 1) y (fun hc => hy hc.2))
      dsimp only at h2
      rw [recvdF_frecv hphr, hrecv] at h2
      have h3 := hFC t ht
      unfold SSent SRecv at h3 ⊢
      omega
    · have e1 : SSent arch ⟨c.d, updU (updU c.u i j ⟨qs, advS arch i s⟩)
          (i + 1) k ⟨qr, advF arch (i + 1) g⟩⟩ t
          = SSent arch c t :=
        Finset.sum_congr rfl fun b _ => hSpt t b (fun hc => hti hc.1)
      have e2 : SRecv arch ⟨c.d, updU (updU c.u i j ⟨qs, advS arch i s⟩)
          (i + 1) k ⟨qr, advF arch (i + 1) g⟩⟩ (t + 1)
          = SRecv arch c (t + 1) :=
        Finset.sum_congr rfl fun b _ => hRpt (t + 1) b (fun hc => by omega)
      rw [e1, e2]
      exact hFC t ht
  refine ⟨?_, ?_, ?_, ?_⟩
  · intro fj hfj
    obtain ⟨hle, hPass, hFed, hPh, hFC, hNo, hOut⟩ := hFd fj hfj
    have hqs : qs = c.d.pass := by
      have h2 := hPass i (by omega) j hj
      rw [hus] at h2
      exact h2
    have hqr : qr = c.d.pass := by
      have h2 := hPass (i + 1) (by omega) k hk
      rw [hur] at h2
      exact h2
    refine ⟨hle, ?_, ?_, ?_, hFC2 hFC, ?_, ?_⟩
    · intro a ha b hb
      dsimp only
      rcases hval a b with he | ⟨_, _, he⟩ | ⟨_, _, he⟩
      · rw [he]
        exact hPass a ha b hb
      · rw [he]
        exact hqs
      · rw [he]
        exact hqr
    · intro b hb
      dsimp only
      rcases hval 0 b with he | ⟨hea, heb, he⟩ | ⟨hea, heb, he⟩
      · rw [he]
        exact hFed b hb
      · constructor
        · intro _ g2
          rw [he]
          exact hAS.1 g2
        · intro hbge
          exfalso
          have h2 := (hFed b hb).2 hbge
          rw [← hea, ← heb] at hphs
          rw [h2] at hphs
          nomatch hphs
      · exfalso
        omega
    · intro a ha b hb
      dsimp only
      rcases hval a b with he | ⟨hea, heb, he⟩ | ⟨hea, heb, he⟩
      · rw [he]
        exact hPh a ha b hb
      · rw [he, hea]
        refine ⟨?_, ?_, ?_, ?_⟩
        · intro g2 h2
          exact absurd h2 (hAS.1 g2)
        · intro s2 h2
          exact (hAS.2.1 s2 h2).2
        · intro g2 h2
          have h3 := hAS.2.2.1 g2 h2
          have h4 := nout_pos arch hpos i (by omega)
          omega
        · intro s2 h2
          exact absurd h2 (hAS.2.2.2.1 s2)
      · rw [he, hea]
        refine ⟨?_, ?_, ?_, ?_⟩
        · intro g2 h2
          exact hAF.1 g2 h2
        · intro s2 h2
          have h3 := hAF.2.1 s2 h2
          have h4 := nout_pos arch hpos (i + 1) (by omega)
          omega
        · intro g2 h2
          exact absurd h2 (hAF.2.2.1 g2)
        · intro s2 h2
          exact absurd h2 (hAF.2.2.2.1 s2)
    · intro a ha b hb
      dsimp only
      rcases hval a b with he | ⟨_, _, he⟩ | ⟨_, _, he⟩
      · rw [he]
        exact hNo a ha b hb
      · rw [he]
        refine ⟨?_, ?_, ?_⟩
        · intro g2 h2
          have h3 := hAS.2.2.1 g2 h2
          omega
        · intro s2
          exact hAS.2.2.2.1 s2
        · exact hAS.2.2.2.2
      · rw [he]
        refine ⟨?_, ?_, ?_⟩
        · intro g2 h2
          exact absurd h2 (hAF.2.2.1 g2)
        · intro s2
          exact hAF.2.2.2.1 s2
        · exact hAF.2.2.2.2
    · intro b hb g2
      dsimp only
      rcases hval (arch.length - 1) b with he | ⟨hea, _, he⟩ | ⟨hea, heb, he⟩
      · rw [he]
        exact hOut b hb g2
      · exfalso
        omega
      · rw [he]
        exact hAF.2.2.1 g2
  · intro cj hcj
    obtain ⟨hle, hPass, hFed, hPh, hFC, hNo, hColl⟩ := hCl cj hcj
    have hqs : qs = c.d.pass := by
      have h2 := hPass i (by omega) j hj
      rw [hus] at h2
      exact h2
    have hqr : qr = c.d.pass := by
      have h2 := hPass (i + 1) (by omega) k hk
      rw [hur] at h2
      exact h2
    refine ⟨hle, ?_, ?_, ?_, hFC2 hFC, ?_, ?_⟩
    · intro a ha b hb
      dsimp only
      rcases hval a b with he | ⟨_, _, he⟩ | ⟨_, _, he⟩
      · rw [he]
        exact hPass a ha b hb
      · rw [he]
        exact hqs
      · rw [he]
        exact hqr
    · intro b hb
      dsimp only
      rcases hval 0 b with he | ⟨hea, heb, he⟩ | ⟨hea, heb, he⟩
      · rw [he]
        exact hFed b hb
      · constructor
        · intro _ g2
          rw [he]
          exact hAS.1 g2
        · intro hbge
          exfalso
          have h2 := (hFed b hb).2 hbge
          rw [← hea, ← heb] at hphs
          rw [h2] at hphs
          nomatch hphs
      · exfalso
        omega
    · intro a ha b hb
      dsimp only
      rcases hval a b with he | ⟨hea, heb, he⟩ | ⟨hea, heb, he⟩
      · rw [he]
        exact hPh a ha b hb
      · rw [he, hea]
        refine ⟨?_, ?_, ?_, ?_⟩
        · intro g2 h2
          exact absurd h2 (hAS.1 g2)
        · intro s2 h2
          exact (hAS.2.1 s2 h2).2
        · intro g2 h2
          have h3 := hAS.2.2.1 g2 h2
          have h4 := nout_pos arch hpos i (by omega)
          omega
        · intro s2 h2
          exact absurd h2 (hAS.2.2.2.1 s2)
      · rw [he, hea]
        refine ⟨?_, ?_, ?_, ?_⟩
        · intro g2 h2
          exact hAF.1 g2 h2
        · intro s2 h2
          have h3 := hAF.2.1 s2 h2
          have h4 := nout_pos arch hpos (i + 1) (by omega)
          omega
        · intro g2 h2
          exact absurd h2 (hAF.2.2.1 g2)
        · intro s2 h2
          exact absurd h2 (hAF.2.2.2.1 s2)
    · intro a ha b hb
      dsimp only
      rcases hval a b with he | ⟨_, _, he⟩ | ⟨_, _, he⟩
      · rw [he]
        exact hNo a ha b hb
      · rw [he]
        refine ⟨?_, ?_, ?_⟩
        · intro g2 h2
          have h3 := hAS.2.2.1 g2 h2
          omega
        · intro s2
          exact hAS.2.2.2.1 s2
        · exact hAS.2.2.2.2
      · rw [he]
        refine ⟨?_, ?_, ?_⟩
        · intro g2 h2
          exact absurd h2 (hAF.2.2.1 g2)
        · intro s2
          exact hAF.2.2.2.1 s2
        · exact hAF.2.2.2.2
    · intro b hb
      dsimp only
      rcases hval (arch.length - 1) b with he | ⟨hea, heb, he⟩ | ⟨hea, heb, he⟩
      · rw [he]
        exact hColl b hb
      · exfalso
        omega
      · constructor
        · intro hblt
          exfalso
          have h2 := (hColl b hb).1 hblt
          rw [← hea, ← heb] at hphr
          rw [h2] at hphr
          nomatch hphr
        · intro _ g2
          rw [he]
          exact hAF.2.2.1 g2
  · intro gj hgj
    obtain ⟨_, _, _, hAll, _⟩ := hGr gj hgj
    exact absurd hphs ((hAll i (by omega) j hj).2 s)
  · intro sc hsc
    obtain ⟨_, hSync⟩ := hSy sc hsc
    rcases hSync i (by omega) j hj with ⟨_, _, h3⟩ | ⟨_, h2⟩
    · exact absurd hphs (h3 s)
    · rw [hphs] at h2
      nomatch h2

end Neuron

namespace Neuron

theorem INV_step (arch : List Nat) (c c' : Config)
    (hlen : 3 ≤ arch.length)
    (hpos : ∀ t, t < arch.length → 1 ≤ sz arch t)
    (h : BStep arch c c') (hinv : INV arch c) : INV arch c' := by
  cases h with
  | feed p fj q g hd hfj hu hg =>
      exact INV_feed arch c p fj q g hlen hpos hd hfj hu hg hinv
  | feedDone p hd => exact INV_feedDone arch c p hd hinv
  | ffire i j k qs s qr g hi hj hk hus hs hur hg =>
      exact INV_ffire arch c i j k qs s qr g hpos hi hj hk hus hs hur hg hinv
  | collect p cj q s hd hcj hu hs =>
      exact INV_collect arch c p cj q s hlen hd hcj hu hs hinv
  | collectDone p hd => exact INV_collectDone arch c p hlen hpos hd hinv
  | grade p gj q g hd hgj hu hg =>
      exact INV_grade arch c p gj q g hlen hpos hd hgj hu hg hinv
  | bfire i j k qs s qr g hi1 hi hj hk hus hs hur hg =>
      exact INV_bfire arch c i j k qs s qr g hi1 hi hj hk hus hs hur hg hinv
  | gradeDone p hd => exact INV_gradeDone arch c p hd hinv
  | sync p sc i j q hd hi hj hu =>
      exact INV_sync arch c p sc i j q hd hi hj hu hinv
  | syncDone p hd => exact INV_syncDone arch c p hlen hpos hd hinv

theorem INV_init (arch : List Nat)
    (hpos : ∀ t, t < arch.length → 1 ≤ sz arch t) : INV arch initC := by
  refine ⟨?_, ?_, ?_, ?_⟩
  · intro fj hfj
    injection hfj with h2
    subst h2
    refine ⟨Nat.zero_le _, ?_, ?_, ?_, ?_, ?_, ?_⟩
    · intro i hi j hj
      rfl
    · intro k hk
      exact ⟨fun h2 => absurd h2 (by omega), fun _ => rfl⟩
    · intro i hi j hj
      refine ⟨?_, ?_, ?_, ?_⟩
      · intro g h2
        injection h2 with h3
        subst h3
        unfold nin
        split
        · omega
        · next h4 =>
            have h5 := hpos (i - 1) (by omega)
            omega
      · intro s h2
        nomatch h2
      · intro g h2
        nomatch h2
      · intro s h2
        nomatch h2
    · intro i hi
      unfold SSent SRecv
      rw [Finset.sum_eq_zero, Finset.sum_eq_zero]
      · intro k _
        rfl
      · intro j _
        rfl
    · intro i hi j hj
      refine ⟨?_, ?_, ?_⟩
      · intro g h2
        nomatch h2
      · intro s h2
        nomatch h2
      · intro h2
        nomatch h2
    · intro k hk g h2
      nomatch h2
  · intro cj hcj
    nomatch hcj
  · intro gj hgj
    nomatch hgj
  · intro sc hsc
    nomatch hsc

theorem INV_reach (arch : List Nat) (c : Config)
    (hlen : 3 ≤ arch.length)
    (hpos : ∀ t, t < arch.length → 1 ≤ sz arch t)
    (hreach : Reach arch c) : INV arch c := by
  induction hreach with
  | refl => exact INV_init arch hpos
  | tail hsteps hstep ih => exact INV_step arch _ _ hlen hpos hstep ih

end Neuron

namespace Neuron

/-- **C3.** The `sync` barrier: in every reachable configuration of the
training-mode transition system, (i) while the driver is inside `sync` its
receive counter equals the number of units that have reported completion of
the current pass, every unit's pass counter is the driver's pass or one
ahead, and a unit that is one ahead has reported exactly once and is blocked
at the very start of the next pass's forward receive loop (so it cannot
report again, and two passes never overlap on one unit); (ii) whenever the
driver is feeding a pass's inputs — the only source from which any unit's
forward fan-in can transitively originate — every unit in the network has
completed and reported all previous passes (pass counters all equal the
driver's); (iii) the driver leaves `sync`, advancing to the next pass's
Forward, only after receiving exactly `totalUnits` completion signals. -/
theorem sync_barrier (arch : List Nat) (c : Config)
    (hlen : 3 ≤ arch.length)
    (hpos : ∀ t, t < arch.length → 1 ≤ sz arch t)
    (hreach : Reach arch c) :
    (∀ sc, c.d.dph = .syncing sc →
      sc = reported arch c
      ∧ ∀ i, i < arch.length → ∀ j, j < sz arch i →
          ((c.u i j).pass = c.d.pass ∨ (c.u i j).pass = c.d.pass + 1)
          ∧ ((c.u i j).pass = c.d.pass + 1 → (c.u i j).ph = .frecv 0))
    ∧ (∀ fj, c.d.dph = .feeding fj →
        ∀ i, i < arch.length → ∀ j, j < sz arch i →
          (c.u i j).pass = c.d.pass)
    ∧ (∀ sc c', c.d.dph = .syncing sc → BStep arch c c' →
        c'.d.pass = c.d.pass + 1 → sc = totU arch) := by
  obtain ⟨hFd, hCl, hGr, hSy⟩ := INV_reach arch c hlen hpos hreach
  refine ⟨?_, ?_, ?_⟩
  · intro sc hsc
    obtain ⟨hrep, hSync⟩ := hSy sc hsc
    refine ⟨hrep, ?_⟩
    intro i hi j hj
    rcases hSync i hi j hj with ⟨h1, h2, h3⟩ | ⟨h1, h2⟩
    · exact ⟨Or.inl h1, fun h4 => by omega⟩
    · exact ⟨Or.inr h1, fun _ => h2⟩
  · intro fj hfj i hi j hj
    exact (hFd fj hfj).2.1 i hi j hj
  · intro sc c' hsc hstep hpass
    cases hstep with
    | feed p fj q g hd hfj hu hg =>
        rw [hd] at hsc
        nomatch hsc
    | feedDone p hd =>
        rw [hd] at hsc
        nomatch hsc
    | ffire i j k qs s qr g hi hj hk hus hs hur hg =>
        dsimp only at hpass
        omega
    | collect p cj q s hd hcj hu hs =>
        rw [hd] at hsc
        nomatch hsc
    | collectDone p hd =>
        rw [hd] at hsc
        nomatch hsc
    | grade p gj q g hd hgj hu hg =>
        rw [hd] at hsc
        nomatch hsc
    | bfire i j k qs s qr g hi1 hi hj hk hus hs hur hg =>
        dsimp only at hpass
        omega
    | gradeDone p hd =>
        rw [hd] at hsc
        nomatch hsc
    | sync p sc2 i j q hd hi hj hu =>
        dsimp only at hpass
        have hp2 : c.d.pass = p := by rw [hd]
        omega
    | syncDone p hd =>
        rw [hd] at hsc
        injection hsc with h2
        omega

theorem sync_barrier_witness :
    (∀ sc, initC.d.dph = .syncing sc →
      sc = reported [1, 1, 1] initC
      ∧ ∀ i, i < ([1, 1, 1] : List Nat).length → ∀ j, j < sz [1, 1, 1] i →
          ((initC.u i j).pass = initC.d.pass
            ∨ (initC.u i j).pass = initC.d.pass + 1)
          ∧ ((initC.u i j).pass = initC.d.pass + 1 →
              (initC.u i j).ph = .frecv 0))
    ∧ (∀ fj, initC.d.dph = .feeding fj →
        ∀ i, i < ([1, 1, 1] : List Nat).length → ∀ j, j < sz [1, 1, 1] i →
          (initC.u i j).pass = initC.d.pass)
    ∧ (∀ sc c', initC.d.dph = .syncing sc → BStep [1, 1, 1] initC c' →
        c'.d.pass = initC.d.pass + 1 → sc = totU [1, 1, 1]) :=
  sync_barrier [1, 1, 1] initC (by decide) (by decide)
    Relation.ReflTransGen.refl

end Neuron
